import Mathlib

/-!
# Verification of the `reap` heap-analysis core

A shallow embedding, in Lean 4, of the retention-analysis core of the
`reap` heap snapshot analyzer (`src/object.rs`, `src/parse.rs`,
`src/analyze.rs`, `src/dominator.rs`), together with proofs and
refutations of the specification's claims about it.

Modelling conventions:
* Rust `usize` values are modelled as `Nat`. Debug builds of the source
  panic on arithmetic overflow, so the non-overflowing executions are the
  defined ones and exact natural arithmetic is the faithful model.
* A Rust panic (out-of-range slice, `expect`, indexing a missing
  `HashMap` key) is modelled as `Except.error ()` or `Option.none`,
  as noted at each definition.
* `HashMap` values are modelled as association lists; where the source
  iterates a `HashMap` (whose order is arbitrary), theorems either
  quantify over permutations or establish order-independent facts.
* Loops without a structural termination measure (walks up a dominator
  map that could, for a degenerate map, cycle) take explicit fuel; the
  theorems assume the map is well founded, which is what the source
  guarantees for every map it actually builds.
-/

deriving instance DecidableEq for Except

namespace Reap

/-! ## `src/object.rs`: `Stats` and `Object` -/

/-- `Stats` from `object.rs`: the `(count, bytes)` aggregate. -/
structure Stats where
  count : Nat
  bytes : Nat
deriving DecidableEq, Repr

/-- `Stats::default()`: the identity aggregate `(0, 0)`. -/
def Stats.zero : Stats := ⟨0, 0⟩

/-- `Stats::add`: componentwise addition. -/
def Stats.add (s t : Stats) : Stats := ⟨s.count + t.count, s.bytes + t.bytes⟩

/-- `Object` from `object.rs`. -/
structure Object where
  address : Nat
  bytes : Nat
  kind : String
  label : Option String
deriving DecidableEq, Repr

/-- `Object::stats`: the self-stats `(1, bytes)`. -/
def Object.stats (o : Object) : Stats := ⟨1, o.bytes⟩

/-- `Object::root()`: the synthetic root with address 0. -/
def Object.rootObj : Object := ⟨0, 0, "ROOT", some "root"⟩

/-- `Object::is_root`: an object is the root iff its address is 0. -/
def Object.isRoot (o : Object) : Bool := o.address == 0

/-! ## Association lists standing for `HashMap` -/

/-- `HashMap::insert` on an association list: replace the binding in
place if the key is present, append otherwise. Keeps keys nodup. -/
def alInsert {κ α : Type} [DecidableEq κ] (k : κ) (v : α) : List (κ × α) → List (κ × α)
  | [] => [(k, v)]
  | (k', v') :: rest => if k' = k then (k, v) :: rest else (k', v') :: alInsert k v rest

/-- `HashMap::get` on an association list (first binding wins). -/
def alLookup {κ α : Type} [DecidableEq κ] (k : κ) : List (κ × α) → Option α
  | [] => none
  | (k', v') :: rest => if k' = k then some v' else alLookup k rest

/-- `HashMap::entry(k).and_modify(f)`: update the binding at `k` in
place when present; do nothing otherwise. -/
def alModify {κ α : Type} [DecidableEq κ] (k : κ) (f : α → α) : List (κ × α) → List (κ × α)
  | [] => []
  | (k', v') :: rest => if k' = k then (k', f v') :: rest else (k', v') :: alModify k f rest

/-- `HashMap::entry(k).and_modify(f).or_insert(dflt)`. -/
def alUpsert {κ α : Type} [DecidableEq κ] (k : κ) (f : α → α) (dflt : α) :
    List (κ × α) → List (κ × α)
  | [] => [(k, dflt)]
  | (k', v') :: rest => if k' = k then (k', f v') :: rest else (k', v') :: alUpsert k f dflt rest

/-! ## `src/parse.rs`: address parsing

Rust strings are modelled as lists of characters with UTF-8 byte
semantics; `&addr[2..]` is byte-indexed slicing, which panics when byte
index 2 is past the end or not a character boundary.
-/

/-- `char::len_utf8`: the UTF-8 byte length of one character. -/
def charLen (c : Char) : Nat :=
  if c.toNat < 0x80 then 1
  else if c.toNat < 0x800 then 2
  else if c.toNat < 0x10000 then 3
  else 4

/-- UTF-8 byte length of a Rust string. -/
def utf8Len (s : List Char) : Nat := (s.map charLen).sum

/-- Rust's `&s[2..]`: `some rest` when byte index 2 is in range and a
character boundary; `none` models the slice panic. -/
def sliceFrom2 : List Char → Option (List Char)
  | [] => none
  | c :: rest =>
    if charLen c = 2 then some rest
    else if charLen c = 1 then
      match rest with
      | [] => none
      | c2 :: rest2 => if charLen c2 = 1 then some rest2 else none
    else none

/-- Value of one hexadecimal digit, as accepted by
`usize::from_str_radix(_, 16)`. -/
def hexDigitVal (c : Char) : Option Nat :=
  if '0' ≤ c ∧ c ≤ '9' then some (c.toNat - '0'.toNat)
  else if 'a' ≤ c ∧ c ≤ 'f' then some (c.toNat - 'a'.toNat + 10)
  else if 'A' ≤ c ∧ c ≤ 'F' then some (c.toNat - 'A'.toNat + 10)
  else none

/-- Largest `usize` value (the source targets 64-bit platforms). -/
def usizeMax : Nat := 2 ^ 64 - 1

/-- `usize::from_str_radix(s, 16)`: an optional leading `+`, then a
nonempty run of hex digits; `none` models `Err` (empty digits, a
non-digit, or positive overflow past `usize::MAX`; the source's
step-by-step checked arithmetic errs exactly when the final value
overflows, since accumulation is monotone). -/
def fromStrRadix16 (s : List Char) : Option Nat :=
  let t := match s with
    | '+' :: r => r
    | r => r
  match t with
  | [] => none
  | _ =>
    let v? := t.foldl
      (fun acc c =>
        match acc, hexDigitVal c with
        | some a, some d => some (a * 16 + d)
        | _, _ => none)
      (some 0)
    match v? with
    | some v => if v ≤ usizeMax then some v else none
    | none => none

/-- `parse_address` from `parse.rs`:
`usize::from_str_radix(&addr[2..], 16)`.
The outer `Option` models the slice panic (`none` = the process
aborts); `some r` is the returned `Result`, with `r = none` for `Err`
and `r = some v` for `Ok(v)`. -/
def parse_address (addr : List Char) : Option (Option Nat) :=
  (sliceFrom2 addr).map fromStrRadix16

/-! ## `src/parse.rs`: record parsing and graph building -/

/-- One decoded snapshot record (the `Line` struct of `parse.rs`, after
serde's JSON decoding, which is outside the model). The source field
`class` is a Lean keyword and is spelled `classRef` here. -/
structure Line where
  address : Option (List Char)
  memsize : Option Nat
  references : List (List Char)
  object_type : String
  classRef : Option (List Char)
  name : Option String
  length : Option Nat
  size : Option Nat
  value : Option String
deriving DecidableEq, Repr

/-- `ParsedLine` from `parse.rs`. -/
structure ParsedLine where
  object : Object
  references : List Nat
  module : Option Nat
  name : Option String
deriving DecidableEq, Repr

/-- Rust's `format!("{:#x}", n)`: `0x` followed by lowercase hex. -/
def toHexLit (n : Nat) : String := "0x" ++ (Nat.toDigits 16 n).asString

/-- `char::is_control`: the Unicode `Cc` category. -/
def isControlChar (c : Char) : Bool :=
  c.toNat < 0x20 || (0x7f ≤ c.toNat && c.toNat ≤ 0x9f)

/-- The `STRING` label of `Line::parse`: at most 40 characters of the
value with control characters removed and backslashes replaced, plus an
ellipsis when a character at index 41 exists. -/
def stringPreview (address : Nat) (v : String) : String :=
  let pfx := ((v.data.take 40).filterMap fun c =>
    if isControlChar c then none
    else if c = '\\' then some '﹨'
    else some c).asString
  let ell := if v.data.drop 41 ≠ [] then "…" else ""
  "String[" ++ toHexLit address ++ "][" ++ pfx ++ ell ++ "]"

/-- The reference list of `ParsedLine`:
`references.iter().flat_map(|r| parse_address(r).ok())`, left to right;
a slice panic inside `parse_address` propagates (`throw`), a plain
parse failure drops the reference. -/
def parseRefs : List (List Char) → Except Unit (List Nat)
  | [] => .ok []
  | r :: rest =>
    match parse_address r with
    | none => .error ()
    | some o =>
      match parseRefs rest with
      | .error e => .error e
      | .ok tail => .ok (match o with | some v => v :: tail | none => tail)

/-- `Line::parse` from `parse.rs`. `Except.error ()` models a panic
(out-of-range slice in `parse_address`); `.ok none` models the dropped
record (`return None`, including the `?` on `length`/`size`);
`.ok (some p)` is `Some(ParsedLine ...)`. -/
def Line.parse (self : Line) (classNameOnly : Bool) : Except Unit (Option ParsedLine) := do
  let address ←
    match self.address with
    | none => pure 0
    | some a =>
      match parse_address a with
      | none => Except.error ()
      | some r => pure (r.getD 0)
  let bytes := self.memsize.getD 0
  let kind := self.object_type
  if address = 0 ∧ kind ≠ "ROOT" then
    return none
  let label? : Option (Option String) :=
    if classNameOnly then
      some (match kind with
        | "CLASS" | "MODULE" | "ICLASS" => self.name.map (fun n => n ++ "[" ++ kind ++ "]")
        | "ARRAY" => some "Array"
        | "HASH" => some "Hash"
        | "STRING" => some "String"
        | _ => none)
    else
      match kind with
      | "CLASS" | "MODULE" | "ICLASS" =>
        some (self.name.map (fun n => n ++ "[" ++ toHexLit address ++ "][" ++ kind ++ "]"))
      | "ARRAY" =>
        match self.length with
        | none => none
        | some len => some (some ("Array[" ++ toHexLit address ++ "][len=" ++ Nat.repr len ++ "]"))
      | "HASH" =>
        match self.size with
        | none => none
        | some sz => some (some ("Hash[" ++ toHexLit address ++ "][size=" ++ Nat.repr sz ++ "]"))
      | "STRING" => some (self.value.map (stringPreview address))
      | _ => some none
  match label? with
  | none => return none
  | some label =>
    let refs ← parseRefs self.references
    let module ←
      match self.classRef with
      | none => pure none
      | some c =>
        match parse_address c with
        | none => Except.error ()
        | some r => pure r
    return some ⟨⟨address, bytes, kind, label⟩, refs, module, self.name⟩

/-- A petgraph `Graph<Object, &str, Directed, usize>`: nodes in
insertion order (the position is the `NodeIndex`), edges as index
pairs; the unit edge weight is dropped. -/
structure RefGraph where
  nodes : List Object
  edges : List (Nat × Nat)
deriving DecidableEq, Repr

/-- The mutable state of `parse` in `parse.rs` while streaming records. -/
structure BuildState where
  nodes : List Object
  indices : List (Nat × Nat)
  references : List (Nat × List Nat)
  instances : List (Nat × Nat)
  names : List (Nat × String)
deriving DecidableEq, Repr

/-- The state after inserting the synthetic root. -/
def initState : BuildState := ⟨[Object.rootObj], [(0, 0)], [(0, [])], [], []⟩

/-- One iteration of the record loop of `parse`. The caller applies
`.expect(&line)` to the `Option` returned by `Line::parse`, so a
dropped record (`none`) panics. The `.getD []` models
`references.get_mut(&root_address).unwrap()`; the binding for key 0 is
created before the loop and never removed. -/
def buildStep (classNameOnly : Bool) (st : BuildState) (line : Line) : Except Unit BuildState := do
  let parsed? ← line.parse classNameOnly
  match parsed? with
  | none => Except.error ()
  | some parsed =>
    if parsed.object.isRoot then
      return { st with
        references := alInsert 0 (((alLookup 0 st.references).getD []) ++ parsed.references) st.references }
    else
      let address := parsed.object.address
      return { st with
        nodes := st.nodes ++ [parsed.object],
        indices := alInsert address st.nodes.length st.indices,
        references :=
          if parsed.references ≠ [] then alInsert address parsed.references st.references
          else st.references,
        instances :=
          match parsed.module with
          | some m => alInsert address m st.instances
          | none => st.instances,
        names :=
          match parsed.name with
          | some n => alInsert address n st.names
          | none => st.names }

/-- The edge-materialization loop of `parse`: for each recorded
reference list, resolve the source (`&indices[&node]` panics when
absent) and keep exactly the references whose target address resolves. -/
def materializeEdges (indices : List (Nat × Nat)) :
    List (Nat × List Nat) → Except Unit (List (Nat × Nat))
  | [] => .ok []
  | (node, succs) :: rest =>
    match alLookup node indices with
    | none => .error ()
    | some i =>
      match materializeEdges indices rest with
      | .error e => .error e
      | .ok tail => .ok ((succs.filterMap fun s => (alLookup s indices).map fun j => (i, j)) ++ tail)

/-- The kind-rewrite pass of `parse`: an instance object inherits the
`name` of its class-module node when both are known. -/
def rewriteKinds (instances : List (Nat × Nat)) (names : List (Nat × String))
    (nodes : List Object) : List Object :=
  nodes.map fun obj =>
    match alLookup obj.address instances with
    | some module =>
      match alLookup module names with
      | some n => { obj with kind := n }
      | none => obj
    | none => obj

/-- `parse` from `parse.rs`, starting from already-JSON-decoded
records (serde decoding and I/O are outside the model; a JSON decode
failure also panics in the source). Returns the root index (always 0,
the first node added) and the finished graph. -/
def buildGraph (lines : List Line) (classNameOnly : Bool) : Except Unit (Nat × RefGraph) := do
  let st ← lines.foldlM (buildStep classNameOnly) initState
  let edges ← materializeEdges st.indices st.references
  return (0, ⟨rewriteKinds st.instances st.names st.nodes, edges⟩)

/-! ## Graph access helpers -/

/-- Placeholder object; only returned for out-of-range indices, where
the source would panic. Theorems only evaluate valid indices. -/
def dummyObject : Object := ⟨0, 0, "", none⟩

/-- `graph[i]`, the node weight at index `i`. -/
def RefGraph.objAt (g : RefGraph) (i : Nat) : Object := g.nodes.getD i dummyObject

/-- `graph[i].address`. -/
def RefGraph.addrAt (g : RefGraph) (i : Nat) : Nat := (g.objAt i).address

/-- `graph.node_indices()`, in order. -/
def RefGraph.indicesList (g : RefGraph) : List Nat := List.range g.nodes.length

/-- `graph.neighbors(i)`: targets of the out-edges of `i` (petgraph
iterates them most-recent-first; only the set matters to any claim). -/
def RefGraph.succList (g : RefGraph) (i : Nat) : List Nat :=
  g.edges.filterMap fun e => if e.1 = i then some e.2 else none

/-! ## Dominator chains

`analyze.rs` repeatedly walks `idom` maps upward
(`while let Some(&d) = dominators.get(&i)`). On a well-founded map the
walk is finite; the fuel below is enough for any such map, and the
theorems assume well-foundedness (`DomWF`), which holds for every map
the source builds. -/

/-- The successive values of `d` in a walk
`while let Some(&d) = doms.get(&i) ... i = d`, fuel-bounded. -/
def chainAux (doms : List (Nat × Nat)) : Nat → Nat → List Nat
  | 0, _ => []
  | fuel + 1, i =>
    match alLookup i doms with
    | none => []
    | some d => d :: chainAux doms fuel d

/-- The strict dominator chain of `i`: `doms[i], doms[doms[i]], …`
down to the first index with no binding. -/
def chain (doms : List (Nat × Nat)) (i : Nat) : List Nat :=
  chainAux doms (doms.length + 1) i

/-- A dominator map is well founded: some rank strictly decreases along
its bindings. True of every immediate-dominator map (depth in the
dominator tree decreases), and exactly what makes the source's chain
walks terminate. -/
def DomWF (doms : List (Nat × Nat)) : Prop :=
  ∃ rank : Nat → Nat, ∀ p ∈ doms, rank p.2 < rank p.1

/-! ## `find_reachable_indices` (depth-first reachability) -/

/-- The visited-set loop of petgraph's `Dfs`: pop, skip if discovered,
otherwise record and push successors. Fuel-bounded; `dfsFuel` below is
always enough. -/
def dfsAux (g : RefGraph) : Nat → List Nat → List Nat → List Nat
  | 0, _, visited => visited
  | _ + 1, [], visited => visited
  | fuel + 1, i :: stack, visited =>
    if visited.contains i then dfsAux g fuel stack visited
    else dfsAux g fuel (g.succList i ++ stack) (visited ++ [i])

/-- Enough fuel to drain the DFS stack on any input. -/
def dfsFuel (g : RefGraph) : Nat :=
  (g.nodes.length + 1) * (g.edges.length + 2) + 1

/-- `find_reachable_indices` from `analyze.rs`: every node reachable
from `root` by directed edges (including `root`, inserted up front). -/
def find_reachable_indices (root : Nat) (g : RefGraph) : List Nat :=
  dfsAux g (dfsFuel g) [root] []

/-! ## `find_addrs_of_filtered_edges` -/

/-- The commit step of the walk in `find_addrs_of_filtered_edges`:
insert `child → parent`, then re-insert the accumulated descendents in
reverse, each pointing at the one committed just before it. -/
def commitPath (g : RefGraph) (child parent : Nat) (descendents : List Nat)
    (result : List (Nat × Nat)) : List (Nat × Nat) :=
  (descendents.reverse.foldl
    (fun acc c => (alInsert (g.addrAt c) (g.addrAt acc.2) acc.1, c))
    (alInsert (g.addrAt child) (g.addrAt parent) result, child)).1

/-- The inner `loop` of `find_addrs_of_filtered_edges`, walking from a
`(child, parent)` binding up the dominator map. Breaks: an unreachable
parent (the optimization the claim compares), a missing binding, or
fuel (the source loop diverges on a cyclic map; impossible under
`DomWF`). -/
def faWalk (root : Nat) (reachable : List Nat) (tree_edges : List (Nat × Nat))
    (g : RefGraph) :
    Nat → Nat → Nat → List Nat → List (Nat × Nat) → List (Nat × Nat)
  | 0, _, _, _, result => result
  | fuel + 1, child, parent, descendents, result =>
    if ¬ reachable.contains parent then result
    else if parent = root ∨ (alLookup (g.addrAt parent) result).isSome then
      commitPath g child parent descendents result
    else
      match alLookup parent tree_edges with
      | some grandparent =>
        faWalk root reachable tree_edges g fuel parent grandparent
          (descendents ++ [child]) result
      | none => result

/-- `find_addrs_of_filtered_edges` from `analyze.rs`: iterate the
`(child, parent)` bindings of the dominator map (here: in list order;
the source iterates a `HashMap` in arbitrary order, and the result is
proved independent of that order), walking each up with a reusable
descendents buffer. -/
def find_addrs_of_filtered_edges (root : Nat) (reachable : List Nat)
    (tree_edges : List (Nat × Nat)) (g : RefGraph) : List (Nat × Nat) :=
  tree_edges.foldl
    (fun result cp =>
      faWalk root reachable tree_edges g (tree_edges.length + 2) cp.1 cp.2 [] result)
    []

/-! ## Subgraph extraction -/

/-- petgraph's `filter_map` with identity edge function: keep a subset
of nodes, renumber them compactly in order, keep edges between kept
nodes. -/
def filterNodes (g : RefGraph) (keep : Nat → Bool) : RefGraph :=
  let keptIdx := g.indicesList.filter keep
  { nodes := keptIdx.map g.objAt,
    edges := g.edges.filterMap fun e =>
      if keep e.1 && keep e.2 then some (keptIdx.indexOf e.1, keptIdx.indexOf e.2)
      else none }

/-- `map_indices` from `analyze.rs`: translate address-keyed dominator
edges back to indices of the reduced graph. Indexing the built
`index_by_addr` map (`index_by_addr[&a]`) panics when an address is
absent: `none` models that. -/
def map_indices (g : RefGraph) (addr_edges : List (Nat × Nat)) (rootAddr : Nat) :
    Option (Nat × List (Nat × Nat)) := do
  let index_by_addr := g.indicesList.foldl (fun m i => alInsert (g.addrAt i) i m) []
  let mapped ← addr_edges.foldlM
    (fun acc ad => do
      let i ← alLookup ad.1 index_by_addr
      let j ← alLookup ad.2 index_by_addr
      pure (alInsert i j acc))
    ([] : List (Nat × Nat))
  let r ← alLookup rootAddr index_by_addr
  pure (r, mapped)

/-- `remove_unreachable` from `analyze.rs` (whole-graph mode): one
sweep over the nodes classifies each as reachable (the root, or bound
in the dominator map — every reachable node has a dominator) or
unreachable, collecting dominator edges in address terms. The source's
cheap sanity asserts are omitted here and proved as theorems instead. -/
def remove_unreachable (root : Nat) (g : RefGraph) (dominators : List (Nat × Nat)) :
    Option (Nat × RefGraph × List Object × List (Nat × Nat)) :=
  let keep : Nat → Bool := fun i => i == root || (alLookup i dominators).isSome
  let unreachable := (g.indicesList.filter fun i => ¬ keep i).map g.objAt
  let dominator_addrs := g.indicesList.foldl
    (fun m i =>
      if i = root then m
      else
        match alLookup i dominators with
        | some d => alInsert (g.addrAt i) (g.addrAt d) m
        | none => m)
    []
  let reachableG := filterNodes g keep
  (map_indices reachableG dominator_addrs (g.addrAt root)).map
    fun rd => (rd.1, reachableG, unreachable, rd.2)

/-- `extract_dominated_subgraph` from `analyze.rs` (subtree mode): keep
the chosen root plus every node whose address was proved dominated;
`rest` collects reachable-but-not-dominated nodes. Sanity asserts and
the debug cross-check are again proved as theorems, not embedded. -/
def extract_dominated_subgraph (root : Nat) (g : RefGraph)
    (dominators : List (Nat × Nat)) :
    Option (Nat × RefGraph × List Object × List (Nat × Nat)) :=
  let reachable := find_reachable_indices root g
  let dominator_addrs := find_addrs_of_filtered_edges root reachable dominators g
  let keep : Nat → Bool := fun i => i == root || (alLookup (g.addrAt i) dominator_addrs).isSome
  let rest := (g.indicesList.filter fun i => ¬ keep i && reachable.contains i).map g.objAt
  let dominated := filterNodes g keep
  (map_indices dominated dominator_addrs (g.addrAt root)).map
    fun rd => (rd.1, dominated, rest, rd.2)

/-! ## `dominator_subtree_sizes` -/

/-- `dominator_subtree_sizes` from `analyze.rs`: seed each node with
its own stats, then walk each node's dominator chain adding its stats
to every ancestor (`entry(d).and_modify`: a chain element without an
entry is skipped but the walk continues). The successive `d` values of
the source's `while let` loop are exactly `chain dominators i`. -/
def dominator_subtree_sizes (g : RefGraph) (dominators : List (Nat × Nat)) :
    List (Nat × Stats) :=
  let init := g.indicesList.map fun i => (i, (g.objAt i).stats)
  g.indicesList.foldl
    (fun sizes i =>
      (chain dominators i).foldl
        (fun sz d => alModify d (fun e => e.add (g.objAt i).stats) sz) sizes)
    init

/-! ## Ranking -/

/-- `by_kind` from `analyze.rs`: fold stats into a map keyed by `kind`
(result listed in first-insertion order; the source's `HashMap`
iteration order is handled where it matters). -/
def by_kind (objs : List (Object × Stats)) : List (String × Stats) :=
  objs.foldl (fun m os => alUpsert os.1.kind (fun c => c.add os.2) os.2 m) []

/-- Sort order of `largest_and_rest`:
`sort_unstable_by_key(|(_, c)| usize::max_value() - c.bytes)` sorts
ascending in `usize::MAX - bytes`, i.e. descending in `bytes` (every
`usize` is at most `usize::MAX`, so the subtraction never underflows
and reverses the order exactly). -/
def byBytesDesc {κ : Type} (a b : κ × Stats) : Prop := b.2.bytes ≤ a.2.bytes

instance {κ : Type} : DecidableRel (byBytesDesc (κ := κ)) :=
  fun a b => Nat.decLe b.2.bytes a.2.bytes

/-- `largest_and_rest` from `analyze.rs`: sort descending by bytes
(`sort_unstable` is replaced by a sort — the claims hold for, and the
ties claim fails for, any sorted permutation), then either everything
with an identity rest, or the first `count` plus the folded remainder. -/
def largest_and_rest {κ : Type} (l : List (κ × Stats)) (count : Nat) :
    List (κ × Stats) × Stats :=
  let sorted := List.insertionSort byBytesDesc l
  if count ≥ sorted.length then (sorted, Stats.zero)
  else (sorted.take count, (sorted.drop count).foldl (fun acc c => acc.add c.2) Stats.zero)

/-! ## `Analysis` -/

/-- The `Analysis` struct of `analyze.rs`. -/
structure Analysis where
  root : Nat
  dominated_subgraph : RefGraph
  rest : List Object
  dominators : List (Nat × Nat)
  subtree_sizes : List (Nat × Stats)
deriving DecidableEq, Repr

/-- `dominated_totals`: `self.subtree_sizes[&self.root]` (indexing a
`HashMap` panics when the key is absent; the analysis always binds its
root, and every theorem's hypotheses imply the default is unused). -/
def Analysis.dominated_totals (a : Analysis) : Stats :=
  (alLookup a.root a.subtree_sizes).getD Stats.zero

/-- `live_stats_by_kind`. -/
def Analysis.live_stats_by_kind (a : Analysis) (topN : Nat) :
    List (String × Stats) × Stats :=
  largest_and_rest
    (by_kind (a.dominated_subgraph.indicesList.map fun i =>
      (a.dominated_subgraph.objAt i, (a.dominated_subgraph.objAt i).stats)))
    topN

/-- `retained_stats_by_kind` (`self.subtree_sizes[&i]` panics when
absent; every node of the dominated subgraph is sized). -/
def Analysis.retained_stats_by_kind (a : Analysis) (topN : Nat) :
    List (String × Stats) × Stats :=
  largest_and_rest
    (by_kind (a.dominated_subgraph.indicesList.map fun i =>
      (a.dominated_subgraph.objAt i, (alLookup i a.subtree_sizes).getD Stats.zero)))
    topN

/-- `unreachable_stats_by_kind`. -/
def Analysis.unreachable_stats_by_kind (a : Analysis) (topN : Nat) :
    List (String × Stats) × Stats :=
  largest_and_rest (by_kind (a.rest.map fun o => (o, o.stats))) topN

/-- `dominator_subtree_stats`. -/
def Analysis.dominator_subtree_stats (a : Analysis) (topN : Nat) :
    List (Object × Stats) × Stats :=
  let lr := largest_and_rest a.subtree_sizes topN
  (lr.1.map fun p => (a.dominated_subgraph.objAt p.1, p.2), lr.2)

/-! ## Pruned dominator subgraph -/

/-- Display form of an `Object` (its `Display` impl). -/
def Object.display (o : Object) : String :=
  o.label.getD (o.kind ++ "[" ++ toHexLit o.address ++ "]")

/-- Display of the external `bytesize` crate. Its humanized formatting
(units, rounding) is outside the source; no claim inspects label text,
so bytes are rendered plainly. -/
def byteSizeDisplay (n : Nat) : String := Nat.repr n ++ " B"

/-- `Object::with_dominator_stats`: clone with an augmented label
(self size, retained size of descendants, object count). -/
def Object.with_dominator_stats (o : Object) (stats : Stats) : Object :=
  { o with label := some (o.display ++ ": " ++ byteSizeDisplay o.bytes ++ " self, "
      ++ byteSizeDisplay (stats.bytes - o.bytes) ++ " refs, "
      ++ Nat.repr stats.count ++ " objects") }

/-- `relevant_dominator_subgraph` from `analyze.rs`. The source
computes `(total_bytes as f64 * τ).floor() as usize`; binary-float
rounding of the external `f64` type is not modelled — the threshold is
the exact `⌊total_bytes · τ⌋` (saturating at 0, as the `usize` cast
does). Retained entries are added in iteration order; each then gets
one edge from its immediate dominator, `old_to_new[&d]` panicking
(`none`) when that dominator was not retained. -/
def Analysis.relevant_dominator_subgraph (a : Analysis) (τ : ℚ) : Option RefGraph :=
  let threshold_bytes := (⌊(a.dominated_totals.bytes : ℚ) * τ⌋).toNat
  let retained := a.subtree_sizes.filter fun p => threshold_bytes ≤ p.2.bytes
  let old_to_new := retained.enum.map fun ne => (ne.2.1, ne.1)
  let nodes := retained.map fun p => (a.dominated_subgraph.objAt p.1).with_dominator_stats p.2
  (old_to_new.foldlM
      (fun (acc : List (Nat × Nat)) (q : Nat × Nat) =>
        match alLookup q.1 a.dominators with
        | some d => (alLookup d old_to_new).map fun nd => acc ++ [(nd, q.2)]
        | none => some acc)
      ([] : List (Nat × Nat))).map
    fun edges => ⟨nodes, edges⟩

/-! ## Stats algebra -/

/-- The address a record parses to (0 when the field is absent or its
hex fails to parse), as computed by `Line::parse`. -/
def lineAddr (l : Line) : Nat := ((l.address.bind parse_address).bind id).getD 0

/-- The conditions under which `Line::parse` returns `None` (the
record is dropped): no usable address on a non-`ROOT` record, or a
missing required label field (`length` for `ARRAY`, `size` for `HASH`)
when full labels are requested. -/
def dropCond (l : Line) (b : Bool) : Prop :=
  (lineAddr l = 0 ∧ l.object_type ≠ "ROOT")
  ∨ (b = false ∧ l.object_type = "ARRAY" ∧ l.length = none)
  ∨ (b = false ∧ l.object_type = "HASH" ∧ l.size = none)

instance (l : Line) (b : Bool) : Decidable (dropCond l b) := by
  unfold dropCond
  infer_instance

/-- The references contributed to the synthetic root, in input order:
those of every parsed record whose object is the root (address 0). -/
def rootRefsSpec (b : Bool) : List Line → List Nat
  | [] => []
  | l :: rest =>
    (match l.parse b with
     | .ok (some p) => if p.object.isRoot then p.references else []
     | _ => []) ++ rootRefsSpec b rest

/-- Invariant of the record loop of `parse`. -/
structure BuildInv (st : BuildState) : Prop where
  nodes_head : st.nodes.head? = some Object.rootObj
  tail_ne : ∀ o ∈ st.nodes.tail, o.address ≠ 0
  idx0 : alLookup 0 st.indices = some 0
  idx_pos : ∀ p ∈ st.indices, p.1 = 0 → p.2 = 0
  idx_val : ∀ p ∈ st.indices, p.1 ≠ 0 →
    1 ≤ p.2 ∧ p.2 < st.nodes.length ∧ (st.nodes.getD p.2 dummyObject).address = p.1
  idx_node : ∀ o ∈ st.nodes, (alLookup o.address st.indices).isSome
  refs_head : ∃ acc rest', st.references = (0, acc) :: rest' ∧ ∀ q ∈ rest', q.1 ≠ 0
  inst_keys : ∀ q ∈ st.instances, q.1 ≠ 0

instance {κ : Type} : IsTotal (κ × Stats) byBytesDesc :=
  ⟨fun a b => Nat.le_total b.2.bytes a.2.bytes⟩

instance {κ : Type} : IsTrans (κ × Stats) byBytesDesc :=
  ⟨fun _ _ _ hab hbc => le_trans hbc hab⟩

/-! ## The dominator engine (`dominator.rs`)

`DominatorTree` is adapted from Cranelift. The root is the node at
index 0. `debug_assert_eq!(Some(ROOT), self.postorder.pop())` in
`compute_domtree` contains a side effect: the pop runs only in builds
with debug assertions compiled in, so the embedding carries a `dbg`
flag selecting the configuration. Loops take fuel; `.error ()` models
both a panic (`expect`, out-of-range index, `unreachable!`) and fuel
exhaustion, and the theorems produce or assume `.ok` runs. -/

/-- `STRIDE` from `dominator.rs`. -/
def STRIDE : Nat := 4

/-- `DONE` from `dominator.rs`. -/
def DONE : Nat := 1

/-- `SEEN` from `dominator.rs`. -/
def SEEN : Nat := 2

/-- `DomNode` from `dominator.rs`. -/
structure DomNode where
  predecessors : List Nat
  rpo_number : Nat
  idom : Option Nat
deriving DecidableEq, Repr

/-- `DomNode::default()`. -/
def dnDefault : DomNode := ⟨[], 0, none⟩

/-- `DominatorTree` from `dominator.rs`. -/
structure DominatorTree where
  nodes : List DomNode
  postorder : List Nat
deriving DecidableEq, Repr

/-- In-place update of `nodes[i]` (callers check the bound first, as
the Rust indexing panics out of range). -/
def modifyNode (ns : List DomNode) (i : Nat) (f : DomNode → DomNode) : List DomNode :=
  ns.set i (f (ns.getD i dnDefault))

/-- One successor visit inside the `SEEN` case of the postorder loop:
freshly-reached successors are marked `SEEN` and pushed, and every
successor records `node` as a predecessor. -/
def cpoSucc (node : Nat) (st : List DomNode × List Nat) (succ : Nat) :
    Except Unit (List DomNode × List Nat) :=
  if succ < st.1.length then
    let st1 :=
      if (st.1.getD succ dnDefault).rpo_number = 0 then
        (modifyNode st.1 succ fun d => { d with rpo_number := SEEN },
          succ :: st.2)
      else st
    .ok (modifyNode st1.1 succ
      (fun d => { d with predecessors := d.predecessors ++ [node] }), st1.2)
  else .error ()

/-- The `while let Some(node) = stack.pop()` loop of
`compute_postorder`: the list head is the stack top. -/
def cpoAux (adj : List (List Nat)) :
    Nat → List Nat → List DomNode → List Nat → Except Unit (List DomNode × List Nat)
  | 0, _, _, _ => .error ()
  | _ + 1, [], ns, po => .ok (ns, po)
  | fuel + 1, node :: stack, ns, po =>
    if node < ns.length then
      if (ns.getD node dnDefault).rpo_number = SEEN then
        match adj[node]? with
        | none => .error ()
        | some succs => do
          let st ← succs.foldlM (cpoSucc node)
            (modifyNode ns node (fun d => { d with rpo_number := DONE }), node :: stack)
          cpoAux adj fuel st.2 st.1 po
      else if (ns.getD node dnDefault).rpo_number = DONE then
        cpoAux adj fuel stack ns (po ++ [node])
      else .error ()
    else .error ()

/-- Enough fuel for `cpoAux` on any input. -/
def cpoFuel (adj : List (List Nat)) : Nat :=
  2 * adj.length + adj.foldl (fun a l => a + l.length) 0 + 2

/-- `compute_postorder` from `dominator.rs`. -/
def compute_postorder (adj : List (List Nat)) (ns : List DomNode) :
    Except Unit (List DomNode × List Nat) :=
  if 0 < ns.length then
    cpoAux adj (cpoFuel adj) [0]
      (modifyNode ns 0 fun d => { d with rpo_number := SEEN }) []
  else .error ()

/-- The `loop` of `common_dominator`, fuel-bounded. -/
def cdAux (ns : List DomNode) : Nat → Nat → Nat → Except Unit Nat
  | 0, _, _ => .error ()
  | fuel + 1, a, b =>
    if a < ns.length then
      if b < ns.length then
        if (ns.getD a dnDefault).rpo_number < (ns.getD b dnDefault).rpo_number then
          match (ns.getD b dnDefault).idom with
          | some ib => cdAux ns fuel a ib
          | none => .error ()
        else if (ns.getD b dnDefault).rpo_number < (ns.getD a dnDefault).rpo_number then
          match (ns.getD a dnDefault).idom with
          | some ia => cdAux ns fuel ia b
          | none => .error ()
        else .ok a
      else .error ()
    else .error ()

/-- `compute_idom` from `dominator.rs`: filter the predecessors down
to the already-numbered ones, `expect` at least one, and fold
`common_dominator` over the rest. -/
def compute_idom (cdFuel : Nat) (ns : List DomNode) (node : Nat) : Except Unit Nat :=
  if node < ns.length then do
    let reachable_preds ← (ns.getD node dnDefault).predecessors.foldlM
      (fun (acc : List Nat) p =>
        if p < ns.length then
          .ok (if 1 < (ns.getD p dnDefault).rpo_number then acc ++ [p] else acc)
        else .error ())
      []
    match reachable_preds with
    | [] => .error ()
    | first :: rest => rest.foldlM (fun a p => cdAux ns cdFuel a p) first
  else .error ()

/-- One node visit of the fixpoint loop of `compute_domtree`. -/
def fxStep (cdFuel : Nat) (st : List DomNode × Bool) (node : Nat) :
    Except Unit (List DomNode × Bool) := do
  let idv ← compute_idom cdFuel st.1 node
  if (st.1.getD node dnDefault).idom ≠ some idv then
    pure (modifyNode st.1 node (fun d => { d with idom := some idv }), true)
  else pure st

/-- The `while changed` fixpoint loop of `compute_domtree`. -/
def fixAux (cdFuel : Nat) (po : List Nat) :
    Nat → List DomNode → Except Unit (List DomNode)
  | 0, _ => .error ()
  | fuel + 1, ns => do
    let st ← po.reverse.foldlM (fxStep cdFuel) (ns, false)
    if st.2 then fixAux cdFuel po fuel st.1 else pure st.1

/-- One node visit of the RPO-numbering first pass of
`compute_domtree`. -/
def fpStep (cdFuel : Nat) (ns : List DomNode) (ie : Nat × Nat) :
    Except Unit (List DomNode) := do
  let idv ← compute_idom cdFuel ns ie.2
  pure (modifyNode ns ie.2 fun d =>
    { d with idom := some idv, rpo_number := (ie.1 + 3) * STRIDE })

/-- `compute_domtree` from `dominator.rs`. With `dbg` (debug
assertions compiled in) the `debug_assert_eq!` pops the root off the
postorder, panicking unless it is the root; without it the pop is
compiled out and the root is processed like any other node. -/
def compute_domtree (dbg : Bool) (cdFuel fixFuel : Nat) (t : DominatorTree) :
    Except Unit DominatorTree := do
  let po ← if dbg then
      if t.postorder.getLast? = some 0 then pure t.postorder.dropLast
      else .error ()
    else pure t.postorder
  if 0 < t.nodes.length then
    let ns0 := modifyNode t.nodes 0 fun d => { d with rpo_number := 2 * STRIDE }
    let ns1 ← po.reverse.enum.foldlM (fpStep cdFuel) ns0
    let ns2 ← fixAux cdFuel po fixFuel ns1
    pure ⟨ns2, po⟩
  else .error ()

/-- `DominatorTree::compute`: resize the node table, then the two
phases. -/
def DominatorTree.compute (dbg : Bool) (cdFuel fixFuel : Nat) (adj : List (List Nat)) :
    Except Unit DominatorTree := do
  let st ← compute_postorder adj (List.replicate adj.length dnDefault)
  compute_domtree dbg cdFuel fixFuel ⟨st.1, st.2⟩

/-- `DominatorTree::from_graph`. -/
def DominatorTree.from_graph (dbg : Bool) (cdFuel fixFuel : Nat)
    (adj : List (List Nat)) : Except Unit DominatorTree :=
  DominatorTree.compute dbg cdFuel fixFuel adj

/-- `DominatorTree::idom` (callers pass in-range nodes; the Rust
indexing panics out of range). -/
def DominatorTree.idomOf (t : DominatorTree) (node : Nat) : Option Nat :=
  (t.nodes.getD node dnDefault).idom

/-- One step along the adjacency list. -/
def stepAdj (adj : List (List Nat)) (a b : Nat) : Prop := b ∈ adj.getD a []

/-- Reachability along the adjacency list. -/
def ReachesAdj (adj : List (List Nat)) : Nat → Nat → Prop :=
  Relation.ReflTransGen (stepAdj adj)

/-- The `rpo_number` of `v` in a node table. -/
def rpoAt (ns : List DomNode) (v : Nat) : Nat := (ns.getD v dnDefault).rpo_number

/-- The `idom` of `v` in a node table. -/
def idomAt (ns : List DomNode) (v : Nat) : Option Nat := (ns.getD v dnDefault).idom

/-- The bookkeeping invariant of `compute_postorder`: the counts of
each node on the stack and in the postorder are determined by its
marker state, discovered nodes are reachable and in range, and the
successors of a `DONE` node are all discovered. -/
def CpoCore (adj : List (List Nat)) (stack : List Nat) (ns : List DomNode)
    (po : List Nat) : Prop :=
  ns.length = adj.length
  ∧ (∀ v, rpoAt ns v = 0 ∨ rpoAt ns v = SEEN ∨ rpoAt ns v = DONE)
  ∧ (∀ v, rpoAt ns v ≠ 0 → ReachesAdj adj 0 v ∧ v < adj.length)
  ∧ (∀ v, rpoAt ns v = 0 → stack.count v = 0 ∧ v ∉ po)
  ∧ (∀ v, rpoAt ns v = SEEN → stack.count v = 1 ∧ v ∉ po)
  ∧ (∀ v, rpoAt ns v = DONE → stack.count v + po.count v = 1)

/-- `CpoCore` plus closure of `DONE` nodes under successors. -/
def CpoInv (adj : List (List Nat)) (stack : List Nat) (ns : List DomNode)
    (po : List Nat) : Prop :=
  CpoCore adj stack ns po
  ∧ ∀ v, rpoAt ns v = DONE → ∀ s ∈ adj.getD v [], rpoAt ns s ≠ 0

/-- One directed step in the graph: `b` is a successor of `a`. -/
def stepG (g : RefGraph) (a b : Nat) : Prop := b ∈ g.succList a

/-- `j` is reachable from `i` by directed edges. -/
def ReachesG (g : RefGraph) : Nat → Nat → Prop := Relation.ReflTransGen (stepG g)

/-- Invariant of the result map built by `find_addrs_of_filtered_edges`:
every key is the address of a node whose dominator chain passes through
the chosen root. -/
def FAInv (g : RefGraph) (root : Nat) (doms : List (Nat × Nat))
    (r : List (Nat × Nat)) : Prop :=
  ∀ a, (alLookup a r).isSome →
    ∃ u, u ∈ g.indicesList ∧ root ∈ chain doms u ∧ a = g.addrAt u

/-- A concrete four-node graph fixture: a root dominating an array
which dominates a string and a hash. -/
def exampleGraph : RefGraph :=
  ⟨[⟨0, 0, "ROOT", some "root"⟩, ⟨16, 10, "ARRAY", none⟩,
    ⟨24, 20, "STRING", none⟩, ⟨32, 30, "HASH", none⟩],
   [(0, 1), (1, 2), (1, 3)]⟩

/-- The immediate-dominator map of `exampleGraph` rooted at index 0. -/
def exampleDoms : List (Nat × Nat) := [(1, 0), (2, 1), (3, 1)]

/-- The `Analysis` of `exampleGraph`. -/
def exampleAnalysis : Analysis :=
  ⟨0, exampleGraph, [], exampleDoms, dominator_subtree_sizes exampleGraph exampleDoms⟩

/-- Number of bindings whose key rank is at most `rank i`: the measure
that shrinks along a chain walk. -/
def cntBelow (doms : List (Nat × Nat)) (rank : Nat → Nat) (i : Nat) : Nat :=
  doms.countP fun p => rank p.1 ≤ rank i

instance : Zero Stats := ⟨Stats.zero⟩

instance : Add Stats := ⟨Stats.add⟩

instance : AddCommMonoid Stats where
  add_assoc a b c := by
    cases a
    cases b
    cases c
    show Stats.add (Stats.add _ _) _ = Stats.add _ (Stats.add _ _)
    simp [Stats.add, Nat.add_assoc]
  zero_add a := by
    cases a
    show Stats.add Stats.zero _ = _
    simp [Stats.add, Stats.zero]
  add_zero a := by
    cases a
    show Stats.add _ Stats.zero = _
    simp [Stats.add, Stats.zero]
  add_comm a b := by
    cases a
    cases b
    show Stats.add _ _ = Stats.add _ _
    simp [Stats.add, Nat.add_comm]
  nsmul := nsmulRec

/-- The sum of a list of `Stats`, the way the source folds them. -/
def sumStats (l : List Stats) : Stats := l.foldl Stats.add Stats.zero

theorem Stats.add_def (s t : Stats) : s.add t = s + t := rfl

theorem Stats.zero_def : Stats.zero = 0 := rfl

theorem Stats.ext' {s t : Stats} (h1 : s.count = t.count) (h2 : s.bytes = t.bytes) : s = t := by
  cases s; cases t; simp_all

theorem Stats.count_add (s t : Stats) : (s + t).count = s.count + t.count := rfl

theorem Stats.bytes_add (s t : Stats) : (s + t).bytes = s.bytes + t.bytes := rfl

theorem sumStats_eq_sum (l : List Stats) : sumStats l = l.sum := by
  rw [List.sum_eq_foldl]; rfl

theorem foldl_statsAdd (init : Stats) (l : List Stats) :
    l.foldl Stats.add init = init + l.sum := by
  induction l generalizing init with
  | nil => simp [List.foldl]
  | cons x xs ih =>
    simp only [List.foldl_cons, ih, Stats.add_def, List.sum_cons]
    rw [add_assoc]

theorem sum_bytes (l : List Stats) : l.sum.bytes = (l.map Stats.bytes).sum := by
  induction l with
  | nil => rfl
  | cons x xs ih => simp [Stats.bytes_add, ih]

theorem sum_count (l : List Stats) : l.sum.count = (l.map Stats.count).sum := by
  induction l with
  | nil => rfl
  | cons x xs ih => simp [Stats.count_add, ih]

/-! ## Association-list lemmas -/

section AList

variable {κ α : Type} [DecidableEq κ]

theorem alLookup_alInsert_self (k : κ) (v : α) (l : List (κ × α)) :
    alLookup k (alInsert k v l) = some v := by
  induction l with
  | nil => simp [alInsert, alLookup]
  | cons p rest ih =>
    obtain ⟨a, b⟩ := p
    simp only [alInsert]
    by_cases h1 : a = k
    · rw [if_pos h1]
      simp [alLookup]
    · rw [if_neg h1]
      simp only [alLookup]
      rw [if_neg h1, ih]

theorem alLookup_alInsert_ne {k' k : κ} (h : k' ≠ k) (v : α) (l : List (κ × α)) :
    alLookup k' (alInsert k v l) = alLookup k' l := by
  induction l with
  | nil =>
    simp only [alInsert, alLookup]
    rw [if_neg fun he : k = k' => h he.symm]
  | cons p rest ih =>
    obtain ⟨a, b⟩ := p
    simp only [alInsert]
    by_cases h1 : a = k
    · rw [if_pos h1]
      simp only [alLookup]
      rw [if_neg (fun he : k = k' => h he.symm), if_neg (fun he : a = k' => h (h1 ▸ he).symm)]
    · rw [if_neg h1]
      simp only [alLookup]
      by_cases h2 : a = k'
      · rw [if_pos h2, if_pos h2]
      · rw [if_neg h2, if_neg h2, ih]

theorem alLookup_alModify_self (k : κ) (f : α → α) (l : List (κ × α)) :
    alLookup k (alModify k f l) = (alLookup k l).map f := by
  induction l with
  | nil => simp [alModify, alLookup]
  | cons p rest ih =>
    obtain ⟨a, b⟩ := p
    simp only [alModify]
    by_cases h1 : a = k
    · rw [if_pos h1]
      simp only [alLookup]
      rw [if_pos h1, if_pos h1]
      rfl
    · rw [if_neg h1]
      simp only [alLookup]
      rw [if_neg h1, if_neg h1, ih]

theorem alLookup_alModify_ne {k' k : κ} (h : k' ≠ k) (f : α → α) (l : List (κ × α)) :
    alLookup k' (alModify k f l) = alLookup k' l := by
  induction l with
  | nil => simp [alModify]
  | cons p rest ih =>
    obtain ⟨a, b⟩ := p
    simp only [alModify]
    by_cases h1 : a = k
    · rw [if_pos h1]
      simp only [alLookup]
      rw [if_neg (fun he : a = k' => h ((h1 ▸ he : k = k')).symm),
        if_neg (fun he : a = k' => h ((h1 ▸ he : k = k')).symm)]
    · rw [if_neg h1]
      simp only [alLookup]
      by_cases h2 : a = k'
      · rw [if_pos h2, if_pos h2]
      · rw [if_neg h2, if_neg h2, ih]

theorem alModify_keys (k : κ) (f : α → α) (l : List (κ × α)) :
    (alModify k f l).map Prod.fst = l.map Prod.fst := by
  induction l with
  | nil => rfl
  | cons p rest ih =>
    obtain ⟨a, b⟩ := p
    by_cases h : a = k <;> simp [alModify, h, ih]

theorem alLookup_mem {k : κ} {v : α} {l : List (κ × α)} (h : alLookup k l = some v) :
    (k, v) ∈ l := by
  induction l with
  | nil => simp [alLookup] at h
  | cons p rest ih =>
    obtain ⟨a, b⟩ := p
    by_cases h1 : a = k
    · simp only [alLookup, if_pos h1] at h
      subst h1
      cases h
      exact List.mem_cons_self _ _
    · simp only [alLookup, if_neg h1] at h
      exact List.mem_cons_of_mem _ (ih h)

theorem alLookup_eq_none {k : κ} {l : List (κ × α)} :
    alLookup k l = none ↔ k ∉ l.map Prod.fst := by
  induction l with
  | nil => simp [alLookup]
  | cons p rest ih =>
    obtain ⟨a, b⟩ := p
    simp only [List.map_cons, List.mem_cons]
    by_cases h1 : a = k
    · subst h1
      simp [alLookup]
    · simp only [alLookup, if_neg h1, ih]
      constructor
      · intro h hmem
        rcases hmem with he | hm
        · exact h1 he.symm
        · exact h hm
      · intro h hm
        exact h (Or.inr hm)

theorem alLookup_isSome {k : κ} {l : List (κ × α)} :
    (alLookup k l).isSome ↔ k ∈ l.map Prod.fst := by
  constructor
  · intro h
    cases hl : alLookup k l with
    | none => rw [hl] at h; simp at h
    | some v => exact List.mem_map_of_mem Prod.fst (alLookup_mem hl)
  · intro h
    cases hl : alLookup k l with
    | none => exact absurd h (alLookup_eq_none.1 hl)
    | some v => simp

theorem alInsert_keys_of_mem {k : κ} (v : α) {l : List (κ × α)}
    (h : k ∈ l.map Prod.fst) : (alInsert k v l).map Prod.fst = l.map Prod.fst := by
  induction l with
  | nil => simp at h
  | cons p rest ih =>
    obtain ⟨a, b⟩ := p
    by_cases h1 : a = k
    · simp [alInsert, h1]
    · have hk : k ∈ rest.map Prod.fst := by
        simp only [List.map_cons, List.mem_cons] at h
        rcases h with he | hm
        · exact absurd he.symm h1
        · exact hm
      simp [alInsert, h1, ih hk]

theorem alInsert_keys_of_not_mem {k : κ} (v : α) {l : List (κ × α)}
    (h : k ∉ l.map Prod.fst) : (alInsert k v l).map Prod.fst = l.map Prod.fst ++ [k] := by
  induction l with
  | nil => simp [alInsert]
  | cons p rest ih =>
    obtain ⟨a, b⟩ := p
    simp only [List.map_cons, List.mem_cons] at h
    push_neg at h
    have hstep : alInsert k v ((a, b) :: rest) = (a, b) :: alInsert k v rest := by
      simp only [alInsert, if_neg fun he : a = k => h.1 he.symm]
    rw [hstep, List.map_cons, ih h.2, List.map_cons]
    simp

end AList

/-! ## Dominator-chain theory

All facts below assume a rank function strictly decreasing along the
map's bindings (`DomWF`); every immediate-dominator map has one
(depth in the dominator tree). -/

theorem countP_lt_of_witness {β : Type} {p q : β → Bool} {l : List β}
    (himp : ∀ a ∈ l, p a → q a) {x : β} (hx : x ∈ l) (hqx : q x) (hpx : ¬ p x) :
    l.countP p < l.countP q := by
  induction l with
  | nil => simp at hx
  | cons y ys ih =>
    rcases List.mem_cons.1 hx with rfl | hx'
    · have h1 : ys.countP p ≤ ys.countP q :=
        List.countP_mono_left fun a ha => himp a (List.mem_cons_of_mem _ ha)
      simp only [List.countP_cons]
      rw [if_neg hpx, if_pos hqx]
      omega
    · have h1 := ih (fun a ha => himp a (List.mem_cons_of_mem _ ha)) hx'
      have h2 : (if p y then 1 else 0) ≤ (if q y then 1 else 0) := by
        by_cases hpy : p y
        · rw [if_pos hpy, if_pos (himp y (List.mem_cons_self _ _) hpy)]
        · rw [if_neg hpy]
          exact Nat.zero_le _
      simp only [List.countP_cons]
      omega

section Chains

variable (doms : List (Nat × Nat)) (rank : Nat → Nat)

theorem cntBelow_le_length (i : Nat) : cntBelow doms rank i ≤ doms.length :=
  List.countP_le_length _

variable {doms rank}

theorem lookup_rank_lt (hrank : ∀ p ∈ doms, rank p.2 < rank p.1)
    {i d : Nat} (h : alLookup i doms = some d) : rank d < rank i :=
  hrank (i, d) (alLookup_mem h)

theorem cntBelow_lt (hrank : ∀ p ∈ doms, rank p.2 < rank p.1)
    {i d : Nat} (h : alLookup i doms = some d) :
    cntBelow doms rank d < cntBelow doms rank i := by
  have hd := lookup_rank_lt hrank h
  refine countP_lt_of_witness (fun a _ ha => ?_) (alLookup_mem h) ?_ ?_
  · exact decide_eq_true (le_trans (of_decide_eq_true ha) (le_of_lt hd))
  · exact decide_eq_true le_rfl
  · simp only [decide_eq_true_eq]
    omega

theorem chainAux_congr (hrank : ∀ p ∈ doms, rank p.2 < rank p.1) :
    ∀ (fuel fuel' i : Nat), cntBelow doms rank i < fuel → cntBelow doms rank i < fuel' →
      chainAux doms fuel i = chainAux doms fuel' i := by
  intro fuel
  induction fuel with
  | zero => intro fuel' i h _; omega
  | succ n ih =>
    intro fuel' i h h'
    match fuel', h' with
    | fuel'' + 1, h' =>
      show chainAux doms (n + 1) i = chainAux doms (fuel'' + 1) i
      simp only [chainAux]
      cases hl : alLookup i doms with
      | none => rfl
      | some d =>
        have hcd := cntBelow_lt hrank hl
        show d :: chainAux doms n d = d :: chainAux doms fuel'' d
        rw [ih n d (by omega) (by omega), ih fuel'' d (by omega) (by omega)]

theorem chain_unfold (hrank : ∀ p ∈ doms, rank p.2 < rank p.1) (i : Nat) :
    chain doms i = match alLookup i doms with
      | none => []
      | some d => d :: chain doms d := by
  show chainAux doms (doms.length + 1) i = _
  simp only [chainAux]
  cases hl : alLookup i doms with
  | none => rfl
  | some d =>
    have hcd : cntBelow doms rank d < doms.length := by
      have h1 := cntBelow_lt hrank hl
      have h2 := cntBelow_le_length doms rank i
      omega
    show d :: chainAux doms doms.length d = d :: chain doms d
    congr 1
    exact chainAux_congr hrank doms.length (doms.length + 1) d hcd (by omega)

theorem mem_chain_rank_lt (hrank : ∀ p ∈ doms, rank p.2 < rank p.1) :
    ∀ i, ∀ j ∈ chain doms i, rank j < rank i := by
  suffices H : ∀ n i, cntBelow doms rank i ≤ n → ∀ j ∈ chain doms i, rank j < rank i by
    exact fun i => H _ i le_rfl
  intro n
  induction n with
  | zero =>
    intro i hc j hj
    rw [chain_unfold hrank] at hj
    cases hl : alLookup i doms with
    | none => rw [hl] at hj; simp at hj
    | some d => have := cntBelow_lt hrank hl; omega
  | succ n ih =>
    intro i hc j hj
    rw [chain_unfold hrank] at hj
    cases hl : alLookup i doms with
    | none => rw [hl] at hj; simp at hj
    | some d =>
      rw [hl] at hj
      have hcd := cntBelow_lt hrank hl
      rcases List.mem_cons.1 hj with rfl | hj'
      · exact lookup_rank_lt hrank hl
      · exact lt_trans (ih d (by omega) j hj') (lookup_rank_lt hrank hl)

theorem not_mem_chain_self (hrank : ∀ p ∈ doms, rank p.2 < rank p.1) (i : Nat) :
    i ∉ chain doms i :=
  fun h => lt_irrefl _ (mem_chain_rank_lt hrank i i h)

theorem chain_nodup (hrank : ∀ p ∈ doms, rank p.2 < rank p.1) :
    ∀ i, (chain doms i).Nodup := by
  suffices H : ∀ n i, cntBelow doms rank i ≤ n → (chain doms i).Nodup by
    exact fun i => H _ i le_rfl
  intro n
  induction n with
  | zero =>
    intro i hc
    rw [chain_unfold hrank]
    cases hl : alLookup i doms with
    | none => exact List.nodup_nil
    | some d => have := cntBelow_lt hrank hl; omega
  | succ n ih =>
    intro i hc
    rw [chain_unfold hrank]
    cases hl : alLookup i doms with
    | none => exact List.nodup_nil
    | some d =>
      have hcd := cntBelow_lt hrank hl
      exact List.nodup_cons.2 ⟨not_mem_chain_self hrank d, ih d (by omega)⟩

theorem chain_subset_of_mem (hrank : ∀ p ∈ doms, rank p.2 < rank p.1) :
    ∀ i v, v ∈ chain doms i → chain doms v ⊆ chain doms i := by
  suffices H : ∀ n i, cntBelow doms rank i ≤ n →
      ∀ v, v ∈ chain doms i → chain doms v ⊆ chain doms i by
    exact fun i => H _ i le_rfl
  intro n
  induction n with
  | zero =>
    intro i hc v hv
    rw [chain_unfold hrank] at hv
    cases hl : alLookup i doms with
    | none => rw [hl] at hv; simp at hv
    | some d => have := cntBelow_lt hrank hl; omega
  | succ n ih =>
    intro i hc v hv
    cases hl : alLookup i doms with
    | none =>
      rw [chain_unfold hrank, hl] at hv
      simp at hv
    | some d =>
      rw [chain_unfold hrank, hl] at hv
      rw [chain_unfold hrank (i := i), hl]
      have hcd := cntBelow_lt hrank hl
      rcases List.mem_cons.1 hv with rfl | hv'
      · exact fun x hx => List.mem_cons_of_mem _ hx
      · exact fun x hx => List.mem_cons_of_mem _ (ih d (by omega) v hv' hx)

theorem head_mem_chain (hrank : ∀ p ∈ doms, rank p.2 < rank p.1)
    {i d : Nat} (h : alLookup i doms = some d) : d ∈ chain doms i := by
  rw [chain_unfold hrank, h]
  exact List.mem_cons_self _ _

end Chains

/-! ## Ranking lemmas (shared by the ranking claims) -/

theorem foldl_add_snd {κ : Type} (l : List (κ × Stats)) (z : Stats) :
    l.foldl (fun acc c => acc.add c.2) z = (l.map fun p => p.2).foldl Stats.add z :=
  (List.foldl_map _ _ _ _).symm

theorem largest_and_rest_of_ge {κ : Type} (xs : List (κ × Stats)) (n : Nat)
    (h : (List.insertionSort byBytesDesc xs).length ≤ n) :
    largest_and_rest xs n = (List.insertionSort byBytesDesc xs, Stats.zero) := by
  simp only [largest_and_rest]
  rw [if_pos (by omega)]

theorem largest_and_rest_of_lt {κ : Type} (xs : List (κ × Stats)) (n : Nat)
    (h : n < (List.insertionSort byBytesDesc xs).length) :
    largest_and_rest xs n =
      ((List.insertionSort byBytesDesc xs).take n,
        sumStats (((List.insertionSort byBytesDesc xs).drop n).map fun p => p.2)) := by
  simp only [largest_and_rest]
  rw [if_neg (by omega)]
  rw [foldl_add_snd]
  rfl

theorem lr_partition_sum {κ : Type} (xs : List (κ × Stats)) (n : Nat) :
    sumStats ((largest_and_rest xs n).1.map fun p => p.2) + (largest_and_rest xs n).2 =
      sumStats (xs.map fun p => p.2) := by
  have hperm : (List.insertionSort byBytesDesc xs).Perm xs := List.perm_insertionSort _ _
  have hsum : sumStats ((List.insertionSort byBytesDesc xs).map fun p => p.2) =
      sumStats (xs.map fun p => p.2) := by
    rw [sumStats_eq_sum, sumStats_eq_sum]
    exact (hperm.map _).sum_eq
  by_cases h : (List.insertionSort byBytesDesc xs).length ≤ n
  · rw [largest_and_rest_of_ge xs n h, ← hsum, Stats.zero_def, add_zero]
  · rw [largest_and_rest_of_lt xs n (by omega), ← hsum]
    rw [sumStats_eq_sum, sumStats_eq_sum, sumStats_eq_sum, ← List.sum_append,
      ← List.map_append, List.take_append_drop]

theorem lr_sorted {κ : Type} (xs : List (κ × Stats)) (n : Nat) :
    List.Sorted byBytesDesc (largest_and_rest xs n).1 := by
  have hs : List.Sorted byBytesDesc (List.insertionSort byBytesDesc xs) :=
    List.sorted_insertionSort byBytesDesc xs
  by_cases h : (List.insertionSort byBytesDesc xs).length ≤ n
  · rw [largest_and_rest_of_ge xs n h]
    exact hs
  · rw [largest_and_rest_of_lt xs n (by omega)]
    exact List.Pairwise.sublist (List.take_sublist _ _) hs

theorem lr_rest_zero {κ : Type} (xs : List (κ × Stats)) (n : Nat) (h : xs.length ≤ n) :
    (largest_and_rest xs n).2 = Stats.zero := by
  have hlen : (List.insertionSort byBytesDesc xs).length = xs.length :=
    (List.perm_insertionSort _ _).length_eq
  rw [largest_and_rest_of_ge xs n (by omega)]

/-! ## Claim theorems -/

/-- C10. For every input string shorter than two bytes (such as `""` or
`"0"`), `parse_address` panics from the out-of-range slice `&addr[2..]`
instead of returning an `Err` — and a record carrying such an address
string makes `Line::parse` (hence the whole ingest) abort rather than
tolerate it. -/
theorem c10_short_address_panics (s : List Char) (h : utf8Len s < 2) :
    parse_address s = none ∧
      ∀ l : Line, l.address = some s →
        l.parse false = .error () ∧ l.parse true = .error () := by
  have hpa : parse_address s = none := by
    match s with
    | [] => rfl
    | c :: rest =>
      have hc1 : 1 ≤ charLen c := by
        unfold charLen
        split_ifs <;> norm_num
      have hsum : utf8Len (c :: rest) = charLen c + utf8Len rest := by
        simp [utf8Len]
      by_cases h2 : charLen c = 2
      · rw [hsum] at h
        omega
      · by_cases hc : charLen c = 1
        · match rest with
          | [] => simp [parse_address, sliceFrom2, h2, hc]
          | c2 :: r2 =>
            exfalso
            have hc2 : 1 ≤ charLen c2 := by
              unfold charLen
              split_ifs <;> norm_num
            have hsum2 : utf8Len (c2 :: r2) = charLen c2 + utf8Len r2 := by
              simp [utf8Len]
            rw [hsum, hsum2] at h
            omega
        · simp [parse_address, sliceFrom2, h2, hc]
  refine ⟨hpa, fun l hl => ⟨?_, ?_⟩⟩ <;>
    simp [Line.parse, hl, hpa, Bind.bind, Except.bind]

/-- Witness for C10 at the one-byte string `"0"`. -/
theorem c10_witness :
    utf8Len ['0'] < 2 ∧ parse_address ['0'] = none ∧
      (Line.mk (some ['0']) none [] "DATA" none none none none none).parse false
        = .error () :=
  ⟨by decide, (c10_short_address_panics ['0'] (by decide)).1,
    ((c10_short_address_panics ['0'] (by decide)).2 _ rfl).1⟩

/-- C5. `largest_and_rest(xs, N)` is a partition: the Stats sum of the
top-N plus the rest equals the Stats sum of all of `xs`; the top-N is
sorted by bytes descending; and when `N ≥ |xs|` the rest is the
identity Stats. -/
theorem c5_largest_and_rest_partition {κ : Type} (xs : List (κ × Stats)) (n : Nat) :
    (sumStats ((largest_and_rest xs n).1.map fun p => p.2) + (largest_and_rest xs n).2 =
        sumStats (xs.map fun p => p.2))
    ∧ List.Sorted byBytesDesc (largest_and_rest xs n).1
    ∧ (xs.length ≤ n → (largest_and_rest xs n).2 = Stats.zero) :=
  ⟨lr_partition_sum xs n, lr_sorted xs n, lr_rest_zero xs n⟩

/-- Witness for C5 at a concrete collection with `N ≥ |xs|`. -/
theorem c5_witness :
    (sumStats ((largest_and_rest ([("a", (⟨1, 5⟩ : Stats)), ("b", ⟨2, 9⟩)]) 5).1.map
        fun p => p.2) + (largest_and_rest ([("a", (⟨1, 5⟩ : Stats)), ("b", ⟨2, 9⟩)]) 5).2 =
        sumStats (([("a", (⟨1, 5⟩ : Stats)), ("b", ⟨2, 9⟩)]).map fun p => p.2))
    ∧ List.Sorted byBytesDesc (largest_and_rest ([("a", (⟨1, 5⟩ : Stats)), ("b", ⟨2, 9⟩)]) 5).1
    ∧ (largest_and_rest ([("a", (⟨1, 5⟩ : Stats)), ("b", ⟨2, 9⟩)]) 5).2 = Stats.zero :=
  ⟨(c5_largest_and_rest_partition _ 5).1, (c5_largest_and_rest_partition _ 5).2.1,
    (c5_largest_and_rest_partition ([("a", (⟨1, 5⟩ : Stats)), ("b", ⟨2, 9⟩)]) 5).2.2
      (by decide)⟩

/-- C9 counterexample: two iteration orders of the same per-kind stats
(the source iterates a freshly built `HashMap`, whose order varies
between runs) yield different top-1 tables and different rest Stats:
the sort key is `bytes` alone and the sort is unstable, so a byte tie
is broken by input order. -/
theorem c9_counterexample :
    ([("A", (⟨1, 5⟩ : Stats)), ("B", ⟨2, 5⟩)] : List (String × Stats)).Perm
        [("B", ⟨2, 5⟩), ("A", ⟨1, 5⟩)]
    ∧ largest_and_rest ([("A", (⟨1, 5⟩ : Stats)), ("B", ⟨2, 5⟩)]) 1 ≠
        largest_and_rest ([("B", (⟨2, 5⟩ : Stats)), ("A", ⟨1, 5⟩)]) 1
    ∧ (largest_and_rest ([("A", (⟨1, 5⟩ : Stats)), ("B", ⟨2, 5⟩)]) 1).2 ≠
        (largest_and_rest ([("B", (⟨2, 5⟩ : Stats)), ("A", ⟨1, 5⟩)]) 1).2 :=
  ⟨List.Perm.swap _ _ _, by decide, by decide⟩

/-- C9 amended. Ranked tables are deterministic only up to byte ties:
for any two iteration orders of the same per-kind stats, the two runs
agree on the byte value at every rank of the top-N, on the byte total
of the rest, and on the overall Stats total (top-N sum plus rest) —
but not in general on the keys or counts at tied ranks. -/
theorem c9_ranked_tables_deterministic_up_to_ties {κ : Type}
    (l₁ l₂ : List (κ × Stats)) (n : Nat) (hperm : l₁.Perm l₂) :
    ((largest_and_rest l₁ n).1.map fun p => p.2.bytes) =
        ((largest_and_rest l₂ n).1.map fun p => p.2.bytes)
    ∧ (largest_and_rest l₁ n).2.bytes = (largest_and_rest l₂ n).2.bytes
    ∧ sumStats ((largest_and_rest l₁ n).1.map fun p => p.2) + (largest_and_rest l₁ n).2 =
        sumStats ((largest_and_rest l₂ n).1.map fun p => p.2) + (largest_and_rest l₂ n).2 := by
  haveI : IsAntisymm Nat fun x y => y ≤ x := ⟨fun _ _ h1 h2 => le_antisymm h2 h1⟩
  have hsp : (List.insertionSort byBytesDesc l₁).Perm (List.insertionSort byBytesDesc l₂) :=
    ((List.perm_insertionSort _ _).trans hperm).trans (List.perm_insertionSort _ _).symm
  have hb : ((List.insertionSort byBytesDesc l₁).map fun p => p.2.bytes) =
      (List.insertionSort byBytesDesc l₂).map fun p => p.2.bytes := by
    refine List.eq_of_perm_of_sorted (r := fun x y : Nat => y ≤ x) (hsp.map _) ?_ ?_
    · exact List.pairwise_map.2 (List.sorted_insertionSort byBytesDesc l₁)
    · exact List.pairwise_map.2 (List.sorted_insertionSort byBytesDesc l₂)
  have hlen : (List.insertionSort byBytesDesc l₁).length =
      (List.insertionSort byBytesDesc l₂).length := hsp.length_eq
  have hsum : sumStats (l₁.map fun p => p.2) = sumStats (l₂.map fun p => p.2) := by
    rw [sumStats_eq_sum, sumStats_eq_sum]
    exact (hperm.map _).sum_eq
  have hmapmap : ∀ (l : List (κ × Stats)),
      ((l.map fun p => p.2).map Stats.bytes) = l.map fun p => p.2.bytes := by
    intro l
    rw [List.map_map]
    rfl
  refine ⟨?_, ?_, ?_⟩
  · by_cases h : (List.insertionSort byBytesDesc l₁).length ≤ n
    · rw [largest_and_rest_of_ge l₁ n h, largest_and_rest_of_ge l₂ n (by omega)]
      exact hb
    · rw [largest_and_rest_of_lt l₁ n (by omega), largest_and_rest_of_lt l₂ n (by omega)]
      show ((List.insertionSort byBytesDesc l₁).take n).map (fun p => p.2.bytes) =
        ((List.insertionSort byBytesDesc l₂).take n).map fun p => p.2.bytes
      rw [List.map_take, List.map_take, hb]
  · by_cases h : (List.insertionSort byBytesDesc l₁).length ≤ n
    · rw [largest_and_rest_of_ge l₁ n h, largest_and_rest_of_ge l₂ n (by omega)]
    · rw [largest_and_rest_of_lt l₁ n (by omega), largest_and_rest_of_lt l₂ n (by omega)]
      show (sumStats (((List.insertionSort byBytesDesc l₁).drop n).map fun p => p.2)).bytes =
        (sumStats (((List.insertionSort byBytesDesc l₂).drop n).map fun p => p.2)).bytes
      rw [sumStats_eq_sum, sumStats_eq_sum, sum_bytes, sum_bytes, hmapmap, hmapmap,
        List.map_drop, List.map_drop, hb]
  · rw [lr_partition_sum, lr_partition_sum, hsum]

/-- Witness for C9 amended at a concrete pair of orders. -/
theorem c9_witness :
    (([("A", (⟨1, 5⟩ : Stats)), ("B", ⟨2, 5⟩)] : List (String × Stats)).Perm
        [("B", ⟨2, 5⟩), ("A", ⟨1, 5⟩)])
    ∧ ((largest_and_rest ([("A", (⟨1, 5⟩ : Stats)), ("B", ⟨2, 5⟩)]) 1).1.map
        fun p => p.2.bytes) =
        ((largest_and_rest ([("B", (⟨2, 5⟩ : Stats)), ("A", ⟨1, 5⟩)]) 1).1.map
          fun p => p.2.bytes) :=
  ⟨List.Perm.swap _ _ _,
    (c9_ranked_tables_deterministic_up_to_ties _ _ 1 (List.Perm.swap _ _ _)).1⟩

/-! ## C8: panic-freedom of record parsing -/

theorem parseRefs_ok (refs : List (List Char))
    (h : ∀ s ∈ refs, (sliceFrom2 s).isSome) :
    parseRefs refs = .ok (refs.filterMap fun s => (parse_address s).bind id) := by
  induction refs with
  | nil => rfl
  | cons r rest ih =>
    obtain ⟨t, ht⟩ := Option.isSome_iff_exists.1 (h r (List.mem_cons_self _ _))
    have hpa : parse_address r = some (fromStrRadix16 t) := by
      simp [parse_address, ht]
    rw [List.filterMap_cons]
    simp only [parseRefs, hpa, ih fun s hs => h s (List.mem_cons_of_mem _ hs)]
    cases fromStrRadix16 t <;> simp [Option.bind]

/-- C8 amended. Provided every address string in the record (address,
references, class) is sliceable at byte offset 2 — strings shorter
than two bytes panic instead, see C10 — `Line::parse` raises no
exception: a record lacking a required label field, or lacking a
usable address while not of type `ROOT`, returns `None` (exactly
`dropCond`), and a reference or class address that fails hex-parsing
merely leaves that field absent. However the streaming record loop
`expect`s the `Option`, so a `None` record aborts the stream rather
than being skipped silently (see the counterexample). -/
theorem c8_parse_tolerates_malformed_records (l : Line) (b : Bool)
    (ha : ∀ s, l.address = some s → (sliceFrom2 s).isSome)
    (hrefs : ∀ s ∈ l.references, (sliceFrom2 s).isSome)
    (hcl : ∀ s, l.classRef = some s → (sliceFrom2 s).isSome) :
    l.parse b ≠ .error ()
    ∧ (l.parse b = .ok none ↔ dropCond l b)
    ∧ ∀ p, l.parse b = .ok (some p) →
        p.references = l.references.filterMap (fun s => (parse_address s).bind id)
        ∧ p.module = (l.classRef.bind parse_address).bind id := by
  have hrefs' := parseRefs_ok l.references hrefs
  cases hcr : l.classRef with
  | none =>
    cases haddr : l.address with
    | none =>
      have hla : lineAddr l = 0 := by simp [lineAddr, haddr]
      by_cases hk : l.object_type = "ROOT"
      · refine ⟨?_, ?_, ?_⟩ <;> (cases b <;> simp [Line.parse, Bind.bind, Except.bind, pure, Except.pure, Option.bind, id, hrefs', dropCond, hcr, haddr, hla, hk])
      · refine ⟨?_, ?_, ?_⟩ <;> (cases b <;> simp [Line.parse, Bind.bind, Except.bind, pure, Except.pure, Option.bind, id, hrefs', dropCond, hcr, haddr, hla, hk])
    | some s =>
      have hpa : parse_address s = some (fromStrRadix16 ((sliceFrom2 s).getD [])) := by
        obtain ⟨t, ht⟩ := Option.isSome_iff_exists.1 (ha s haddr)
        simp [parse_address, ht]
      have hla : lineAddr l = (fromStrRadix16 ((sliceFrom2 s).getD [])).getD 0 := by
        simp [lineAddr, haddr, hpa, Option.bind]
      by_cases hav : (fromStrRadix16 ((sliceFrom2 s).getD [])).getD 0 = 0
      · by_cases hk : l.object_type = "ROOT"
        · refine ⟨?_, ?_, ?_⟩ <;> (cases b <;> simp [Line.parse, Bind.bind, Except.bind, pure, Except.pure, Option.bind, id, hrefs', dropCond, hcr, haddr, hpa, hla, hav, hk])
        · refine ⟨?_, ?_, ?_⟩ <;> (cases b <;> simp [Line.parse, Bind.bind, Except.bind, pure, Except.pure, Option.bind, id, hrefs', dropCond, hcr, haddr, hpa, hla, hav, hk])
      · cases b with
        | true => refine ⟨?_, ?_, ?_⟩ <;> (simp [Line.parse, Bind.bind, Except.bind, pure, Except.pure, Option.bind, id, hrefs', dropCond, hcr, haddr, hpa, hla, hav])
        | false =>
          by_cases harr : l.object_type = "ARRAY"
          · cases hlen : l.length with
            | none => refine ⟨?_, ?_, ?_⟩ <;> (simp [Line.parse, Bind.bind, Except.bind, pure, Except.pure, Option.bind, id, hrefs', dropCond, hcr, haddr, hpa, hla, hav, harr, hlen])
            | some len => refine ⟨?_, ?_, ?_⟩ <;> (simp [Line.parse, Bind.bind, Except.bind, pure, Except.pure, Option.bind, id, hrefs', dropCond, hcr, haddr, hpa, hla, hav, harr, hlen])
          · by_cases hhash : l.object_type = "HASH"
            · cases hsz : l.size with
              | none => refine ⟨?_, ?_, ?_⟩ <;> (simp [Line.parse, Bind.bind, Except.bind, pure, Except.pure, Option.bind, id, hrefs', dropCond, hcr, haddr, hpa, hla, hav, harr, hhash, hsz])
              | some siz => refine ⟨?_, ?_, ?_⟩ <;> (simp [Line.parse, Bind.bind, Except.bind, pure, Except.pure, Option.bind, id, hrefs', dropCond, hcr, haddr, hpa, hla, hav, harr, hhash, hsz])
            · by_cases hcls : l.object_type = "CLASS"
              · refine ⟨?_, ?_, ?_⟩ <;> (simp [Line.parse, Bind.bind, Except.bind, pure, Except.pure, Option.bind, id, hrefs', dropCond, hcr, haddr, hpa, hla, hav, harr, hhash, hcls])
              · by_cases hml : l.object_type = "MODULE"
                · refine ⟨?_, ?_, ?_⟩ <;> (simp [Line.parse, Bind.bind, Except.bind, pure, Except.pure, Option.bind, id, hrefs', dropCond, hcr, haddr, hpa, hla, hav, harr, hhash, hcls, hml])
                · by_cases hic : l.object_type = "ICLASS"
                  · refine ⟨?_, ?_, ?_⟩ <;> (simp [Line.parse, Bind.bind, Except.bind, pure, Except.pure, Option.bind, id, hrefs', dropCond, hcr, haddr, hpa, hla, hav, harr, hhash, hcls, hml, hic])
                  · by_cases hst : l.object_type = "STRING"
                    · refine ⟨?_, ?_, ?_⟩ <;> (simp [Line.parse, Bind.bind, Except.bind, pure, Except.pure, Option.bind, id, hrefs', dropCond, hcr, haddr, hpa, hla, hav, harr, hhash, hcls, hml, hic, hst])
                    · refine ⟨?_, ?_, ?_⟩ <;> (simp [Line.parse, Bind.bind, Except.bind, pure, Except.pure, Option.bind, id, hrefs', dropCond, hcr, haddr, hpa, hla, hav, harr, hhash, hcls, hml, hic, hst])
  | some c =>
    have hpac : parse_address c = some (fromStrRadix16 ((sliceFrom2 c).getD [])) := by
      obtain ⟨t, ht⟩ := Option.isSome_iff_exists.1 (hcl c hcr)
      simp [parse_address, ht]
    cases haddr : l.address with
    | none =>
      have hla : lineAddr l = 0 := by simp [lineAddr, haddr]
      by_cases hk : l.object_type = "ROOT"
      · refine ⟨?_, ?_, ?_⟩ <;> (cases b <;> simp [Line.parse, Bind.bind, Except.bind, pure, Except.pure, Option.bind, id, hrefs', dropCond, hcr, hpac, haddr, hla, hk])
      · refine ⟨?_, ?_, ?_⟩ <;> (cases b <;> simp [Line.parse, Bind.bind, Except.bind, pure, Except.pure, Option.bind, id, hrefs', dropCond, hcr, hpac, haddr, hla, hk])
    | some s =>
      have hpa : parse_address s = some (fromStrRadix16 ((sliceFrom2 s).getD [])) := by
        obtain ⟨t, ht⟩ := Option.isSome_iff_exists.1 (ha s haddr)
        simp [parse_address, ht]
      have hla : lineAddr l = (fromStrRadix16 ((sliceFrom2 s).getD [])).getD 0 := by
        simp [lineAddr, haddr, hpa, Option.bind]
      by_cases hav : (fromStrRadix16 ((sliceFrom2 s).getD [])).getD 0 = 0
      · by_cases hk : l.object_type = "ROOT"
        · refine ⟨?_, ?_, ?_⟩ <;> (cases b <;> simp [Line.parse, Bind.bind, Except.bind, pure, Except.pure, Option.bind, id, hrefs', dropCond, hcr, hpac, haddr, hpa, hla, hav, hk])
        · refine ⟨?_, ?_, ?_⟩ <;> (cases b <;> simp [Line.parse, Bind.bind, Except.bind, pure, Except.pure, Option.bind, id, hrefs', dropCond, hcr, hpac, haddr, hpa, hla, hav, hk])
      · cases b with
        | true => refine ⟨?_, ?_, ?_⟩ <;> (simp [Line.parse, Bind.bind, Except.bind, pure, Except.pure, Option.bind, id, hrefs', dropCond, hcr, hpac, haddr, hpa, hla, hav])
        | false =>
          by_cases harr : l.object_type = "ARRAY"
          · cases hlen : l.length with
            | none => refine ⟨?_, ?_, ?_⟩ <;> (simp [Line.parse, Bind.bind, Except.bind, pure, Except.pure, Option.bind, id, hrefs', dropCond, hcr, hpac, haddr, hpa, hla, hav, harr, hlen])
            | some len => refine ⟨?_, ?_, ?_⟩ <;> (simp [Line.parse, Bind.bind, Except.bind, pure, Except.pure, Option.bind, id, hrefs', dropCond, hcr, hpac, haddr, hpa, hla, hav, harr, hlen])
          · by_cases hhash : l.object_type = "HASH"
            · cases hsz : l.size with
              | none => refine ⟨?_, ?_, ?_⟩ <;> (simp [Line.parse, Bind.bind, Except.bind, pure, Except.pure, Option.bind, id, hrefs', dropCond, hcr, hpac, haddr, hpa, hla, hav, harr, hhash, hsz])
              | some siz => refine ⟨?_, ?_, ?_⟩ <;> (simp [Line.parse, Bind.bind, Except.bind, pure, Except.pure, Option.bind, id, hrefs', dropCond, hcr, hpac, haddr, hpa, hla, hav, harr, hhash, hsz])
            · by_cases hcls : l.object_type = "CLASS"
              · refine ⟨?_, ?_, ?_⟩ <;> (simp [Line.parse, Bind.bind, Except.bind, pure, Except.pure, Option.bind, id, hrefs', dropCond, hcr, hpac, haddr, hpa, hla, hav, harr, hhash, hcls])
              · by_cases hml : l.object_type = "MODULE"
                · refine ⟨?_, ?_, ?_⟩ <;> (simp [Line.parse, Bind.bind, Except.bind, pure, Except.pure, Option.bind, id, hrefs', dropCond, hcr, hpac, haddr, hpa, hla, hav, harr, hhash, hcls, hml])
                · by_cases hic : l.object_type = "ICLASS"
                  · refine ⟨?_, ?_, ?_⟩ <;> (simp [Line.parse, Bind.bind, Except.bind, pure, Except.pure, Option.bind, id, hrefs', dropCond, hcr, hpac, haddr, hpa, hla, hav, harr, hhash, hcls, hml, hic])
                  · by_cases hst : l.object_type = "STRING"
                    · refine ⟨?_, ?_, ?_⟩ <;> (simp [Line.parse, Bind.bind, Except.bind, pure, Except.pure, Option.bind, id, hrefs', dropCond, hcr, hpac, haddr, hpa, hla, hav, harr, hhash, hcls, hml, hic, hst])
                    · refine ⟨?_, ?_, ?_⟩ <;> (simp [Line.parse, Bind.bind, Except.bind, pure, Except.pure, Option.bind, id, hrefs', dropCond, hcr, hpac, haddr, hpa, hla, hav, harr, hhash, hcls, hml, hic, hst])

/-- C8 counterexample: a well-formed `ARRAY` record lacking `length`
(with a perfectly usable address) makes `Line::parse` return `None` —
and the record loop of `parse` then panics via `expect` instead of
dropping the record silently, so an exception does propagate. -/
theorem c8_counterexample :
    (Line.mk (some ['0', 'x', '2', '0']) (some 7) [] "ARRAY" none none none none none).parse
        false = .ok none
    ∧ buildGraph
        [Line.mk (some ['0', 'x', '2', '0']) (some 7) [] "ARRAY" none none none none none]
        false = .error () :=
  ⟨by decide, by decide⟩

/-- Witness for C8 amended at a record with an unparsable reference
and class pointer (both tolerated) and a missing `ARRAY` length. -/
theorem c8_witness :
    ((Line.mk (some ['0', 'x', '2', '0']) (some 7) [['z', 'z']] "ARRAY"
        (some ['0', 'x', 'g']) none none none none).parse false = .ok none ↔
      dropCond (Line.mk (some ['0', 'x', '2', '0']) (some 7) [['z', 'z']] "ARRAY"
        (some ['0', 'x', 'g']) none none none none) false) :=
  (c8_parse_tolerates_malformed_records _ false (by decide) (by decide) (by decide)).2.1

/-! ## C7: the synthetic root and root-reference accumulation -/

/-- Membership in an `alInsert` result: the new binding or an old one. -/
theorem alInsert_mem {κ α : Type} [DecidableEq κ] (k : κ) (v : α) (l : List (κ × α)) :
    ∀ q ∈ alInsert k v l, q = (k, v) ∨ q ∈ l := by
  induction l with
  | nil => simp [alInsert]
  | cons p rest ih =>
    obtain ⟨a, b⟩ := p
    by_cases h : a = k
    · simp only [alInsert, if_pos h]
      intro q hq
      rcases List.mem_cons.1 hq with rfl | hq'
      · exact Or.inl rfl
      · exact Or.inr (List.mem_cons_of_mem _ hq')
    · simp only [alInsert, if_neg h]
      intro q hq
      rcases List.mem_cons.1 hq with rfl | hq'
      · exact Or.inr (List.mem_cons_self _ _)
      · rcases ih q hq' with h1 | h1
        · exact Or.inl h1
        · exact Or.inr (List.mem_cons_of_mem _ h1)

theorem buildInv_init : BuildInv initState := by
  refine ⟨rfl, ?_, rfl, ?_, ?_, ?_, ⟨[], [], rfl, by simp⟩, by simp [initState]⟩
  · simp [initState]
  · simp [initState]
  · simp [initState]
  · intro o ho
    simp [initState] at ho
    simp [ho, initState, Object.rootObj, alLookup]

theorem buildStep_inv {b : Bool} {st st' : BuildState} {l : Line}
    (h : buildStep b st l = .ok st') (hinv : BuildInv st) :
    BuildInv st' ∧
      (alLookup 0 st'.references).getD [] =
        (alLookup 0 st.references).getD [] ++
          (match l.parse b with
           | .ok (some p) => if p.object.isRoot then p.references else []
           | _ => []) := by
  obtain ⟨acc, rest', hrefs, hrest⟩ := hinv.refs_head
  have hacc : alLookup 0 st.references = some acc := by
    rw [hrefs]
    simp [alLookup]
  obtain ⟨o0, rest0, hn⟩ : ∃ o0 rest0, st.nodes = o0 :: rest0 := by
    cases hng : st.nodes with
    | nil =>
      have := hinv.nodes_head
      rw [hng] at this
      cases this
    | cons a r => exact ⟨a, r, rfl⟩
  cases hp : l.parse b with
  | error e =>
    simp [buildStep, hp, Bind.bind, Except.bind] at h
  | ok po =>
    cases po with
    | none => simp [buildStep, hp, Bind.bind, Except.bind] at h
    | some p =>
      by_cases hroot : p.object.isRoot
      · have hst' : st' = { st with
            references := alInsert 0 (((alLookup 0 st.references).getD []) ++ p.references)
              st.references } := by
          simp [buildStep, hp, hroot, Bind.bind, Except.bind, pure, Except.pure] at h
          exact h.symm
        subst hst'
        refine ⟨⟨hinv.nodes_head, hinv.tail_ne, hinv.idx0, hinv.idx_pos, hinv.idx_val,
          hinv.idx_node, ?_, hinv.inst_keys⟩, ?_⟩
        · refine ⟨acc ++ p.references, rest', ?_, hrest⟩
          show alInsert 0 ((alLookup 0 st.references).getD [] ++ p.references) st.references
            = (0, acc ++ p.references) :: rest'
          rw [hacc, hrefs]
          simp [alInsert]
        · show (alLookup 0 (alInsert 0 ((alLookup 0 st.references).getD [] ++ p.references)
            st.references)).getD [] = _
          rw [alLookup_alInsert_self]
          simp [hroot]
      · have haddr : p.object.address ≠ 0 := by
          simp [Object.isRoot] at hroot
          exact hroot
        have hst' : st' = { st with
            nodes := st.nodes ++ [p.object],
            indices := alInsert p.object.address st.nodes.length st.indices,
            references :=
              if p.references = [] then st.references
              else alInsert p.object.address p.references st.references,
            instances :=
              match p.module with
              | some m => alInsert p.object.address m st.instances
              | none => st.instances,
            names :=
              match p.name with
              | some n => alInsert p.object.address n st.names
              | none => st.names } := by
          simp [buildStep, hp, hroot, Bind.bind, Except.bind, pure, Except.pure] at h
          exact h.symm
        subst hst'
        have hlen : 1 ≤ st.nodes.length := by rw [hn]; simp
        constructor
        · refine ⟨?_, ?_, ?_, ?_, ?_, ?_, ?_, ?_⟩
          · show (st.nodes ++ [p.object]).head? = some Object.rootObj
            have := hinv.nodes_head
            rw [hn] at this ⊢
            simpa using this
          · show ∀ o ∈ (st.nodes ++ [p.object]).tail, o.address ≠ 0
            intro o ho
            rw [hn] at ho
            simp at ho
            rcases ho with ho | ho
            · exact hinv.tail_ne o (by rw [hn]; simpa using ho)
            · rw [ho]
              exact haddr
          · show alLookup 0 (alInsert p.object.address st.nodes.length st.indices) = some 0
            rw [alLookup_alInsert_ne fun he => haddr he.symm]
            exact hinv.idx0
          · intro q hq hq0
            rcases alInsert_mem _ _ _ q hq with rfl | hq'
            · exact absurd hq0 haddr
            · exact hinv.idx_pos q hq' hq0
          · intro q hq hq0
            rcases alInsert_mem _ _ _ q hq with rfl | hq'
            · refine ⟨hlen, by simp, ?_⟩
              show ((st.nodes ++ [p.object]).getD st.nodes.length dummyObject).address
                = p.object.address
              rw [List.getD_append_right _ _ _ _ le_rfl]
              simp
            · obtain ⟨h1, h2, h3⟩ := hinv.idx_val q hq' hq0
              refine ⟨h1, ?_, ?_⟩
              · show q.2 < (st.nodes ++ [p.object]).length
                simp
                omega
              · show ((st.nodes ++ [p.object]).getD q.2 dummyObject).address = q.1
                rw [List.getD_append _ _ _ _ h2]
                exact h3
          · intro o ho
            rcases List.mem_append.1 ho with ho' | ho'
            · by_cases he : o.address = p.object.address
              · rw [he, alLookup_alInsert_self]
                simp
              · rw [alLookup_alInsert_ne he]
                exact hinv.idx_node o ho'
            · simp at ho'
              rw [ho', alLookup_alInsert_self]
              simp
          · by_cases hne : p.references = []
            · show ∃ acc2 rest2, (if p.references = [] then st.references
                  else alInsert p.object.address p.references st.references)
                  = (0, acc2) :: rest2 ∧ ∀ q ∈ rest2, q.1 ≠ 0
              rw [if_pos hne]
              exact ⟨acc, rest', hrefs, hrest⟩
            · show ∃ acc2 rest2, (if p.references = [] then st.references
                  else alInsert p.object.address p.references st.references)
                  = (0, acc2) :: rest2 ∧ ∀ q ∈ rest2, q.1 ≠ 0
              rw [if_neg hne]
              refine ⟨acc, alInsert p.object.address p.references rest', ?_, ?_⟩
              · rw [hrefs]
                simp only [alInsert, if_neg fun he : (0 : Nat) = p.object.address =>
                  haddr he.symm]
              · intro q hq
                rcases alInsert_mem _ _ _ q hq with rfl | hq'
                · exact haddr
                · exact hrest q hq'
          · show ∀ q ∈ (match p.module with
                | some m => alInsert p.object.address m st.instances
                | none => st.instances), q.1 ≠ 0
            cases hm : p.module with
            | none => exact hinv.inst_keys
            | some m =>
              intro q hq
              rcases alInsert_mem _ _ _ q hq with rfl | hq'
              · exact haddr
              · exact hinv.inst_keys q hq'
        · have hsame : alLookup 0 (if p.references = [] then st.references
              else alInsert p.object.address p.references st.references)
              = alLookup 0 st.references := by
            by_cases hne : p.references = []
            · rw [if_pos hne]
            · rw [if_neg hne, alLookup_alInsert_ne fun he => haddr he.symm]
          show (alLookup 0 (if p.references = [] then st.references
              else alInsert p.object.address p.references st.references)).getD [] = _
          rw [hsame]
          simp [hroot]

theorem getD_mem {α : Type} {l : List α} {n : Nat} (h : n < l.length) (d : α) :
    l.getD n d ∈ l := by
  rw [List.getD_eq_getElem?_getD, List.getElem?_eq_getElem h]
  exact List.getElem_mem h

theorem buildFold_inv (b : Bool) :
    ∀ (lines : List Line) (st st' : BuildState),
      lines.foldlM (buildStep b) st = .ok st' → BuildInv st →
      BuildInv st' ∧
        (alLookup 0 st'.references).getD [] =
          (alLookup 0 st.references).getD [] ++ rootRefsSpec b lines := by
  intro lines
  induction lines with
  | nil =>
    intro st st' h hinv
    rw [List.foldlM_nil] at h
    cases h
    exact ⟨hinv, by simp [rootRefsSpec]⟩
  | cons l rest ih =>
    intro st st' h hinv
    rw [List.foldlM_cons] at h
    cases hs : buildStep b st l with
    | error e =>
      rw [hs] at h
      simp [Bind.bind, Except.bind] at h
    | ok st₁ =>
      rw [hs] at h
      simp only [Bind.bind, Except.bind] at h
      obtain ⟨hinv₁, hacc₁⟩ := buildStep_inv hs hinv
      obtain ⟨hinv', hacc'⟩ := ih st₁ st' h hinv₁
      refine ⟨hinv', ?_⟩
      rw [hacc', hacc₁, rootRefsSpec]
      simp [List.append_assoc]

theorem rewriteKinds_address (inst : List (Nat × Nat)) (names : List (Nat × String))
    (nodes : List Object) :
    (rewriteKinds inst names nodes).map Object.address = nodes.map Object.address := by
  unfold rewriteKinds
  rw [List.map_map]
  apply List.map_congr_left
  intro o _
  show Object.address (match alLookup o.address inst with
    | some module =>
      match alLookup module names with
      | some n => { o with kind := n }
      | none => o
    | none => o) = o.address
  cases h1 : alLookup o.address inst with
  | none => simp [h1]
  | some m =>
    cases h2 : alLookup m names with
    | none => simp [h1, h2]
    | some n => simp [h1, h2]

theorem rewriteKinds_head (inst : List (Nat × Nat)) (names : List (Nat × String))
    (nodes : List Object) (hik : ∀ q ∈ inst, q.1 ≠ 0)
    (h : nodes.head? = some Object.rootObj) :
    (rewriteKinds inst names nodes).head? = some Object.rootObj := by
  cases nodes with
  | nil => cases h
  | cons o rest =>
    have ho : o = Object.rootObj := by simpa using h
    have hlook : alLookup (0 : Nat) inst = none := by
      rw [alLookup_eq_none]
      intro hmem
      obtain ⟨q, hq, hq1⟩ := List.mem_map.1 hmem
      exact hik q hq hq1
    subst ho
    show ((Object.rootObj :: rest).map _).head? = _
    simp only [List.map_cons, List.head?_cons, Option.some.injEq]
    show (match alLookup Object.rootObj.address inst with
      | some module =>
        match alLookup module names with
        | some n => { Object.rootObj with kind := n }
        | none => Object.rootObj
      | none => Object.rootObj) = Object.rootObj
    have : Object.rootObj.address = 0 := rfl
    rw [this, hlook]

theorem materializeEdges_split {idx : List (Nat × Nat)} {acc : List Nat}
    {rest' : List (Nat × List Nat)} {E : List (Nat × Nat)}
    (h : materializeEdges idx ((0, acc) :: rest') = .ok E) {i : Nat}
    (hl : alLookup 0 idx = some i) :
    ∃ E', materializeEdges idx rest' = .ok E' ∧
      E = (acc.filterMap fun a => (alLookup a idx).map fun j => (i, j)) ++ E' := by
  rw [show materializeEdges idx ((0, acc) :: rest') =
      (match alLookup 0 idx with
       | none => .error ()
       | some i =>
         match materializeEdges idx rest' with
         | .error e => .error e
         | .ok tail =>
           .ok ((acc.filterMap fun s => (alLookup s idx).map fun j => (i, j)) ++ tail))
    from rfl, hl] at h
  cases hm : materializeEdges idx rest' with
  | error e => rw [hm] at h; cases h
  | ok E' =>
    rw [hm] at h
    cases h
    exact ⟨E', rfl, rfl⟩

theorem materializeEdges_src (idx : List (Nat × Nat)) :
    ∀ (refs : List (Nat × List Nat)) (E : List (Nat × Nat)),
      materializeEdges idx refs = .ok E →
      (∀ q ∈ refs, ∀ i, alLookup q.1 idx = some i → 1 ≤ i) →
      ∀ e ∈ E, 1 ≤ e.1 := by
  intro refs
  induction refs with
  | nil =>
    intro E h _
    cases h
    simp
  | cons q rest ih =>
    intro E h hk
    obtain ⟨node, succs⟩ := q
    rw [show materializeEdges idx ((node, succs) :: rest) =
        (match alLookup node idx with
         | none => .error ()
         | some i =>
           match materializeEdges idx rest with
           | .error e => .error e
           | .ok tail =>
             .ok ((succs.filterMap fun s => (alLookup s idx).map fun j => (i, j)) ++ tail))
      from rfl] at h
    cases hl : alLookup node idx with
    | none => rw [hl] at h; cases h
    | some i =>
      rw [hl] at h
      cases hm : materializeEdges idx rest with
      | error e => rw [hm] at h; cases h
      | ok tail =>
        rw [hm] at h
        cases h
        intro e he
        rcases List.mem_append.1 he with he' | he'
        · obtain ⟨a, _, ha2⟩ := List.mem_filterMap.1 he'
          cases hla : alLookup a idx with
          | none => rw [hla] at ha2; cases ha2
          | some j =>
            rw [hla] at ha2
            cases ha2
            exact hk (node, succs) (List.mem_cons_self _ _) i hl
        · exact ih tail hm (fun q hq => hk q (List.mem_cons_of_mem _ hq)) e he'

theorem rootEdges_map (idx : List (Nat × Nat)) (nodes : List Object) (acc : List Nat)
    (hpos : ∀ p ∈ idx, p.1 = 0 → p.2 = 0)
    (hval : ∀ p ∈ idx, p.1 ≠ 0 →
      1 ≤ p.2 ∧ p.2 < nodes.length ∧ (nodes.getD p.2 dummyObject).address = p.1)
    (hnode : ∀ o ∈ nodes, (alLookup o.address idx).isSome)
    (hhead : nodes.head? = some Object.rootObj) :
    ((acc.filterMap fun a => (alLookup a idx).map fun j => ((0 : Nat), j)).map
        fun e => (nodes.getD e.2 dummyObject).address)
      = acc.filter fun a => decide (a ∈ nodes.map Object.address) := by
  obtain ⟨rest0, hns⟩ : ∃ rest0, nodes = Object.rootObj :: rest0 := by
    cases hng : nodes with
    | nil => rw [hng] at hhead; cases hhead
    | cons o r =>
      rw [hng] at hhead
      have ho : o = Object.rootObj := by simpa using hhead
      exact ⟨r, by rw [ho]⟩
  induction acc with
  | nil => rfl
  | cons a acc' ih =>
    rw [List.filterMap_cons, List.filter_cons]
    cases hla : alLookup a idx with
    | none =>
      have hnot : a ∉ nodes.map Object.address := by
        intro hmem
        obtain ⟨o, ho, ho1⟩ := List.mem_map.1 hmem
        have hs := hnode o ho
        rw [ho1, hla] at hs
        simp at hs
      rw [if_neg (by simpa using hnot)]
      exact ih
    | some j =>
      have hmem : (a, j) ∈ idx := alLookup_mem hla
      by_cases ha0 : a = 0
      · have hj0 : j = 0 := hpos (a, j) hmem ha0
        have h0 : (nodes.getD 0 dummyObject).address = 0 := by
          rw [hns]
          rfl
        have hmem0 : a ∈ nodes.map Object.address := by
          rw [ha0, hns]
          simp [Object.rootObj]
        rw [if_pos (decide_eq_true hmem0)]
        simp only [Option.map_some', List.map_cons]
        rw [hj0, h0, ha0, ih]
      · have h1 : 1 ≤ j := (hval (a, j) hmem ha0).1
        have h2 : j < nodes.length := (hval (a, j) hmem ha0).2.1
        have h3 : (nodes.getD j dummyObject).address = a := (hval (a, j) hmem ha0).2.2
        have hmem2 : a ∈ nodes.map Object.address := by
          rw [← h3]
          exact List.mem_map_of_mem _ (getD_mem h2 _)
        rw [if_pos (decide_eq_true hmem2)]
        simp only [Option.map_some', List.map_cons]
        rw [h3, ih]

/-- C7 amended. During graph build exactly one synthetic root with
address 0 exists (created up front; records with address 0 and a
non-`ROOT` type never become nodes, and `ROOT`-typed records without a
usable address are folded into the root instead of added); the
references of every record that parses to the root object — a
`ROOT`-typed record whose address field is absent, unparsable, or zero
— accumulate, in input order, into the synthetic root's out-edge set
(resolvable references become edges from node 0, in order). A
`ROOT`-typed record carrying a nonzero parsed address is instead added
as an ordinary node and does not contribute to the root (see the
counterexample). -/
theorem c7_synthetic_root_accumulates (lines : List Line) (b : Bool) (ri : Nat)
    (g : RefGraph) (h : buildGraph lines b = .ok (ri, g)) :
    ri = 0
    ∧ g.nodes.head? = some Object.rootObj
    ∧ g.nodes.countP (fun o => decide (o.address = 0)) = 1
    ∧ ((g.edges.filter fun e => decide (e.1 = 0)).map fun e => g.addrAt e.2)
        = (rootRefsSpec b lines).filter fun a => decide (a ∈ g.nodes.map Object.address) := by
  cases hf : lines.foldlM (buildStep b) initState with
  | error e =>
    rw [show buildGraph lines b
        = (lines.foldlM (buildStep b) initState >>= fun st =>
            materializeEdges st.indices st.references >>= fun edges =>
            pure (0, ⟨rewriteKinds st.instances st.names st.nodes, edges⟩)) from rfl,
      hf] at h
    simp [Bind.bind, Except.bind] at h
  | ok st =>
    rw [show buildGraph lines b
        = (lines.foldlM (buildStep b) initState >>= fun st =>
            materializeEdges st.indices st.references >>= fun edges =>
            pure (0, ⟨rewriteKinds st.instances st.names st.nodes, edges⟩)) from rfl,
      hf] at h
    simp only [Bind.bind, Except.bind] at h
    obtain ⟨hinv, hacc⟩ := buildFold_inv b lines initState st hf buildInv_init
    obtain ⟨acc, rest', hrefs, hrest⟩ := hinv.refs_head
    have haccv : acc = rootRefsSpec b lines := by
      have h1 : (alLookup 0 st.references).getD [] = acc := by
        rw [hrefs]
        simp [alLookup]
      have h2 : (alLookup 0 initState.references).getD [] = ([] : List Nat) := by
        simp [initState, alLookup]
      rw [h1, h2] at hacc
      simpa using hacc
    cases hm : materializeEdges st.indices st.references with
    | error e =>
      rw [hm] at h
      simp at h
    | ok E =>
      rw [hm] at h
      simp only [pure, Except.pure, Except.ok.injEq, Prod.mk.injEq] at h
      obtain ⟨hri, hg⟩ := h
      subst hri
      subst hg
      refine ⟨rfl, ?_, ?_, ?_⟩
      · exact rewriteKinds_head _ _ _ hinv.inst_keys hinv.nodes_head
      · -- exactly one node with address 0
        obtain ⟨rest0, hns⟩ : ∃ rest0, st.nodes = Object.rootObj :: rest0 := by
          cases hng : st.nodes with
          | nil =>
            have := hinv.nodes_head
            rw [hng] at this
            cases this
          | cons o r =>
            have := hinv.nodes_head
            rw [hng] at this
            exact ⟨r, by rw [show o = Object.rootObj by simpa using this]⟩
        have hmapeq := rewriteKinds_address st.instances st.names st.nodes
        rw [show (fun o : Object => decide (o.address = 0))
            = (fun a : Nat => decide (a = 0)) ∘ Object.address from rfl,
          ← List.countP_map, hmapeq, hns, List.map_cons, List.countP_cons]
        have hz : List.countP (fun a : Nat => decide (a = 0))
            (rest0.map Object.address) = 0 := by
          rw [List.countP_eq_zero]
          intro a ha
          obtain ⟨o, ho, ho1⟩ := List.mem_map.1 ha
          have := hinv.tail_ne o (by rw [hns]; simpa using ho)
          simp [← ho1, this]
        rw [hz]
        simp [Object.rootObj]
      · -- root out-edges = accumulated, resolvable root references
        obtain ⟨E', hmE', hE⟩ := materializeEdges_split (by rw [← hrefs]; exact hm) hinv.idx0
        have hE'src : ∀ e ∈ E', 1 ≤ e.1 := by
          refine materializeEdges_src st.indices rest' E' hmE' ?_
          intro q hq i hi
          exact (hinv.idx_val (q.1, i) (alLookup_mem hi) (hrest q hq)).1
        have hheadsrc : ∀ e ∈ (acc.filterMap fun a =>
            (alLookup a st.indices).map fun j => ((0 : Nat), j)), e.1 = 0 := by
          intro e he
          obtain ⟨a, _, ha2⟩ := List.mem_filterMap.1 he
          cases hla : alLookup a st.indices with
          | none => rw [hla] at ha2; cases ha2
          | some j =>
            rw [hla] at ha2
            cases ha2
            rfl
        have hfilter : (E.filter fun e => decide (e.1 = 0))
            = acc.filterMap fun a => (alLookup a st.indices).map fun j => ((0 : Nat), j) := by
          rw [hE, List.filter_append]
          have hf1 : ((acc.filterMap fun a =>
              (alLookup a st.indices).map fun j => ((0 : Nat), j)).filter
                fun e => decide (e.1 = 0))
              = acc.filterMap fun a => (alLookup a st.indices).map fun j => ((0 : Nat), j) :=
            List.filter_eq_self.2 fun e he => by simp [hheadsrc e he]
          have hf2 : (E'.filter fun e => decide (e.1 = 0)) = [] :=
            List.filter_eq_nil_iff.2 fun e he => by
              have := hE'src e he
              simp
              omega
          rw [hf1, hf2, List.append_nil]
        have hmapeq := rewriteKinds_address st.instances st.names st.nodes
        have haddrAt : ∀ j : Nat,
            (RefGraph.mk (rewriteKinds st.instances st.names st.nodes) E).addrAt j
              = (st.nodes.getD j dummyObject).address := by
          intro j
          show ((rewriteKinds st.instances st.names st.nodes).getD j dummyObject).address = _
          have e1 : ((rewriteKinds st.instances st.names st.nodes).getD j dummyObject).address
              = ((rewriteKinds st.instances st.names st.nodes).map Object.address).getD j
                dummyObject.address := (List.getD_map _ _ _).symm
          have e2 : (st.nodes.getD j dummyObject).address
              = (st.nodes.map Object.address).getD j dummyObject.address :=
            (List.getD_map _ _ _).symm
          rw [e1, e2, hmapeq]
        show ((E.filter fun e => decide (e.1 = 0)).map
            fun e => (RefGraph.mk (rewriteKinds st.instances st.names st.nodes) E).addrAt e.2)
          = _
        rw [hfilter, List.map_congr_left fun e _ => haddrAt e.2, ← haccv]
        have hnodesmap : (rewriteKinds st.instances st.names st.nodes).map Object.address
            = st.nodes.map Object.address := hmapeq
        show _ = acc.filter fun a =>
          decide (a ∈ (rewriteKinds st.instances st.names st.nodes).map Object.address)
        rw [hnodesmap]
        exact rootEdges_map st.indices st.nodes acc hinv.idx_pos hinv.idx_val
          hinv.idx_node hinv.nodes_head

/-- C7 counterexample: a `ROOT`-typed record carrying a nonzero
parsed address (`0x10`) and a resolvable reference. It becomes an
ordinary node (index 1, a self-edge `(1,1)`), and the synthetic root
(index 0) receives none of its references — so not every `ROOT`-typed
record contributes its references to the synthetic root's out-edges. -/
theorem c7_counterexample :
    (Line.mk (some ['0', 'x', '1', '0']) (some 5) [['0', 'x', '1', '0']] "ROOT" none none
        none none none).object_type = "ROOT"
    ∧ (Line.mk (some ['0', 'x', '1', '0']) (some 5) [['0', 'x', '1', '0']] "ROOT" none none
        none none none).references ≠ []
    ∧ buildGraph
        [Line.mk (some ['0', 'x', '1', '0']) (some 5) [['0', 'x', '1', '0']] "ROOT" none
          none none none none] false
        = .ok (0, ⟨[Object.rootObj, ⟨16, 5, "ROOT", none⟩], [(1, 1)]⟩)
    ∧ (([((1 : Nat), (1 : Nat))].filter fun e => decide (e.1 = 0)) = []) :=
  ⟨rfl, by decide, by decide, by decide⟩

/-- Witness for C7 amended: a ROOT record without an address followed
by a data record; the root's reference materializes as edge `(0, 1)`. -/
theorem c7_witness :
    (0 : Nat) = 0
    ∧ (RefGraph.mk [Object.rootObj, ⟨16, 7, "DATA", none⟩] [(0, 1)]).nodes.head?
        = some Object.rootObj
    ∧ (RefGraph.mk [Object.rootObj, ⟨16, 7, "DATA", none⟩] [(0, 1)]).nodes.countP
        (fun o => decide (o.address = 0)) = 1
    ∧ (((RefGraph.mk [Object.rootObj, ⟨16, 7, "DATA", none⟩] [(0, 1)]).edges.filter
          fun e => decide (e.1 = 0)).map
        fun e => (RefGraph.mk [Object.rootObj, ⟨16, 7, "DATA", none⟩] [(0, 1)]).addrAt e.2)
        = (rootRefsSpec false
            [Line.mk none none [['0', 'x', '1', '0']] "ROOT" none none none none none,
              Line.mk (some ['0', 'x', '1', '0']) (some 7) [] "DATA" none none none none
                none]).filter
            fun a => decide (a ∈ (RefGraph.mk [Object.rootObj, ⟨16, 7, "DATA", none⟩]
              [(0, 1)]).nodes.map Object.address) :=
  c7_synthetic_root_accumulates
    [Line.mk none none [['0', 'x', '1', '0']] "ROOT" none none none none none,
      Line.mk (some ['0', 'x', '1', '0']) (some 7) [] "DATA" none none none none none]
    false 0 (RefGraph.mk [Object.rootObj, ⟨16, 7, "DATA", none⟩] [(0, 1)]) (by decide)

/-! ## C2: dominator subtree sizes -/

/-- Folding `alModify` over a nodup key list touches each key once. -/
theorem foldl_alModify_lookup {α : Type} (f : α → α) :
    ∀ (KS : List Nat), KS.Nodup → ∀ (sz : List (Nat × α)) (v : Nat),
      alLookup v (KS.foldl (fun s d => alModify d f s) sz)
        = if v ∈ KS then (alLookup v sz).map f else alLookup v sz := by
  intro KS
  induction KS with
  | nil =>
    intro _ sz v
    simp
  | cons k KS' ih =>
    intro hnd sz v
    rw [List.foldl_cons, ih (List.nodup_cons.1 hnd).2]
    by_cases hv : v = k
    · subst hv
      have hnm : v ∉ KS' := (List.nodup_cons.1 hnd).1
      rw [if_neg hnm, if_pos (List.mem_cons_self _ _), alLookup_alModify_self]
    · rw [alLookup_alModify_ne hv]
      by_cases hv' : v ∈ KS'
      · rw [if_pos hv', if_pos (List.mem_cons_of_mem _ hv')]
      · rw [if_neg hv', if_neg (by simp [hv, hv'])]

theorem sumStats_cons (x : Stats) (l : List Stats) : sumStats (x :: l) = x + sumStats l := by
  rw [sumStats_eq_sum, sumStats_eq_sum, List.sum_cons]

/-- Walking every node's chain and adding its stats to each ancestor
computes, at key `v`, the base value plus the sum over nodes whose
chain passes through `v`. -/
theorem subtree_fold_lookup {doms : List (Nat × Nat)} {rank : Nat → Nat}
    (hrank : ∀ p ∈ doms, rank p.2 < rank p.1) (stf : Nat → Stats) :
    ∀ (us : List Nat) (base : List (Nat × Stats)) (v : Nat),
      alLookup v (us.foldl (fun sizes i =>
          (chain doms i).foldl (fun sz d => alModify d (fun e => e.add (stf i)) sz) sizes)
        base)
        = (alLookup v base).map
            (fun bv => bv + sumStats ((us.filter fun u => decide (v ∈ chain doms u)).map stf)) := by
  intro us
  induction us with
  | nil =>
    intro base v
    simp only [List.foldl_nil, List.filter_nil, List.map_nil]
    cases alLookup v base <;> simp [sumStats, Stats.zero_def]
  | cons u us' ih =>
    intro base v
    rw [List.foldl_cons, ih, foldl_alModify_lookup _ _ (chain_nodup hrank u), List.filter_cons]
    by_cases hv : v ∈ chain doms u
    · rw [if_pos hv, if_pos (decide_eq_true hv)]
      cases alLookup v base with
      | none => simp
      | some bv =>
        simp only [Option.map_some', List.map_cons, Option.some.injEq]
        rw [sumStats_cons, Stats.add_def, add_assoc]
    · rw [if_neg hv, if_neg (by simpa using hv)]

theorem map_fst_pair {β : Type} (f : Nat → β) (l : List Nat) :
    (l.map fun i => (i, f i)).map Prod.fst = l := by
  induction l with
  | nil => rfl
  | cons x l' ih => simp [ih]

theorem alLookup_pair {β : Type} (f : Nat → β) (l : List Nat) (v : Nat) (hv : v ∈ l) :
    alLookup v (l.map fun i => (i, f i)) = some (f v) := by
  induction l with
  | nil => simp at hv
  | cons i l' ih =>
    by_cases hvi : i = v
    · subst hvi
      simp [alLookup]
    · rcases List.mem_cons.1 hv with rfl | hv'
      · exact absurd rfl hvi
      · simp only [List.map_cons, alLookup, if_neg hvi]
        exact ih hv'

theorem filter_or_self_perm :
    ∀ (l : List Nat), l.Nodup → ∀ (v : Nat), v ∈ l → ∀ (p : Nat → Bool), p v = false →
      (l.filter fun u => decide (u = v) || p u).Perm (v :: l.filter p) := by
  intro l
  induction l with
  | nil => intro _ v hv; simp at hv
  | cons x l' ih =>
    intro hnd v hv p hpv
    rw [List.filter_cons, List.filter_cons]
    by_cases hx : x = v
    · subst hx
      have hnm : x ∉ l' := (List.nodup_cons.1 hnd).1
      rw [if_pos (by simp), if_neg (by simp [hpv])]
      have hcongr : l'.filter (fun u => decide (u = x) || p u) = l'.filter p := by
        apply List.filter_congr
        intro u hu
        have : u ≠ x := fun he => hnm (he ▸ hu)
        simp [this]
      rw [hcongr]
    · have hv' : v ∈ l' := by
        rcases List.mem_cons.1 hv with rfl | hv'
        · exact absurd rfl hx
        · exact hv'
      have hxv : (decide (x = v) || p x) = p x := by simp [hx]
      rw [hxv]
      by_cases hpx : p x = true
      · rw [if_pos hpx, if_pos hpx]
        exact ((ih (List.nodup_cons.1 hnd).2 v hv' p hpv).cons x).trans
          (List.Perm.swap _ _ _)
      · rw [if_neg hpx, if_neg hpx]
        exact ih (List.nodup_cons.1 hnd).2 v hv' p hpv

/-- The per-node characterization of `dominator_subtree_sizes`:
the stored value at `v` is the Stats sum over `v` and every node whose
chain passes through `v`. Shared by several claims. -/
theorem subtree_sizes_lookup {g : RefGraph} {doms : List (Nat × Nat)} {rank : Nat → Nat}
    (hrank : ∀ p ∈ doms, rank p.2 < rank p.1) {v : Nat} (hv : v ∈ g.indicesList) :
    alLookup v (dominator_subtree_sizes g doms)
      = some (sumStats ((g.indicesList.filter fun u =>
          decide (u = v) || decide (v ∈ chain doms u)).map fun u => (g.objAt u).stats)) := by
  show alLookup v (g.indicesList.foldl _ (g.indicesList.map fun i => (i, (g.objAt i).stats)))
    = _
  rw [subtree_fold_lookup hrank (fun i => (g.objAt i).stats) g.indicesList
    (g.indicesList.map fun i => (i, (g.objAt i).stats)) v]
  rw [alLookup_pair _ _ _ hv]
  simp only [Option.map_some', Option.some.injEq]
  have hperm := filter_or_self_perm g.indicesList (List.nodup_range _) v hv
    (fun u => decide (v ∈ chain doms u))
    (by simpa using not_mem_chain_self hrank v)
  have hsum : sumStats ((g.indicesList.filter fun u =>
      decide (u = v) || decide (v ∈ chain doms u)).map fun u => (g.objAt u).stats)
      = sumStats ((v :: g.indicesList.filter fun u => decide (v ∈ chain doms u)).map
          fun u => (g.objAt u).stats) := by
    rw [sumStats_eq_sum, sumStats_eq_sum]
    exact (hperm.map _).sum_eq
  rw [hsum, List.map_cons, sumStats_cons]

/-- C2. For every well-founded dominator map, `subtree_sizes[v]` is
the Stats sum of `(1, u.bytes)` over `v` itself and every node `u`
whose `idom` chain passes through `v`; when moreover every non-root
node's chain reaches the root, `subtree_sizes[root]` is the Stats sum
of `u.stats()` over all nodes of the graph. -/
theorem c2_subtree_sizes_sum (g : RefGraph) (doms : List (Nat × Nat)) (hwf : DomWF doms) :
    (∀ v ∈ g.indicesList,
      alLookup v (dominator_subtree_sizes g doms)
        = some (sumStats ((g.indicesList.filter fun u =>
            decide (u = v) || decide (v ∈ chain doms u)).map fun u => (g.objAt u).stats)))
    ∧ ∀ root ∈ g.indicesList,
        (∀ u ∈ g.indicesList, u ≠ root → root ∈ chain doms u) →
        alLookup root (dominator_subtree_sizes g doms)
          = some (sumStats (g.indicesList.map fun u => (g.objAt u).stats)) := by
  obtain ⟨rank, hrank⟩ := hwf
  refine ⟨fun v hv => subtree_sizes_lookup hrank hv, ?_⟩
  intro root hroot hall
  rw [subtree_sizes_lookup hrank hroot]
  have hfs : (g.indicesList.filter fun u => decide (u = root) || decide (root ∈ chain doms u))
      = g.indicesList := by
    apply List.filter_eq_self.2
    intro u hu
    by_cases he : u = root
    · simp [he]
    · simp [hall u hu he]
  rw [hfs]

/-! ## C4: the pruned dominator subgraph -/

theorem foldl_alModify_keys {α : Type} (f : α → α) (KS : List Nat) :
    ∀ (sz : List (Nat × α)),
      ((KS.foldl (fun s d => alModify d f s) sz).map Prod.fst) = sz.map Prod.fst := by
  induction KS with
  | nil => intro sz; rfl
  | cons k KS' ih =>
    intro sz
    rw [List.foldl_cons, ih, alModify_keys]

/-- The key list of the subtree-size table is exactly the node index
list, in order. -/
theorem subtree_sizes_keys (g : RefGraph) (doms : List (Nat × Nat)) :
    (dominator_subtree_sizes g doms).map Prod.fst = g.indicesList := by
  show ((g.indicesList.foldl _ (g.indicesList.map fun i => (i, (g.objAt i).stats))).map
    Prod.fst) = _
  have : ∀ (us : List Nat) (base : List (Nat × Stats)),
      ((us.foldl (fun sizes i =>
          (chain doms i).foldl (fun sz d => alModify d (fun e => e.add ((g.objAt i).stats)) sz)
            sizes) base).map Prod.fst) = base.map Prod.fst := by
    intro us
    induction us with
    | nil => intro base; rfl
    | cons u us' ih =>
      intro base
      rw [List.foldl_cons, ih, foldl_alModify_keys]
  rw [this, map_fst_pair]

theorem alLookup_of_mem_nodup {κ α : Type} [DecidableEq κ] {k : κ} {v : α}
    {l : List (κ × α)} (hmem : (k, v) ∈ l) (hnd : (l.map Prod.fst).Nodup) :
    alLookup k l = some v := by
  induction l with
  | nil => simp at hmem
  | cons p rest ih =>
    obtain ⟨a, b⟩ := p
    rcases List.mem_cons.1 hmem with heq | hmem'
    · cases heq
      simp [alLookup]
    · have hnd' : (∀ x, (a, x) ∉ rest) ∧ (rest.map Prod.fst).Nodup := by simpa using hnd
      have ha : a ≠ k := by
        intro he
        subst he
        exact hnd'.1 v hmem'
      simp only [alLookup, if_neg ha]
      exact ih hmem' hnd'.2

theorem sumStats_bytes (L : List Stats) : (sumStats L).bytes = (L.map Stats.bytes).sum := by
  rw [sumStats_eq_sum, sum_bytes]

theorem sumStats_filter_mono (l : List Nat) (p q : Nat → Bool)
    (h : ∀ u, p u → q u) (stf : Nat → Stats) :
    (sumStats ((l.filter p).map stf)).bytes ≤ (sumStats ((l.filter q).map stf)).bytes := by
  rw [sumStats_bytes, sumStats_bytes]
  exact ((((List.monotone_filter_right l fun a ha => h a ha).map stf).map
    Stats.bytes).sum_le_sum fun a _ => Nat.zero_le a)

/-- Subtree sizes are monotone up the dominator chain: a node's bytes
never exceed its immediate dominator's. -/
theorem subtree_bytes_mono {g : RefGraph} {doms : List (Nat × Nat)} {rank : Nat → Nat}
    (hrank : ∀ p ∈ doms, rank p.2 < rank p.1) {v d : Nat}
    (hvd : alLookup v doms = some d) (hv : v ∈ g.indicesList) (hd : d ∈ g.indicesList) :
    ((alLookup v (dominator_subtree_sizes g doms)).getD Stats.zero).bytes
      ≤ ((alLookup d (dominator_subtree_sizes g doms)).getD Stats.zero).bytes := by
  rw [subtree_sizes_lookup hrank hv, subtree_sizes_lookup hrank hd]
  simp only [Option.getD_some]
  apply sumStats_filter_mono
  intro u hu
  simp only [Bool.or_eq_true, decide_eq_true_eq] at hu ⊢
  rcases hu with rfl | hu
  · exact Or.inr (head_mem_chain hrank hvd)
  · exact Or.inr (chain_subset_of_mem hrank u v hu (head_mem_chain hrank hvd))

theorem floor_mul_le_total (tb : Nat) (τ : ℚ) (h1 : τ ≤ 1) :
    (⌊(tb : ℚ) * τ⌋).toNat ≤ tb := by
  have h2 : (tb : ℚ) * τ ≤ (tb : ℚ) := mul_le_of_le_one_right (by positivity) h1
  have h3 : ⌊(tb : ℚ) * τ⌋ ≤ ⌊(tb : ℚ)⌋ := Int.floor_le_floor h2
  rw [Int.floor_natCast] at h3
  omega

/-- The edge-building fold of `relevant_dominator_subgraph`: when
every present dominator is itself retained, the fold succeeds, adds
exactly one edge per entry with a dominator, and every edge links an
entry to its dominator's new index. -/
theorem buildEdges_general (doms M : List (Nat × Nat)) :
    ∀ (L : List (Nat × Nat)) (init : List (Nat × Nat)),
      (∀ q ∈ L, ∀ d, alLookup q.1 doms = some d → (alLookup d M).isSome) →
      ∃ E, (L.foldlM
          (fun (acc : List (Nat × Nat)) (q : Nat × Nat) =>
            match alLookup q.1 doms with
            | some d => (alLookup d M).map fun nd => acc ++ [(nd, q.2)]
            | none => some acc) init) = some E
        ∧ E.length = init.length + (L.countP fun q => (alLookup q.1 doms).isSome)
        ∧ ∀ e ∈ E, e ∈ init ∨ ∃ q, q ∈ L ∧ ∃ d nd,
            alLookup q.1 doms = some d ∧ alLookup d M = some nd ∧ e = (nd, q.2) := by
  intro L
  induction L with
  | nil =>
    intro init _
    refine ⟨init, rfl, by simp, fun e he => Or.inl he⟩
  | cons q L' ih =>
    intro init hok
    rw [List.foldlM_cons]
    cases hld : alLookup q.1 doms with
    | none =>
      obtain ⟨E, hE, hlen, hmem⟩ := ih init fun q hq => hok q (List.mem_cons_of_mem _ hq)
      refine ⟨E, ?_, ?_, ?_⟩
      · simp only [hld]
        simpa [Bind.bind, Option.bind] using hE
      · rw [hlen, List.countP_cons]
        simp [hld]
      · intro e he
        rcases hmem e he with h1 | ⟨q', hq', rest⟩
        · exact Or.inl h1
        · exact Or.inr ⟨q', List.mem_cons_of_mem _ hq', rest⟩
    | some d =>
      obtain ⟨nd, hnd⟩ := Option.isSome_iff_exists.1
        (hok q (List.mem_cons_self _ _) d hld)
      obtain ⟨E, hE, hlen, hmem⟩ :=
        ih (init ++ [(nd, q.2)]) fun q hq => hok q (List.mem_cons_of_mem _ hq)
      refine ⟨E, ?_, ?_, ?_⟩
      · simp only [hld, hnd, Option.map_some']
        simpa [Bind.bind, Option.bind] using hE
      · rw [hlen, List.countP_cons]
        simp [hld]
        omega
      · intro e he
        rcases hmem e he with h1 | ⟨q', hq', rest⟩
        · rcases List.mem_append.1 h1 with h2 | h2
          · exact Or.inl h2
          · simp at h2
            exact Or.inr ⟨q, List.mem_cons_self _ _, d, nd, hld, hnd, h2⟩
        · exact Or.inr ⟨q', List.mem_cons_of_mem _ hq', rest⟩

theorem countP_key_one {l : List Nat} (hnd : l.Nodup) {r : Nat} (hr : r ∈ l) :
    l.countP (fun k => decide (k = r)) = 1 := by
  induction l with
  | nil => simp at hr
  | cons x l' ih =>
    obtain ⟨hx, hnd'⟩ := List.nodup_cons.1 hnd
    rw [List.countP_cons]
    rcases List.mem_cons.1 hr with rfl | hr'
    · rw [List.countP_eq_zero.2 fun k hk => by simp; exact fun he => hx (he ▸ hk)]
      simp
    · rw [ih hnd' hr']
      have : x ≠ r := fun he => hx (he ▸ hr')
      simp [this]

/-- C4. For every analysis whose subtree sizes come from
`dominator_subtree_sizes` over a well-founded dominator map binding
exactly the non-root nodes, and every threshold fraction `τ ≤ 1`,
`relevant_dominator_subgraph` succeeds and yields a graph whose nodes
are exactly the nodes of the dominated subgraph with subtree bytes at
least `⌊total_bytes · τ⌋` (all of them at `τ = 0`), whose edge count is
its node count minus one, and whose every edge runs from a retained
node's immediate dominator (always itself retained, by monotonicity of
subtree sizes up the chain) to that node. -/
theorem c4_relevant_subgraph_tree (a : Analysis) (τ : ℚ)
    (hsz : a.subtree_sizes = dominator_subtree_sizes a.dominated_subgraph a.dominators)
    (hwf : DomWF a.dominators)
    (hkeys : ∀ i, (alLookup i a.dominators).isSome
      ↔ (i ∈ a.dominated_subgraph.indicesList ∧ i ≠ a.root))
    (hvals : ∀ p ∈ a.dominators, p.2 ∈ a.dominated_subgraph.indicesList)
    (hroot : a.root ∈ a.dominated_subgraph.indicesList)
    (hτ1 : τ ≤ 1) :
    ∃ out, a.relevant_dominator_subgraph τ = some out
      ∧ out.nodes.map Object.address
          = (a.subtree_sizes.filter fun p =>
              decide ((⌊(a.dominated_totals.bytes : ℚ) * τ⌋).toNat ≤ p.2.bytes)).map
              (fun p => a.dominated_subgraph.addrAt p.1)
      ∧ (τ = 0 → out.nodes.map Object.address
          = a.dominated_subgraph.indicesList.map a.dominated_subgraph.addrAt)
      ∧ out.edges.length + 1 = out.nodes.length
      ∧ ∀ e ∈ out.edges, ∃ c dd, alLookup c a.dominators = some dd
          ∧ (out.nodes.getD e.2 dummyObject).address = a.dominated_subgraph.addrAt c
          ∧ (out.nodes.getD e.1 dummyObject).address = a.dominated_subgraph.addrAt dd := by
  obtain ⟨rank, hrank⟩ := hwf
  have hks : a.subtree_sizes.map Prod.fst = a.dominated_subgraph.indicesList := by
    rw [hsz]
    exact subtree_sizes_keys _ _
  have hknd : (a.subtree_sizes.map Prod.fst).Nodup := by
    rw [hks]
    exact List.nodup_range _
  -- abbreviations mirroring the definition's lets
  set T := (⌊(a.dominated_totals.bytes : ℚ) * τ⌋).toNat with hT
  set retained := a.subtree_sizes.filter fun p => decide (T ≤ p.2.bytes) with hR
  set M := retained.enum.map fun ne => (ne.2.1, ne.1) with hMdef
  set nodes := retained.map
    fun p => (a.dominated_subgraph.objAt p.1).with_dominator_stats p.2 with hN
  have hrnd : (retained.map Prod.fst).Nodup :=
    ((List.filter_sublist _).map Prod.fst).nodup hknd
  -- the root's entry and its retention
  obtain ⟨tot, htot⟩ : ∃ tot, alLookup a.root a.subtree_sizes = some tot := by
    have : a.root ∈ a.subtree_sizes.map Prod.fst := by rw [hks]; exact hroot
    obtain ⟨v, hv⟩ := Option.isSome_iff_exists.1 (alLookup_isSome.2 this)
    exact ⟨v, hv⟩
  have htotd : a.dominated_totals = tot := by
    show (alLookup a.root a.subtree_sizes).getD Stats.zero = tot
    rw [htot]
    rfl
  have hrootret : (a.root, tot) ∈ retained := by
    rw [hR]
    refine List.mem_filter.2 ⟨alLookup_mem htot, ?_⟩
    simp only [decide_eq_true_eq, hT, htotd]
    exact floor_mul_le_total tot.bytes τ hτ1
  -- decomposing membership in the old-to-new map
  have hMdecomp : ∀ x ∈ M, x.2 < retained.length
      ∧ (retained.getD x.2 (0, Stats.zero)).1 = x.1 := by
    intro x hx
    rw [hMdef] at hx
    obtain ⟨ne, hne, hfe⟩ := List.mem_map.1 hx
    obtain ⟨hlt, hval⟩ := List.mem_enum hne
    rw [← hfe]
    refine ⟨hlt, ?_⟩
    rw [List.getD_eq_getElem?_getD, List.getElem?_eq_getElem hlt, ← hval]
    rfl
  have hMkeys : M.map Prod.fst = retained.map Prod.fst := by
    rw [hMdef, List.map_map]
    have : (Prod.fst ∘ fun ne : Nat × (Nat × Stats) => (ne.2.1, ne.1))
        = Prod.fst ∘ Prod.snd := rfl
    rw [this, ← List.map_map, List.enum_map_snd]
  -- a retained key's dominator is retained
  have hok : ∀ q ∈ M, ∀ d, alLookup q.1 a.dominators = some d →
      (alLookup d M).isSome := by
    intro q hq d hd
    obtain ⟨hlt, hkey⟩ := hMdecomp q hq
    have hqret : retained.getD q.2 (0, Stats.zero) ∈ retained := getD_mem hlt _
    have hqsz : retained.getD q.2 (0, Stats.zero) ∈ a.subtree_sizes ∧
        T ≤ (retained.getD q.2 (0, Stats.zero)).2.bytes := by
      have := List.mem_filter.1 (hR ▸ hqret)
      exact ⟨this.1, by simpa using this.2⟩
    have hq1mem : q.1 ∈ a.dominated_subgraph.indicesList := by
      rw [← hks, ← hkey]
      exact List.mem_map_of_mem Prod.fst hqsz.1
    have hdmem : d ∈ a.dominated_subgraph.indicesList := hvals (q.1, d) (alLookup_mem hd)
    have hlook : alLookup q.1 a.subtree_sizes
        = some (retained.getD q.2 (0, Stats.zero)).2 := by
      rw [← hkey]
      exact alLookup_of_mem_nodup (by rw [hkey, ← hkey]; exact hqsz.1) hknd
    have hmono := subtree_bytes_mono (g := a.dominated_subgraph) hrank hd hq1mem hdmem
    rw [← hsz] at hmono
    obtain ⟨sd, hsd⟩ : ∃ sd, alLookup d a.subtree_sizes = some sd := by
      have : d ∈ a.subtree_sizes.map Prod.fst := by rw [hks]; exact hdmem
      obtain ⟨v, hv⟩ := Option.isSome_iff_exists.1 (alLookup_isSome.2 this)
      exact ⟨v, hv⟩
    have hTd : T ≤ sd.bytes := by
      rw [hlook, hsd] at hmono
      simp only [Option.getD_some] at hmono
      exact le_trans hqsz.2 hmono
    have hdret : (d, sd) ∈ retained := by
      rw [hR]
      exact List.mem_filter.2 ⟨alLookup_mem hsd, by simpa using hTd⟩
    apply alLookup_isSome.2
    rw [hMkeys]
    exact List.mem_map_of_mem Prod.fst hdret
  obtain ⟨E, hE, hlen, hmem⟩ := buildEdges_general a.dominators M M [] hok
  have hout : a.relevant_dominator_subgraph τ = some (RefGraph.mk nodes E) := by
    show (M.foldlM
        (fun (acc : List (Nat × Nat)) (q : Nat × Nat) =>
          match alLookup q.1 a.dominators with
          | some d => (alLookup d M).map fun nd => acc ++ [(nd, q.2)]
          | none => some acc) ([] : List (Nat × Nat))).map (fun edges => RefGraph.mk nodes edges)
      = some (RefGraph.mk nodes E)
    rw [hE]
    rfl
  have haddrmap : nodes.map Object.address
      = retained.map fun p => a.dominated_subgraph.addrAt p.1 := by
    rw [hN, List.map_map]
    exact List.map_congr_left fun p _ => rfl
  refine ⟨RefGraph.mk nodes E, hout, ?_, ?_, ?_, ?_⟩
  · exact haddrmap
  · intro hτ0
    have hT0 : T = 0 := by
      rw [hT, hτ0]
      simp
    have hRall : retained = a.subtree_sizes := by
      rw [hR]
      exact List.filter_eq_self.2 fun p _ => by simp [hT0]
    show nodes.map Object.address = _
    rw [haddrmap, hRall, ← hks, List.map_map]
    rfl
  · -- edge count: one edge per non-root retained entry
    show E.length + 1 = nodes.length
    have hnl : nodes.length = retained.length := by
      rw [hN, List.length_map]
    have hcnt : (M.countP fun q => (alLookup q.1 a.dominators).isSome)
        = retained.countP fun p => (alLookup p.1 a.dominators).isSome := by
      rw [hMdef, List.countP_map]
      have h1 : ((fun q : Nat × Nat => (alLookup q.1 a.dominators).isSome)
          ∘ fun ne : Nat × (Nat × Stats) => (ne.2.1, ne.1))
          = ((fun p : Nat × Stats => (alLookup p.1 a.dominators).isSome) ∘ Prod.snd) := rfl
      rw [h1, ← List.countP_map, List.enum_map_snd]
    have hsplit : retained.length
        = retained.countP (fun p : Nat × Stats => (alLookup p.1 a.dominators).isSome)
          + retained.countP (fun p : Nat × Stats => ¬ (alLookup p.1 a.dominators).isSome = true) :=
      List.length_eq_countP_add_countP _ _
    have hnot : (retained.countP fun p : Nat × Stats =>
        ¬ (alLookup p.1 a.dominators).isSome = true) = 1 := by
      have hcongr : (retained.countP fun p : Nat × Stats =>
          ¬ (alLookup p.1 a.dominators).isSome = true)
          = retained.countP fun p => decide (p.1 = a.root) := by
        apply List.countP_congr
        intro p hp
        have hpmem : p.1 ∈ a.dominated_subgraph.indicesList := by
          rw [← hks]
          exact List.mem_map_of_mem Prod.fst (List.mem_of_mem_filter (hR ▸ hp))
        simp only [decide_eq_true_eq]
        constructor
        · intro hno
          by_contra hne
          exact hno ((hkeys p.1).2 ⟨hpmem, hne⟩)
        · intro he hyes
          exact ((hkeys p.1).1 hyes).2 he
      rw [hcongr]
      have : (retained.countP fun p => decide (p.1 = a.root))
          = (retained.map Prod.fst).countP fun k => decide (k = a.root) := by
        rw [List.countP_map]
        rfl
      rw [this]
      exact countP_key_one hrnd (List.mem_map_of_mem Prod.fst hrootret)
    simp only [List.length_nil] at hlen
    rw [hlen, hcnt, hnl]
    omega
  · -- every edge runs from the immediate dominator to the node
    intro e he
    show ∃ c dd, _
    rcases hmem e he with h1 | ⟨q, hq, d, nd, hd, hndl, he2⟩
    · simp at h1
    · refine ⟨q.1, d, hd, ?_, ?_⟩
      · obtain ⟨hlt, hkey⟩ := hMdecomp q hq
        have hv : (nodes.getD q.2 dummyObject).address
            = a.dominated_subgraph.addrAt (retained.getD q.2 (0, Stats.zero)).1 := by
          rw [hN, List.getD_eq_getElem?_getD, List.getElem?_map,
            List.getElem?_eq_getElem hlt, List.getD_eq_getElem?_getD,
            List.getElem?_eq_getElem hlt]
          rfl
        rw [he2, ← hkey]
        exact hv
      · have hndM : (d, nd) ∈ M := alLookup_mem hndl
        obtain ⟨hlt, hkey⟩ := hMdecomp (d, nd) hndM
        have hlt' : nd < retained.length := hlt
        have hkey' : (retained.getD nd (0, Stats.zero)).1 = d := hkey
        have hv : (nodes.getD nd dummyObject).address
            = a.dominated_subgraph.addrAt (retained.getD nd (0, Stats.zero)).1 := by
          rw [hN, List.getD_eq_getElem?_getD, List.getElem?_map,
            List.getElem?_eq_getElem hlt', List.getD_eq_getElem?_getD,
            List.getElem?_eq_getElem hlt']
          rfl
        rw [he2, ← hkey']
        exact hv

theorem modifyNode_length (ns : List DomNode) (i : Nat) (f : DomNode → DomNode) :
    (modifyNode ns i f).length = ns.length :=
  List.length_set ns i _

theorem modifyNode_getD (ns : List DomNode) (i : Nat) (f : DomNode → DomNode) (v : Nat) :
    (modifyNode ns i f).getD v dnDefault
      = if i = v ∧ i < ns.length then f (ns.getD i dnDefault)
        else ns.getD v dnDefault := by
  show (ns.set i _).getD v dnDefault = _
  rw [List.getD_eq_getElem?_getD, List.getElem?_set]
  by_cases hiv : i = v
  · by_cases hlen : i < ns.length
    · simp only [hiv, hlen, if_true, and_true, if_pos]
      rw [List.getD_eq_getElem?_getD, ← hiv, List.getElem?_eq_getElem hlen]
      simp [if_pos hlen]
    · simp only [hiv, hlen, and_false, if_false, if_true, if_neg hlen]
      rw [List.getD_eq_getElem?_getD]
      have hnone : ns[v]? = none := by
        rw [List.getElem?_eq_none_iff]
        omega
      rw [hnone]
      have hl2 : ¬ v < ns.length := hiv ▸ hlen
      simp [hl2]
  · simp only [hiv, false_and, if_false, if_neg hiv]
    rw [List.getD_eq_getElem?_getD]

/-! ## Depth-first reachability (C3) -/

theorem succList_lt (g : RefGraph) (hedge : ∀ e ∈ g.edges, e.2 < g.nodes.length)
    {i s : Nat} (hs : s ∈ g.succList i) : s < g.nodes.length := by
  obtain ⟨e, he, hif⟩ := List.mem_filterMap.1 hs
  by_cases h1 : e.1 = i
  · rw [if_pos h1] at hif
    cases hif
    exact hedge e he
  · rw [if_neg h1] at hif
    cases hif

theorem succList_length_le (g : RefGraph) (i : Nat) :
    (g.succList i).length ≤ g.edges.length :=
  List.length_filterMap_le _ _

theorem dfsAux_sound (g : RefGraph) (root : Nat) :
    ∀ (fuel : Nat) (stack visited : List Nat),
      (∀ v ∈ stack, ReachesG g root v) → (∀ v ∈ visited, ReachesG g root v) →
      ∀ v ∈ dfsAux g fuel stack visited, ReachesG g root v := by
  intro fuel
  induction fuel with
  | zero =>
    intro stack visited _ hv v hmem
    exact hv v hmem
  | succ n ih =>
    intro stack visited hs hv v hmem
    cases stack with
    | nil => exact hv v hmem
    | cons i rest =>
      rw [dfsAux] at hmem
      by_cases hvis : visited.contains i = true
      · rw [if_pos hvis] at hmem
        exact ih rest visited (fun w hw => hs w (List.mem_cons_of_mem _ hw)) hv v hmem
      · rw [if_neg hvis] at hmem
        refine ih _ _ ?_ ?_ v hmem
        · intro w hw
          rcases List.mem_append.1 hw with hw' | hw'
          · exact Relation.ReflTransGen.tail (hs i (List.mem_cons_self _ _)) hw'
          · exact hs w (List.mem_cons_of_mem _ hw')
        · intro w hw
          rcases List.mem_append.1 hw with hw' | hw'
          · exact hv w hw'
          · simp at hw'
            rw [hw']
            exact hs i (List.mem_cons_self _ _)

theorem dfsAux_closed (g : RefGraph)
    (hedge : ∀ e ∈ g.edges, e.2 < g.nodes.length) :
    ∀ (fuel : Nat) (stack visited : List Nat),
      stack.length + (g.nodes.length - visited.length) * (g.edges.length + 2) < fuel →
      visited.Nodup →
      (∀ v ∈ visited, v < g.nodes.length) →
      (∀ v ∈ stack, v < g.nodes.length) →
      (∀ v ∈ visited, ∀ s ∈ g.succList v, s ∈ visited ∨ s ∈ stack) →
      (∀ v ∈ stack, v ∈ dfsAux g fuel stack visited)
      ∧ (∀ v ∈ visited, v ∈ dfsAux g fuel stack visited)
      ∧ (∀ v ∈ dfsAux g fuel stack visited, ∀ s ∈ g.succList v,
          s ∈ dfsAux g fuel stack visited)
      ∧ (dfsAux g fuel stack visited).Nodup
      ∧ (∀ v ∈ dfsAux g fuel stack visited, v < g.nodes.length) := by
  intro fuel
  induction fuel with
  | zero =>
    intro stack visited hf
    omega
  | succ n ih =>
    intro stack visited hf hnd hvr hsr hJ
    cases stack with
    | nil =>
      refine ⟨fun v hv => absurd hv (List.not_mem_nil v), fun v hv => hv, ?_, hnd, hvr⟩
      intro v hv s hs
      rcases hJ v hv s hs with h | h
      · exact h
      · exact absurd h (List.not_mem_nil s)
    | cons i rest =>
      rw [dfsAux]
      by_cases hvis : visited.contains i = true
      · rw [if_pos hvis]
        have himem : i ∈ visited := List.mem_of_elem_eq_true hvis
        have hf' : rest.length + (g.nodes.length - visited.length) * (g.edges.length + 2) < n := by
          simp only [List.length_cons] at hf
          omega
        obtain ⟨c1, c2, c3, c4, c5⟩ := ih rest visited hf' hnd hvr
          (fun v hv => hsr v (List.mem_cons_of_mem _ hv))
          (by
            intro v hv s hs
            rcases hJ v hv s hs with h | h
            · exact Or.inl h
            · rcases List.mem_cons.1 h with rfl | h'
              · exact Or.inl himem
              · exact Or.inr h')
        refine ⟨?_, c2, c3, c4, c5⟩
        intro v hv
        rcases List.mem_cons.1 hv with rfl | hv'
        · exact c2 v himem
        · exact c1 v hv'
      · rw [if_neg hvis]
        have hinotin : i ∉ visited := fun h => hvis (List.elem_eq_true_of_mem h)
        have hiin : i < g.nodes.length := hsr i (List.mem_cons_self _ _)
        have hvlt : visited.length < g.nodes.length := by
          have hsub : (i :: visited) ⊆ List.range g.nodes.length := by
            intro x hx
            rcases List.mem_cons.1 hx with rfl | hx'
            · exact List.mem_range.2 hiin
            · exact List.mem_range.2 (hvr x hx')
          have hnd2 : (i :: visited).Nodup := List.nodup_cons.2 ⟨hinotin, hnd⟩
          have := (hnd2.subperm hsub).length_le
          simp at this
          omega
        have hf' : (g.succList i ++ rest).length
            + (g.nodes.length - (visited ++ [i]).length) * (g.edges.length + 2) < n := by
          have hsl := succList_length_le g i
          have hexp : (g.nodes.length - visited.length) * (g.edges.length + 2)
              = (g.nodes.length - (visited.length + 1)) * (g.edges.length + 2)
                + (g.edges.length + 2) := by
            have hnv : g.nodes.length - visited.length
                = (g.nodes.length - (visited.length + 1)) + 1 := by omega
            rw [hnv, Nat.add_mul, Nat.one_mul]
          simp only [List.length_append, List.length_cons, List.length_nil,
            Nat.zero_add] at hf ⊢
          omega
        obtain ⟨c1, c2, c3, c4, c5⟩ := ih (g.succList i ++ rest) (visited ++ [i]) hf'
          (by
            rw [List.nodup_append]
            exact ⟨hnd, List.nodup_singleton i, by
              intro x hx hx'
              simp at hx'
              rw [hx'] at hx
              exact hinotin hx⟩)
          (by
            intro v hv
            rcases List.mem_append.1 hv with h | h
            · exact hvr v h
            · simp at h
              rw [h]
              exact hiin)
          (by
            intro v hv
            rcases List.mem_append.1 hv with h | h
            · exact succList_lt g hedge h
            · exact hsr v (List.mem_cons_of_mem _ h))
          (by
            intro v hv s hs
            rcases List.mem_append.1 hv with h | h
            · rcases hJ v h s hs with h' | h'
              · exact Or.inl (List.mem_append.2 (Or.inl h'))
              · rcases List.mem_cons.1 h' with rfl | h''
                · exact Or.inl (List.mem_append.2 (Or.inr (List.mem_cons_self _ _)))
                · exact Or.inr (List.mem_append.2 (Or.inr h''))
            · simp at h
              rw [h] at hs
              exact Or.inr (List.mem_append.2 (Or.inl hs)))
        refine ⟨?_, ?_, c3, c4, c5⟩
        · intro v hv
          rcases List.mem_cons.1 hv with rfl | hv'
          · exact c2 v (List.mem_append.2 (Or.inr (List.mem_cons_self _ _)))
          · exact c1 v (List.mem_append.2 (Or.inr hv'))
        · intro v hv
          exact c2 v (List.mem_append.2 (Or.inl hv))

theorem find_reachable_iff (g : RefGraph) (root : Nat)
    (hroot : root < g.nodes.length)
    (hedge : ∀ e ∈ g.edges, e.2 < g.nodes.length) :
    (∀ j, j ∈ find_reachable_indices root g ↔ ReachesG g root j)
    ∧ (find_reachable_indices root g).Nodup
    ∧ (∀ j ∈ find_reachable_indices root g, j < g.nodes.length) := by
  have hΦ : ([root] : List Nat).length
      + (g.nodes.length - ([] : List Nat).length) * (g.edges.length + 2) < dfsFuel g := by
    simp only [List.length_cons, List.length_nil, Nat.sub_zero, dfsFuel]
    have hexp : (g.nodes.length + 1) * (g.edges.length + 2)
        = g.nodes.length * (g.edges.length + 2) + (g.edges.length + 2) := by ring
    omega
  obtain ⟨c1, c2, c3, c4, c5⟩ := dfsAux_closed g hedge (dfsFuel g) [root] []
    hΦ List.nodup_nil (by intro v hv; simp at hv)
    (by
      intro v hv
      simp at hv
      rw [hv]
      exact hroot)
    (by intro v hv; simp at hv)
  refine ⟨fun j => ⟨?_, ?_⟩, c4, c5⟩
  · intro hj
    refine dfsAux_sound g root (dfsFuel g) [root] [] ?_ (by intro v hv; simp at hv) j hj
    intro v hv
    simp at hv
    rw [hv]
    exact Relation.ReflTransGen.refl
  · intro hr
    induction hr with
    | refl => exact c1 root (List.mem_cons_self _ _)
    | tail h1 h2 ih2 => exact c3 _ ih2 _ h2

/-! ## The filtered-edges walk (C6) -/

theorem alLookup_alInsert_isSome {κ α : Type} [DecidableEq κ] (a k : κ) (v : α)
    (m : List (κ × α)) :
    (alLookup a (alInsert k v m)).isSome ↔ a = k ∨ (alLookup a m).isSome := by
  by_cases h : a = k
  · subst h
    simp [alLookup_alInsert_self]
  · rw [alLookup_alInsert_ne h]
    simp [h]

theorem commitFold_isSome (g : RefGraph) (a : Nat) :
    ∀ (L : List Nat) (m : List (Nat × Nat)) (prev : Nat),
      (alLookup a (L.foldl
        (fun acc c => (alInsert (g.addrAt c) (g.addrAt acc.2) acc.1, c)) (m, prev)).1).isSome
      ↔ (alLookup a m).isSome ∨ ∃ d ∈ L, a = g.addrAt d := by
  intro L
  induction L with
  | nil =>
    intro m prev
    simp
  | cons c L' ih =>
    intro m prev
    rw [List.foldl_cons, ih (alInsert (g.addrAt c) (g.addrAt prev) m) c,
      alLookup_alInsert_isSome]
    constructor
    · rintro ((h | h) | ⟨d, hd, ha⟩)
      · exact Or.inr ⟨c, List.mem_cons_self _ _, h⟩
      · exact Or.inl h
      · exact Or.inr ⟨d, List.mem_cons_of_mem _ hd, ha⟩
    · rintro (h | ⟨d, hd, ha⟩)
      · exact Or.inl (Or.inr h)
      · rcases List.mem_cons.1 hd with rfl | hd'
        · exact Or.inl (Or.inl ha)
        · exact Or.inr ⟨d, hd', ha⟩

theorem commitPath_isSome (g : RefGraph) (child parent : Nat) (descendents : List Nat)
    (r : List (Nat × Nat)) (a : Nat) :
    (alLookup a (commitPath g child parent descendents r)).isSome
      ↔ (alLookup a r).isSome ∨ a = g.addrAt child ∨ ∃ d ∈ descendents, a = g.addrAt d := by
  simp only [commitPath]
  rw [commitFold_isSome, alLookup_alInsert_isSome]
  constructor
  · rintro ((h | h) | ⟨d, hd, ha⟩)
    · exact Or.inr (Or.inl h)
    · exact Or.inl h
    · exact Or.inr (Or.inr ⟨d, List.mem_reverse.1 hd, ha⟩)
  · rintro (h | h | ⟨d, hd, ha⟩)
    · exact Or.inl (Or.inr h)
    · exact Or.inl (Or.inl h)
    · exact Or.inr ⟨d, List.mem_reverse.2 hd, ha⟩

theorem faWalk_dead (g : RefGraph) (root : Nat) (doms : List (Nat × Nat))
    (rank : Nat → Nat) (hrank : ∀ p ∈ doms, rank p.2 < rank p.1)
    (hdky : ∀ p ∈ doms, p.1 ∈ g.indicesList ∧ p.2 ∈ g.indicesList)
    (hinj : ∀ u ∈ g.indicesList, ∀ v ∈ g.indicesList, g.addrAt u = g.addrAt v → u = v)
    (R : List Nat) :
    ∀ (fuel child parent : Nat) (desc : List Nat) (r : List (Nat × Nat)),
      FAInv g root doms r → parent ∈ g.indicesList → root ∉ chain doms parent →
      parent ≠ root → faWalk root R doms g fuel child parent desc r = r := by
  intro fuel
  induction fuel with
  | zero =>
    intro child parent desc r _ _ _ _
    rfl
  | succ n ih =>
    intro child parent desc r hI hpin hnc hnr
    rw [faWalk]
    by_cases hcR : R.contains parent = true
    · rw [if_neg (not_not_intro hcR)]
      have hne : ¬(parent = root ∨ (alLookup (g.addrAt parent) r).isSome = true) := by
        rintro (h | h)
        · exact hnr h
        · obtain ⟨u, hu, hcu, hau⟩ := hI _ h
          exact hnc (hinj u hu parent hpin hau.symm ▸ hcu)
      rw [if_neg hne]
      cases hl : alLookup parent doms with
      | none => simp only [hl]
      | some gp =>
        simp only [hl]
        have hgpin : gp ∈ g.indicesList := (hdky (parent, gp) (alLookup_mem hl)).2
        have hnc' : root ∉ chain doms gp := by
          intro h
          apply hnc
          rw [chain_unfold hrank, hl]
          exact List.mem_cons_of_mem _ h
        have hnr' : gp ≠ root := by
          intro h
          apply hnc
          rw [chain_unfold hrank, hl, ← h]
          exact List.mem_cons_self _ _
        exact ih parent gp (desc ++ [child]) r hI hgpin hnc' hnr'
    · rw [if_pos hcR]

theorem faWalk_opt_eq (g : RefGraph) (root : Nat) (doms : List (Nat × Nat))
    (rank : Nat → Nat) (hrank : ∀ p ∈ doms, rank p.2 < rank p.1)
    (hdky : ∀ p ∈ doms, p.1 ∈ g.indicesList ∧ p.2 ∈ g.indicesList)
    (hinj : ∀ u ∈ g.indicesList, ∀ v ∈ g.indicesList, g.addrAt u = g.addrAt v → u = v)
    (R : List Nat) (hRroot : root ∈ R) (hRchain : ∀ u, root ∈ chain doms u → u ∈ R) :
    ∀ (fuel child parent : Nat) (desc : List Nat) (r : List (Nat × Nat)),
      FAInv g root doms r → parent ∈ g.indicesList →
      faWalk root R doms g fuel child parent desc r
        = faWalk root g.indicesList doms g fuel child parent desc r := by
  intro fuel
  induction fuel with
  | zero =>
    intro child parent desc r _ _
    rfl
  | succ n ih =>
    intro child parent desc r hI hpin
    by_cases hcR : R.contains parent = true
    · have hcI : g.indicesList.contains parent = true := List.elem_eq_true_of_mem hpin
      rw [faWalk, faWalk, if_neg (not_not_intro hcR), if_neg (not_not_intro hcI)]
      by_cases hcommit : parent = root ∨ (alLookup (g.addrAt parent) r).isSome = true
      · rw [if_pos hcommit, if_pos hcommit]
      · rw [if_neg hcommit, if_neg hcommit]
        cases hl : alLookup parent doms with
        | none => simp only [hl]
        | some gp =>
          simp only [hl]
          exact ih parent gp (desc ++ [child]) r hI ((hdky (parent, gp) (alLookup_mem hl)).2)
    · have hnr : parent ≠ root := by
        intro h
        exact hcR (List.elem_eq_true_of_mem (h ▸ hRroot))
      have hnc : root ∉ chain doms parent := by
        intro h
        exact hcR (List.elem_eq_true_of_mem (hRchain parent h))
      have hL : faWalk root R doms g (n + 1) child parent desc r = r := by
        rw [faWalk, if_pos hcR]
      rw [hL, faWalk_dead g root doms rank hrank hdky hinj g.indicesList (n + 1)
        child parent desc r hI hpin hnc hnr]

theorem faWalk_preserves (g : RefGraph) (root : Nat) (doms : List (Nat × Nat))
    (rank : Nat → Nat) (hrank : ∀ p ∈ doms, rank p.2 < rank p.1)
    (hdky : ∀ p ∈ doms, p.1 ∈ g.indicesList ∧ p.2 ∈ g.indicesList)
    (hinj : ∀ u ∈ g.indicesList, ∀ v ∈ g.indicesList, g.addrAt u = g.addrAt v → u = v)
    (R : List Nat) :
    ∀ (fuel child parent : Nat) (desc : List Nat) (r : List (Nat × Nat)),
      FAInv g root doms r →
      alLookup child doms = some parent →
      (∀ d ∈ desc, child ∈ chain doms d) →
      FAInv g root doms (faWalk root R doms g fuel child parent desc r) := by
  intro fuel
  induction fuel with
  | zero =>
    intro child parent desc r hI _ _
    exact hI
  | succ n ih =>
    intro child parent desc r hI hcp hdesc
    rw [faWalk]
    by_cases hcR : R.contains parent = true
    · rw [if_neg (not_not_intro hcR)]
      have hchild_in : child ∈ g.indicesList := (hdky (child, parent) (alLookup_mem hcp)).1
      have hpin : parent ∈ g.indicesList := (hdky (child, parent) (alLookup_mem hcp)).2
      have hdesc_in : ∀ d ∈ desc, d ∈ g.indicesList := by
        intro d hd
        have hch := hdesc d hd
        rw [chain_unfold hrank] at hch
        cases hl : alLookup d doms with
        | none =>
          rw [hl] at hch
          simp at hch
        | some x => exact (hdky (d, x) (alLookup_mem hl)).1
      by_cases hcommit : parent = root ∨ (alLookup (g.addrAt parent) r).isSome = true
      · rw [if_pos hcommit]
        have hrc : root ∈ chain doms child := by
          rcases hcommit with h | h
          · rw [chain_unfold hrank, hcp, ← h]
            exact List.mem_cons_self _ _
          · obtain ⟨u, hu, hcu, hau⟩ := hI _ h
            rw [chain_unfold hrank, hcp]
            exact List.mem_cons_of_mem _ (hinj u hu parent hpin hau.symm ▸ hcu)
        intro a ha
        rw [commitPath_isSome] at ha
        rcases ha with h | h | ⟨d, hd, ha⟩
        · exact hI a h
        · exact ⟨child, hchild_in, hrc, h⟩
        · exact ⟨d, hdesc_in d hd, chain_subset_of_mem hrank d child (hdesc d hd) hrc, ha⟩
      · rw [if_neg hcommit]
        cases hl : alLookup parent doms with
        | none =>
          simp only [hl]
          exact hI
        | some gp =>
          simp only [hl]
          refine ih parent gp (desc ++ [child]) r hI hl ?_
          intro d hd
          rcases List.mem_append.1 hd with hd' | hd'
          · exact chain_subset_of_mem hrank d child (hdesc d hd') (head_mem_chain hrank hcp)
          · simp at hd'
            rw [hd']
            exact head_mem_chain hrank hcp
    · rw [if_pos hcR]
      exact hI

theorem faWalk_mono (g : RefGraph) (root : Nat) (doms : List (Nat × Nat)) (R : List Nat) :
    ∀ (fuel child parent : Nat) (desc : List Nat) (r : List (Nat × Nat)) (a : Nat),
      (alLookup a r).isSome →
      (alLookup a (faWalk root R doms g fuel child parent desc r)).isSome := by
  intro fuel
  induction fuel with
  | zero =>
    intro _ _ _ _ _ h
    exact h
  | succ n ih =>
    intro child parent desc r a h
    rw [faWalk]
    by_cases hcR : R.contains parent = true
    · rw [if_neg (not_not_intro hcR)]
      by_cases hcommit : parent = root ∨ (alLookup (g.addrAt parent) r).isSome = true
      · rw [if_pos hcommit, commitPath_isSome]
        exact Or.inl h
      · rw [if_neg hcommit]
        cases hl : alLookup parent doms with
        | none =>
          simp only [hl]
          exact h
        | some gp =>
          simp only [hl]
          exact ih parent gp (desc ++ [child]) r a h
    · rw [if_pos hcR]
      exact h

theorem chainAux_length_le (doms : List (Nat × Nat)) :
    ∀ fuel i, (chainAux doms fuel i).length ≤ fuel := by
  intro fuel
  induction fuel with
  | zero =>
    intro i
    simp [chainAux]
  | succ n ih =>
    intro i
    rw [chainAux]
    cases hl : alLookup i doms with
    | none => simp
    | some d =>
      simp only [List.length_cons]
      exact Nat.succ_le_succ (ih d)

theorem faWalk_commits (g : RefGraph) (root : Nat) (doms : List (Nat × Nat))
    (rank : Nat → Nat) (hrank : ∀ p ∈ doms, rank p.2 < rank p.1)
    (R : List Nat) (hRroot : root ∈ R) (hRchain : ∀ u, root ∈ chain doms u → u ∈ R) :
    ∀ (fuel child parent : Nat) (desc : List Nat) (r : List (Nat × Nat)),
      alLookup child doms = some parent →
      root ∈ chain doms child →
      (chain doms child).length < fuel →
      ∀ d ∈ child :: desc,
        (alLookup (g.addrAt d) (faWalk root R doms g fuel child parent desc r)).isSome := by
  intro fuel
  induction fuel with
  | zero =>
    intro child parent desc r _ _ hf
    omega
  | succ n ih =>
    intro child parent desc r hcp hrc hf d hd
    rw [faWalk]
    have hpR : R.contains parent = true := by
      apply List.elem_eq_true_of_mem
      have hrc' := hrc
      rw [chain_unfold hrank, hcp] at hrc'
      rcases List.mem_cons.1 hrc' with h | h
      · rw [← h]
        exact hRroot
      · exact hRchain parent h
    rw [if_neg (not_not_intro hpR)]
    by_cases hcommit : parent = root ∨ (alLookup (g.addrAt parent) r).isSome = true
    · rw [if_pos hcommit, commitPath_isSome]
      rcases List.mem_cons.1 hd with rfl | hd'
      · exact Or.inr (Or.inl rfl)
      · exact Or.inr (Or.inr ⟨d, hd', rfl⟩)
    · rw [if_neg hcommit]
      have hnr : parent ≠ root := fun h => hcommit (Or.inl h)
      have hrc' := hrc
      rw [chain_unfold hrank, hcp] at hrc'
      rcases List.mem_cons.1 hrc' with h | hrp
      · exact absurd h.symm hnr
      · obtain ⟨gp, hl⟩ : ∃ gp, alLookup parent doms = some gp := by
          cases hl : alLookup parent doms with
          | none =>
            rw [chain_unfold hrank, hl] at hrp
            simp at hrp
          | some gp => exact ⟨gp, rfl⟩
        simp only [hl]
        have hlen : (chain doms parent).length < n := by
          have hcl : (chain doms child).length = (chain doms parent).length + 1 := by
            rw [chain_unfold hrank (i := child), hcp]
            simp
          omega
        refine ih parent gp (desc ++ [child]) r hl hrp hlen d ?_
        rcases List.mem_cons.1 hd with rfl | hd'
        · exact List.mem_cons_of_mem _ (List.mem_append.2 (Or.inr (List.mem_cons_self _ _)))
        · exact List.mem_cons_of_mem _ (List.mem_append.2 (Or.inl hd'))

theorem faFold_eq_and_inv (g : RefGraph) (root : Nat) (doms : List (Nat × Nat))
    (rank : Nat → Nat) (hrank : ∀ p ∈ doms, rank p.2 < rank p.1)
    (hnd : (doms.map Prod.fst).Nodup)
    (hdky : ∀ p ∈ doms, p.1 ∈ g.indicesList ∧ p.2 ∈ g.indicesList)
    (hinj : ∀ u ∈ g.indicesList, ∀ v ∈ g.indicesList, g.addrAt u = g.addrAt v → u = v)
    (R : List Nat) (hRroot : root ∈ R) (hRchain : ∀ u, root ∈ chain doms u → u ∈ R) :
    ∀ (l : List (Nat × Nat)) (r : List (Nat × Nat)),
      (∀ cp ∈ l, cp ∈ doms) → FAInv g root doms r →
      l.foldl (fun result cp =>
          faWalk root R doms g (doms.length + 2) cp.1 cp.2 [] result) r
        = l.foldl (fun result cp =>
            faWalk root g.indicesList doms g (doms.length + 2) cp.1 cp.2 [] result) r
      ∧ FAInv g root doms (l.foldl (fun result cp =>
          faWalk root R doms g (doms.length + 2) cp.1 cp.2 [] result) r) := by
  intro l
  induction l with
  | nil =>
    intro r _ hI
    exact ⟨rfl, hI⟩
  | cons cp l' ih =>
    intro r hl hI
    have hcpd : cp ∈ doms := hl cp (List.mem_cons_self _ _)
    have hcp : alLookup cp.1 doms = some cp.2 := alLookup_of_mem_nodup hcpd hnd
    have hpin : cp.2 ∈ g.indicesList := (hdky cp hcpd).2
    have hstep := faWalk_opt_eq g root doms rank hrank hdky hinj R hRroot hRchain
      (doms.length + 2) cp.1 cp.2 [] r hI hpin
    have hinv : FAInv g root doms
        (faWalk root R doms g (doms.length + 2) cp.1 cp.2 [] r) :=
      faWalk_preserves g root doms rank hrank hdky hinj R
        (doms.length + 2) cp.1 cp.2 [] r hI hcp (by intro d hd; simp at hd)
    obtain ⟨he, hi2⟩ := ih (faWalk root R doms g (doms.length + 2) cp.1 cp.2 [] r)
      (fun q hq => hl q (List.mem_cons_of_mem _ hq)) hinv
    rw [List.foldl_cons, List.foldl_cons]
    exact ⟨by rw [he, hstep], hi2⟩

theorem faFold_complete (g : RefGraph) (root : Nat) (doms : List (Nat × Nat))
    (rank : Nat → Nat) (hrank : ∀ p ∈ doms, rank p.2 < rank p.1)
    (R : List Nat) (hRroot : root ∈ R) (hRchain : ∀ u, root ∈ chain doms u → u ∈ R)
    (u v : Nat) (huv : alLookup u doms = some v) (hru : root ∈ chain doms u) :
    ∀ (l : List (Nat × Nat)) (r : List (Nat × Nat)), (u, v) ∈ l →
      (alLookup (g.addrAt u) (l.foldl (fun result cp =>
        faWalk root R doms g (doms.length + 2) cp.1 cp.2 [] result) r)).isSome := by
  have hmono : ∀ (l : List (Nat × Nat)) (r : List (Nat × Nat)) (a : Nat),
      (alLookup a r).isSome →
      (alLookup a (l.foldl (fun result cp =>
        faWalk root R doms g (doms.length + 2) cp.1 cp.2 [] result) r)).isSome := by
    intro l
    induction l with
    | nil =>
      intro r a h
      exact h
    | cons cp l' ih =>
      intro r a h
      rw [List.foldl_cons]
      exact ih _ a (faWalk_mono g root doms R (doms.length + 2) cp.1 cp.2 [] r a h)
  intro l
  induction l with
  | nil =>
    intro r h
    simp at h
  | cons cp l' ih =>
    intro r hmem
    rw [List.foldl_cons]
    rcases List.mem_cons.1 hmem with heq | hmem'
    · have hfu : (chain doms u).length < doms.length + 2 := by
        have := chainAux_length_le doms (doms.length + 1) u
        show (chainAux doms (doms.length + 1) u).length < doms.length + 2
        omega
      have hkey := faWalk_commits g root doms rank hrank R hRroot hRchain
        (doms.length + 2) u v [] r huv hru hfu u (List.mem_cons_self _ _)
      rw [← heq]
      exact hmono l' _ (g.addrAt u) hkey
    · exact ih _ hmem'

theorem chain_reaches (g : RefGraph) (doms : List (Nat × Nat)) (rank : Nat → Nat)
    (hrank : ∀ p ∈ doms, rank p.2 < rank p.1)
    (hdom : ∀ p ∈ doms, ReachesG g p.2 p.1) :
    ∀ u x, x ∈ chain doms u → ReachesG g x u := by
  suffices H : ∀ n u, cntBelow doms rank u ≤ n → ∀ x ∈ chain doms u, ReachesG g x u by
    exact fun u x hx => H _ u le_rfl x hx
  intro n
  induction n with
  | zero =>
    intro u hc x hx
    rw [chain_unfold hrank] at hx
    cases hl : alLookup u doms with
    | none =>
      rw [hl] at hx
      simp at hx
    | some d =>
      have := cntBelow_lt hrank hl
      omega
  | succ n ih =>
    intro u hc x hx
    rw [chain_unfold hrank] at hx
    cases hl : alLookup u doms with
    | none =>
      rw [hl] at hx
      simp at hx
    | some d =>
      rw [hl] at hx
      have hcd := cntBelow_lt hrank hl
      have hdu : ReachesG g d u := hdom (u, d) (alLookup_mem hl)
      rcases List.mem_cons.1 hx with rfl | hx'
      · exact hdu
      · exact Relation.ReflTransGen.trans (ih d (by omega) x hx') hdu

theorem faKeys_char (g : RefGraph) (root : Nat) (doms : List (Nat × Nat)) (R : List Nat)
    (rank : Nat → Nat) (hrank : ∀ p ∈ doms, rank p.2 < rank p.1)
    (hnd : (doms.map Prod.fst).Nodup)
    (hdky : ∀ p ∈ doms, p.1 ∈ g.indicesList ∧ p.2 ∈ g.indicesList)
    (hinj : ∀ u ∈ g.indicesList, ∀ v ∈ g.indicesList, g.addrAt u = g.addrAt v → u = v)
    (hRroot : root ∈ R) (hRchain : ∀ u, root ∈ chain doms u → u ∈ R) :
    ∀ a, (alLookup a (find_addrs_of_filtered_edges root R doms g)).isSome
        ↔ ∃ u, u ∈ g.indicesList ∧ root ∈ chain doms u ∧ a = g.addrAt u := by
  have hI0 : FAInv g root doms [] := by
    intro a h
    simp [alLookup] at h
  have hfold := faFold_eq_and_inv g root doms rank hrank hnd hdky hinj R
    hRroot hRchain doms [] (fun cp h => h) hI0
  intro a
  constructor
  · exact fun h => hfold.2 a h
  · rintro ⟨u, hu, hru, rfl⟩
    obtain ⟨v, huv⟩ : ∃ v, alLookup u doms = some v := by
      cases hl : alLookup u doms with
      | none =>
        rw [chain_unfold hrank, hl] at hru
        simp at hru
      | some v => exact ⟨v, rfl⟩
    exact faFold_complete g root doms rank hrank R hRroot hRchain u v huv hru
      doms [] (alLookup_mem huv)

theorem filter_union_perm {l : List Nat} {p q : Nat → Bool}
    (h : ∀ x ∈ l, p x = true → q x = true) :
    (l.filter p ++ l.filter fun x => !p x && q x).Perm (l.filter q) := by
  induction l with
  | nil => simp
  | cons a l' ih =>
    have ih' := ih fun x hx => h x (List.mem_cons_of_mem _ hx)
    by_cases hp : p a = true
    · have hq : q a = true := h a (List.mem_cons_self _ _) hp
      simp only [List.filter_cons, hp, hq, if_true, Bool.not_true, Bool.false_and,
        if_false, List.cons_append]
      exact ih'.cons a
    · simp only [List.filter_cons, hp, Bool.not_eq_true] at *
      by_cases hq : q a = true
      · simp only [hp, hq, if_false, if_true, Bool.not_false, Bool.true_and]
        exact List.perm_middle.trans (ih'.cons a)
      · simp only [hp, hq, if_false, Bool.not_false, Bool.true_and]
        exact ih'

theorem map_objAt_indicesList (g : RefGraph) :
    g.indicesList.map g.objAt = g.nodes := by
  apply List.ext_getElem
  · simp [RefGraph.indicesList]
  · intro i h1 h2
    simp only [RefGraph.indicesList, List.getElem_map, List.getElem_range]
    show g.nodes.getD i dummyObject = _
    rw [List.getD_eq_getElem?_getD, List.getElem?_eq_getElem h2]
    rfl

/-- C3 (amended). The DFS of `find_reachable_indices` computes exactly
the nodes reachable from the analyzed root. In both modes the
dominated subgraph and the rest list are disjoint by address. In
subtree mode their union is exactly the set of reachable nodes (by
address). In whole-graph mode, however, their union is the whole node
set of the graph — not the reachable set — because the rest list
collects the unreachable nodes: a node is classified reachable exactly
when it is the root or has an entry in the dominators map, so when
that map binds exactly the reachable non-root nodes the dominated
part alone carries the reachable set. -/
theorem c3_dominated_rest_partition (g : RefGraph) (root : Nat) (doms : List (Nat × Nat))
    (hroot : root < g.nodes.length)
    (hedge : ∀ e ∈ g.edges, e.2 < g.nodes.length)
    (hinj : ∀ u ∈ g.indicesList, ∀ v ∈ g.indicesList, g.addrAt u = g.addrAt v → u = v)
    (hwf : DomWF doms)
    (hnd : (doms.map Prod.fst).Nodup)
    (hdky : ∀ p ∈ doms, p.1 ∈ g.indicesList ∧ p.2 ∈ g.indicesList)
    (hdom : ∀ p ∈ doms, ReachesG g p.2 p.1) :
    (∀ j, j ∈ find_reachable_indices root g ↔ ReachesG g root j)
    ∧ (∀ rr sub rest dd, remove_unreachable root g doms = some (rr, sub, rest, dd) →
        (∀ o1 ∈ sub.nodes, ∀ o2 ∈ rest, o1.address ≠ o2.address)
        ∧ (sub.nodes ++ rest).Perm g.nodes
        ∧ sub.nodes = (g.indicesList.filter fun i =>
            i == root || (alLookup i doms).isSome).map g.objAt
        ∧ rest = (g.indicesList.filter fun i =>
            ¬ (i == root || (alLookup i doms).isSome)).map g.objAt
        ∧ ((∀ i, i < g.nodes.length →
              ((alLookup i doms).isSome ↔ (ReachesG g root i ∧ i ≠ root))) →
            (sub.nodes.map Object.address).Perm
              ((find_reachable_indices root g).map g.addrAt)))
    ∧ (∀ rr sub rest dd, extract_dominated_subgraph root g doms = some (rr, sub, rest, dd) →
        (∀ o1 ∈ sub.nodes, ∀ o2 ∈ rest, o1.address ≠ o2.address)
        ∧ ((sub.nodes ++ rest).map Object.address).Perm
            ((find_reachable_indices root g).map g.addrAt)) := by
  obtain ⟨rank, hrank⟩ := hwf
  obtain ⟨hiff, hndr, hrng⟩ := find_reachable_iff g root hroot hedge
  refine ⟨hiff, ?_, ?_⟩
  · -- whole-graph mode
    intro rr sub rest dd hout
    simp only [remove_unreachable] at hout
    obtain ⟨rd, hmi, hfr⟩ := Option.map_eq_some'.1 hout
    have hsub : sub = filterNodes g fun i => i == root || (alLookup i doms).isSome :=
      (congrArg (fun t => t.2.1) hfr).symm
    have hrest : rest = (g.indicesList.filter fun i =>
        ¬ (i == root || (alLookup i doms).isSome)).map g.objAt :=
      (congrArg (fun t => t.2.2.1) hfr).symm
    have hsubn : sub.nodes = (g.indicesList.filter fun i =>
        i == root || (alLookup i doms).isSome).map g.objAt := by
      rw [hsub]
      rfl
    refine ⟨?_, ?_, hsubn, hrest, ?_⟩
    · intro o1 h1 o2 h2
      rw [hsubn] at h1
      rw [hrest] at h2
      obtain ⟨i, hi, hio⟩ := List.mem_map.1 h1
      obtain ⟨j, hj, hjo⟩ := List.mem_map.1 h2
      intro heq
      have hieq : i = j := hinj i (List.mem_of_mem_filter hi) j (List.mem_of_mem_filter hj)
        (by rw [← hio] at heq; rw [← hjo] at heq; exact heq)
      have hki := (List.mem_filter.1 hi).2
      have hkj := (List.mem_filter.1 hj).2
      rw [hieq] at hki
      simp only [decide_eq_true_eq] at hkj
      exact hkj hki
    · rw [hsubn, hrest, ← List.map_append]
      have hpn : (g.indicesList.filter fun i =>
          ¬ (i == root || (alLookup i doms).isSome))
          = g.indicesList.filter fun i => !(i == root || (alLookup i doms).isSome) := by
        apply List.filter_congr
        intro i _
        by_cases h : (i == root || (alLookup i doms).isSome) = true <;> simp [h]
      rw [hpn]
      have hperm := List.filter_append_perm
        (fun i => i == root || (alLookup i doms).isSome) g.indicesList
      exact map_objAt_indicesList g ▸ hperm.map g.objAt
    · intro hsem
      rw [hsubn, List.map_map]
      have hcomp : (Object.address ∘ g.objAt) = g.addrAt := rfl
      rw [hcomp]
      refine List.Perm.map g.addrAt ?_
      apply (List.perm_ext_iff_of_nodup (List.Nodup.filter _ (List.nodup_range _)) hndr).2
      intro x
      constructor
      · intro hx
        obtain ⟨hxm, hxk⟩ := List.mem_filter.1 hx
        have hxlt : x < g.nodes.length := List.mem_range.1 hxm
        simp only [Bool.or_eq_true] at hxk
        rcases hxk with h | h
        · have hx0 : x = root := eq_of_beq h
          rw [hx0]
          exact (hiff root).2 Relation.ReflTransGen.refl
        · exact (hiff x).2 ((hsem x hxlt).1 h).1
      · intro hx
        have hxlt := hrng x hx
        have hreach := (hiff x).1 hx
        refine List.mem_filter.2 ⟨List.mem_range.2 hxlt, ?_⟩
        by_cases hxr : x = root
        · rw [hxr]
          simp
        · have := (hsem x hxlt).2 ⟨hreach, hxr⟩
          simp [this]
  · -- subtree mode
    intro rr sub rest dd hout
    simp only [extract_dominated_subgraph] at hout
    obtain ⟨rd, hmi, hfr⟩ := Option.map_eq_some'.1 hout
    have hRroot : root ∈ find_reachable_indices root g :=
      (hiff root).2 Relation.ReflTransGen.refl
    have hRchain : ∀ u, root ∈ chain doms u → u ∈ find_reachable_indices root g :=
      fun u hu => (hiff u).2 (chain_reaches g doms rank hrank hdom u root hu)
    have hchar := faKeys_char g root doms (find_reachable_indices root g)
      rank hrank hnd hdky hinj hRroot hRchain
    have hsub : sub = filterNodes g fun i => i == root ||
        (alLookup (g.addrAt i) (find_addrs_of_filtered_edges root
          (find_reachable_indices root g) doms g)).isSome :=
      (congrArg (fun t => t.2.1) hfr).symm
    have hrest : rest = (g.indicesList.filter fun i =>
        (¬ (i == root || (alLookup (g.addrAt i) (find_addrs_of_filtered_edges root
          (find_reachable_indices root g) doms g)).isSome))
        && (find_reachable_indices root g).contains i).map g.objAt :=
      (congrArg (fun t => t.2.2.1) hfr).symm
    have hsubn : sub.nodes = (g.indicesList.filter fun i => i == root ||
        (alLookup (g.addrAt i) (find_addrs_of_filtered_edges root
          (find_reachable_indices root g) doms g)).isSome).map g.objAt := by
      rw [hsub]
      rfl
    have hksub : ∀ i ∈ g.indicesList,
        (i == root || (alLookup (g.addrAt i) (find_addrs_of_filtered_edges root
          (find_reachable_indices root g) doms g)).isSome) = true →
        (find_reachable_indices root g).contains i = true := by
      intro i hi hk
      simp only [Bool.or_eq_true] at hk
      rcases hk with h | h
      · rw [eq_of_beq h]
        exact List.elem_eq_true_of_mem hRroot
      · obtain ⟨u, hu, hru, hau⟩ := (hchar _).1 h
        have hieq : i = u := hinj i hi u hu hau
        exact List.elem_eq_true_of_mem (hRchain i (hieq ▸ hru))
    refine ⟨?_, ?_⟩
    · intro o1 h1 o2 h2
      rw [hsubn] at h1
      rw [hrest] at h2
      obtain ⟨i, hi, hio⟩ := List.mem_map.1 h1
      obtain ⟨j, hj, hjo⟩ := List.mem_map.1 h2
      intro heq
      have hieq : i = j := hinj i (List.mem_of_mem_filter hi) j (List.mem_of_mem_filter hj)
        (by rw [← hio] at heq; rw [← hjo] at heq; exact heq)
      have hki := (List.mem_filter.1 hi).2
      have hkj := (List.mem_filter.1 hj).2
      simp only [Bool.and_eq_true] at hkj
      obtain ⟨hkj1, _⟩ := hkj
      simp only [decide_eq_true_eq] at hkj1
      rw [hieq] at hki
      exact hkj1 hki
    · rw [hsubn, hrest, ← List.map_append, List.map_map]
      have hcomp : (Object.address ∘ g.objAt) = g.addrAt := rfl
      rw [hcomp]
      refine List.Perm.map g.addrAt ?_
      have hpB : (g.indicesList.filter fun i =>
          (¬ (i == root || (alLookup (g.addrAt i) (find_addrs_of_filtered_edges root
            (find_reachable_indices root g) doms g)).isSome))
          && (find_reachable_indices root g).contains i)
          = g.indicesList.filter fun i =>
            (!(i == root || (alLookup (g.addrAt i) (find_addrs_of_filtered_edges root
              (find_reachable_indices root g) doms g)).isSome))
            && (find_reachable_indices root g).contains i := by
        apply List.filter_congr
        intro i _
        by_cases h : (i == root || (alLookup (g.addrAt i) (find_addrs_of_filtered_edges root
            (find_reachable_indices root g) doms g)).isSome) = true <;> simp [h]
      rw [hpB]
      refine (filter_union_perm hksub).trans ?_
      apply (List.perm_ext_iff_of_nodup (List.Nodup.filter _ (List.nodup_range _)) hndr).2
      intro x
      constructor
      · intro hx
        obtain ⟨_, hxc⟩ := List.mem_filter.1 hx
        exact List.mem_of_elem_eq_true hxc
      · intro hx
        refine List.mem_filter.2 ⟨List.mem_range.2 (hrng x hx), ?_⟩
        exact List.elem_eq_true_of_mem hx

/-- C6. The optimized restriction check equals the naive one: for any
graph whose node addresses are injective, any well-founded dominator
map with nodup keys binding in-range indices, and any reachable set
containing the chosen root and every node whose dominator chain passes
through it, `find_addrs_of_filtered_edges` returns the same map with
the short-circuiting reachable set as with the set of all node indices;
moreover its keys are exactly the addresses of the nodes whose
dominator chain passes through the chosen root. -/
theorem c6_restriction_check_equals_naive (g : RefGraph) (root : Nat)
    (doms : List (Nat × Nat)) (reachable : List Nat)
    (hwf : DomWF doms)
    (hnd : (doms.map Prod.fst).Nodup)
    (hdky : ∀ p ∈ doms, p.1 ∈ g.indicesList ∧ p.2 ∈ g.indicesList)
    (hinj : ∀ u ∈ g.indicesList, ∀ v ∈ g.indicesList, g.addrAt u = g.addrAt v → u = v)
    (hRroot : root ∈ reachable)
    (hRchain : ∀ u, root ∈ chain doms u → u ∈ reachable) :
    find_addrs_of_filtered_edges root reachable doms g
      = find_addrs_of_filtered_edges root g.indicesList doms g
    ∧ ∀ a, (alLookup a (find_addrs_of_filtered_edges root reachable doms g)).isSome
        ↔ ∃ u, u ∈ g.indicesList ∧ root ∈ chain doms u ∧ a = g.addrAt u := by
  obtain ⟨rank, hrank⟩ := hwf
  have hI0 : FAInv g root doms [] := by
    intro a h
    simp [alLookup] at h
  have hfold := faFold_eq_and_inv g root doms rank hrank hnd hdky hinj reachable
    hRroot hRchain doms [] (fun cp h => h) hI0
  exact ⟨hfold.1,
    faKeys_char g root doms reachable rank hrank hnd hdky hinj hRroot hRchain⟩

theorem c6_witness :
    (find_addrs_of_filtered_edges 1 [1, 2, 3] exampleDoms exampleGraph
      = find_addrs_of_filtered_edges 1 exampleGraph.indicesList exampleDoms exampleGraph)
    ∧ (alLookup 24 (find_addrs_of_filtered_edges 1 [1, 2, 3] exampleDoms exampleGraph)).isSome
      = true := by
  have h := c6_restriction_check_equals_naive exampleGraph 1 exampleDoms [1, 2, 3]
    ⟨id, by decide⟩ (by decide) (by decide) (by decide) (by decide)
    (by
      intro u hu
      have hk : u ∈ exampleDoms.map Prod.fst := by
        by_contra hnk
        have hnone : alLookup u exampleDoms = none := by
          cases hl : alLookup u exampleDoms with
          | none => rfl
          | some x => exact absurd (List.mem_map_of_mem Prod.fst (alLookup_mem hl)) hnk
        rw [@chain_unfold exampleDoms id (by decide) u, hnone] at hu
        simp at hu
      simp [exampleDoms] at hk
      rcases hk with rfl | rfl | rfl
      · exact absurd hu (by decide)
      · decide
      · decide)
  exact ⟨h.1, (h.2 24).2 ⟨2, by decide, by decide, by decide⟩⟩

theorem cpoSucc_char (node succ : Nat) (m : List DomNode) (st : List Nat)
    (out : List DomNode × List Nat) (h : cpoSucc node (m, st) succ = .ok out) :
    out.1.length = m.length
    ∧ succ < m.length
    ∧ (∀ v, idomAt out.1 v = idomAt m v)
    ∧ rpoAt out.1 succ ≠ 0
    ∧ (∀ v, (rpoAt out.1 v = rpoAt m v ∧ out.2.count v = st.count v)
        ∨ (rpoAt m v = 0 ∧ rpoAt out.1 v = SEEN ∧ v = succ ∧ v < m.length
            ∧ out.2.count v = st.count v + 1)) := by
  by_cases hlen : succ < m.length
  · rw [cpoSucc, if_pos hlen] at h
    by_cases hfresh : (m.getD succ dnDefault).rpo_number = 0
    · rw [if_pos hfresh] at h
      have hm : out.1 = modifyNode (modifyNode m succ
          fun d => { d with rpo_number := SEEN }) succ
          fun d => { d with predecessors := d.predecessors ++ [node] } := by
        injection h with h2
        rw [← h2]
      have hst : out.2 = succ :: st := by
        injection h with h2
        rw [← h2]
      have hm1 : ∀ v, rpoAt (modifyNode (modifyNode m succ
          fun d => { d with rpo_number := SEEN }) succ
          fun d => { d with predecessors := d.predecessors ++ [node] }) v
          = if succ = v then SEEN else rpoAt m v := by
        intro v
        show ((modifyNode _ succ _).getD v dnDefault).rpo_number = _
        rw [modifyNode_getD]
        by_cases hv : succ = v
        · rw [if_pos ⟨hv, by rw [modifyNode_length]; exact hlen⟩, if_pos hv]
          show ((modifyNode m succ _).getD succ dnDefault).rpo_number = SEEN
          rw [modifyNode_getD, if_pos ⟨rfl, hlen⟩]
        · rw [if_neg (fun hc => hv hc.1), if_neg hv]
          show ((modifyNode m succ _).getD v dnDefault).rpo_number = rpoAt m v
          rw [modifyNode_getD, if_neg (fun hc => hv hc.1)]
          rfl
      have hi1 : ∀ v, idomAt (modifyNode (modifyNode m succ
          fun d => { d with rpo_number := SEEN }) succ
          fun d => { d with predecessors := d.predecessors ++ [node] }) v
          = idomAt m v := by
        intro v
        show ((modifyNode _ succ _).getD v dnDefault).idom = _
        rw [modifyNode_getD]
        by_cases hv : succ = v
        · rw [if_pos ⟨hv, by rw [modifyNode_length]; exact hlen⟩]
          show ((modifyNode m succ _).getD succ dnDefault).idom = idomAt m v
          rw [modifyNode_getD, if_pos ⟨rfl, hlen⟩, ← hv]
          rfl
        · rw [if_neg (fun hc => hv hc.1)]
          show ((modifyNode m succ _).getD v dnDefault).idom = idomAt m v
          rw [modifyNode_getD, if_neg (fun hc => hv hc.1)]
          rfl
      refine ⟨by rw [hm, modifyNode_length, modifyNode_length], hlen,
        fun v => by rw [hm]; exact hi1 v, ?_, ?_⟩
      · rw [hm, hm1 succ, if_pos rfl]
        decide
      · intro v
        rw [hm, hst, hm1 v]
        by_cases hv : succ = v
        · rw [if_pos hv, ← hv]
          refine Or.inr ⟨hfresh, rfl, rfl, hlen, ?_⟩
          rw [List.count_cons]
          simp
        · rw [if_neg hv]
          refine Or.inl ⟨rfl, ?_⟩
          rw [List.count_cons]
          have hne : ¬(v = succ) := fun hc => hv hc.symm
          simp [hne, hv]
    · rw [if_neg hfresh] at h
      have hm : out.1 = modifyNode m succ
          fun d => { d with predecessors := d.predecessors ++ [node] } := by
        injection h with h2
        rw [← h2]
      have hst : out.2 = st := by
        injection h with h2
        rw [← h2]
      have hm1 : ∀ v, rpoAt (modifyNode m succ
          fun d => { d with predecessors := d.predecessors ++ [node] }) v = rpoAt m v := by
        intro v
        show ((modifyNode m succ _).getD v dnDefault).rpo_number = _
        rw [modifyNode_getD]
        by_cases hv : succ = v
        · rw [if_pos ⟨hv, hlen⟩, hv]
          rfl
        · have hne : ¬(succ = v ∧ succ < m.length) := fun hc => hv hc.1
          rw [if_neg hne]
          rfl
      have hi1 : ∀ v, idomAt (modifyNode m succ
          fun d => { d with predecessors := d.predecessors ++ [node] }) v
          = idomAt m v := by
        intro v
        show ((modifyNode m succ _).getD v dnDefault).idom = _
        rw [modifyNode_getD]
        by_cases hv : succ = v
        · rw [if_pos ⟨hv, hlen⟩, hv]
          rfl
        · have hne : ¬(succ = v ∧ succ < m.length) := fun hc => hv hc.1
          rw [if_neg hne]
          rfl
      exact ⟨by rw [hm, modifyNode_length], hlen, fun v => by rw [hm]; exact hi1 v,
        by rw [hm, hm1 succ]; exact hfresh,
        fun v => Or.inl ⟨by rw [hm, hm1 v], by rw [hst]⟩⟩
  · rw [cpoSucc, if_neg hlen] at h
    cases h

theorem cpoFold_char (node : Nat) :
    ∀ (L : List Nat) (m0 : List DomNode) (st0 : List Nat) (out : List DomNode × List Nat),
      L.foldlM (cpoSucc node) (m0, st0) = .ok out →
      out.1.length = m0.length
      ∧ (∀ v, idomAt out.1 v = idomAt m0 v)
      ∧ (∀ s ∈ L, rpoAt out.1 s ≠ 0)
      ∧ (∀ v, (rpoAt out.1 v = rpoAt m0 v ∧ out.2.count v = st0.count v)
          ∨ (rpoAt m0 v = 0 ∧ rpoAt out.1 v = SEEN ∧ v ∈ L ∧ v < m0.length
              ∧ out.2.count v = st0.count v + 1)) := by
  intro L
  induction L with
  | nil =>
    intro m0 st0 out h
    simp only [List.foldlM_nil] at h
    cases h
    exact ⟨rfl, fun v => rfl, by simp, fun v => Or.inl ⟨rfl, rfl⟩⟩
  | cons c L' ih =>
    intro m0 st0 out h
    rw [List.foldlM_cons] at h
    cases hstep : cpoSucc node (m0, st0) c with
    | error e =>
      rw [hstep] at h
      cases h
    | ok st1 =>
      rw [hstep] at h
      obtain ⟨hlen1, hclen, hidom1, hc1, hdisj1⟩ := cpoSucc_char node c m0 st0 st1 hstep
      have h' : L'.foldlM (cpoSucc node) (st1.1, st1.2) = .ok out := h
      obtain ⟨hlen2, hidom2, hL2, hdisj2⟩ := ih st1.1 st1.2 out h'
      refine ⟨by rw [hlen2, hlen1], fun v => by rw [hidom2 v, hidom1 v], ?_, ?_⟩
      · intro s hs
        rcases List.mem_cons.1 hs with rfl | hs'
        · rcases hdisj2 s with ⟨he, _⟩ | ⟨_, he, _⟩
          · rw [he]
            exact hc1
          · rw [he]
            decide
        · exact hL2 s hs'
      · intro v
        rcases hdisj2 v with ⟨he2, hc2⟩ | ⟨h02, hS2, hm2, hb2, hc2⟩
        · rcases hdisj1 v with ⟨he1, hcc1⟩ | ⟨h01, hS1, hv1, hb1, hcc1⟩
          · exact Or.inl ⟨by rw [he2, he1], by rw [hc2, hcc1]⟩
          · exact Or.inr ⟨h01, by rw [he2]; exact hS1,
              by rw [hv1]; exact List.mem_cons_self _ _, hb1, by rw [hc2, hcc1]⟩
        · rcases hdisj1 v with ⟨he1, hcc1⟩ | ⟨h01, hS1, hv1, hb1, hcc1⟩
          · exact Or.inr ⟨by rw [← he1]; exact h02, hS2, List.mem_cons_of_mem _ hm2,
              by rw [← hlen1]; exact hb2, by rw [hc2, hcc1]⟩
          · rw [hS1] at h02
            exact absurd h02 (by decide)

theorem cpoAux_ok_inv (adj : List (List Nat)) :
    ∀ (fuel : Nat) (stack : List Nat) (ns : List DomNode) (po : List Nat)
      (out : List DomNode × List Nat),
      cpoAux adj fuel stack ns po = .ok out →
      CpoInv adj stack ns po →
      CpoInv adj [] out.1 out.2
      ∧ (∀ v, rpoAt ns v ≠ 0 → rpoAt out.1 v ≠ 0)
      ∧ (∀ v, idomAt out.1 v = idomAt ns v) := by
  intro fuel
  induction fuel with
  | zero =>
    intro stack ns po out h
    cases h
  | succ n ih =>
    intro stack ns po out h hinv
    cases stack with
    | nil =>
      have hout : out = (ns, po) := by
        rw [cpoAux] at h
        injection h with h2
        exact h2.symm
      rw [hout]
      exact ⟨hinv, fun v hv => hv, fun v => rfl⟩
    | cons node rest =>
      rw [cpoAux] at h
      by_cases hb : node < ns.length
      case neg =>
        rw [if_neg hb] at h
        cases h
      rw [if_pos hb] at h
      obtain ⟨⟨hlen, htri, hreach, hM0, hM1, hM2⟩, hK1⟩ := hinv
      by_cases hseen : (ns.getD node dnDefault).rpo_number = SEEN
      · rw [if_pos hseen] at h
        cases hadj : adj[node]? with
        | none =>
          simp only [hadj] at h
          cases h
        | some succs =>
          simp only [hadj] at h
          cases hfold : succs.foldlM (cpoSucc node)
              (modifyNode ns node fun d => { d with rpo_number := DONE },
                node :: rest) with
          | error e =>
            rw [hfold] at h
            simp only [Bind.bind, Except.bind] at h
            cases h
          | ok stm =>
            rw [hfold] at h
            simp only [Bind.bind, Except.bind] at h
            obtain ⟨hflen, hfidom, hfL, hfdisj⟩ := cpoFold_char node succs _ _ stm hfold
            have hmBrpo : ∀ v, rpoAt (modifyNode ns node
                fun d => { d with rpo_number := DONE }) v
                = if node = v then DONE else rpoAt ns v := by
              intro v
              show ((modifyNode ns node _).getD v dnDefault).rpo_number = _
              rw [modifyNode_getD]
              by_cases hv : node = v
              · rw [if_pos ⟨hv, hb⟩, if_pos hv]
              · have hne : ¬(node = v ∧ node < ns.length) := fun hc => hv hc.1
                rw [if_neg hne, if_neg hv]
                rfl
            have hmBidom : ∀ v, idomAt (modifyNode ns node
                fun d => { d with rpo_number := DONE }) v = idomAt ns v := by
              intro v
              show ((modifyNode ns node _).getD v dnDefault).idom = _
              rw [modifyNode_getD]
              by_cases hv : node = v
              · rw [if_pos ⟨hv, hb⟩, ← hv]
                rfl
              · have hne : ¬(node = v ∧ node < ns.length) := fun hc => hv hc.1
                rw [if_neg hne]
                rfl
            have hmBlen : (modifyNode ns node
                fun d => { d with rpo_number := DONE }).length = ns.length :=
              modifyNode_length ns node _
            have hgetD : adj.getD node [] = succs := by
              rw [List.getD_eq_getElem?_getD, hadj]
              rfl
            have hnreach : ReachesAdj adj 0 node ∧ node < adj.length :=
              hreach node (by
                show (ns.getD node dnDefault).rpo_number ≠ 0
                rw [hseen]
                decide)
            have hcount1 : (node :: rest).count node = 1 ∧ node ∉ po := hM1 node hseen
            have hmono2 : ∀ s, rpoAt ns s ≠ 0 → rpoAt stm.1 s ≠ 0 := by
              intro s hs
              have hmb : rpoAt (modifyNode ns node
                  fun d => { d with rpo_number := DONE }) s ≠ 0 := by
                rw [hmBrpo]
                by_cases hv : node = s
                · rw [if_pos hv]
                  decide
                · rw [if_neg hv]
                  exact hs
              rcases hfdisj s with ⟨he, _⟩ | ⟨_, he, _⟩
              · rw [he]
                exact hmb
              · rw [he]
                decide
            have hnewinv : CpoInv adj stm.2 stm.1 po := by
              refine ⟨⟨by rw [hflen, hmBlen, hlen], ?_, ?_, ?_, ?_, ?_⟩, ?_⟩
              · intro v
                rcases hfdisj v with ⟨he, _⟩ | ⟨_, he, _⟩
                · rw [he, hmBrpo]
                  by_cases hv : node = v
                  · rw [if_pos hv]
                    right
                    right
                    rfl
                  · rw [if_neg hv]
                    exact htri v
                · rw [he]
                  right
                  left
                  rfl
              · intro v hv
                rcases hfdisj v with ⟨he, _⟩ | ⟨_, _, hmem, hbd, _⟩
                · rw [he, hmBrpo] at hv
                  by_cases hnv : node = v
                  · rw [← hnv]
                    exact hnreach
                  · rw [if_neg hnv] at hv
                    exact hreach v hv
                · constructor
                  · refine Relation.ReflTransGen.tail hnreach.1 ?_
                    show v ∈ adj.getD node []
                    rw [hgetD]
                    exact hmem
                  · rw [← hlen, ← hmBlen]
                    exact hbd
              · intro v hv
                rcases hfdisj v with ⟨he, hc⟩ | ⟨_, he, _⟩
                · rw [he, hmBrpo] at hv
                  by_cases hnv : node = v
                  · rw [if_pos hnv] at hv
                    exact absurd hv (by decide)
                  · rw [if_neg hnv] at hv
                    obtain ⟨hc0, hp0⟩ := hM0 v hv
                    refine ⟨by rw [hc]; exact hc0, hp0⟩
                · rw [he] at hv
                  exact absurd hv (by decide)
              · intro v hv
                rcases hfdisj v with ⟨he, hc⟩ | ⟨h0, he, _, _, hc⟩
                · rw [he, hmBrpo] at hv
                  by_cases hnv : node = v
                  · rw [if_pos hnv] at hv
                    exact absurd hv (by decide)
                  · rw [if_neg hnv] at hv
                    obtain ⟨hc1, hp1⟩ := hM1 v hv
                    refine ⟨by rw [hc]; exact hc1, hp1⟩
                · rw [hmBrpo] at h0
                  by_cases hnv : node = v
                  · rw [if_pos hnv] at h0
                    exact absurd h0 (by decide)
                  · rw [if_neg hnv] at h0
                    obtain ⟨hc0, hp0⟩ := hM0 v h0
                    refine ⟨by rw [hc, hc0], hp0⟩
              · intro v hv
                rcases hfdisj v with ⟨he, hc⟩ | ⟨_, he, _⟩
                · rw [he, hmBrpo] at hv
                  by_cases hnv : node = v
                  · rw [← hnv] at hv hc ⊢
                    rw [hc]
                    have hpno : po.count node = 0 := List.count_eq_zero.2 hcount1.2
                    rw [hpno, hcount1.1]
                  · rw [if_neg hnv] at hv
                    rw [hc]
                    exact hM2 v hv
                · rw [he] at hv
                  exact absurd hv (by decide)
              · intro v hv s hs
                rcases hfdisj v with ⟨he, _⟩ | ⟨_, he, _⟩
                · rw [he, hmBrpo] at hv
                  by_cases hnv : node = v
                  · rw [← hnv] at hs
                    rw [hgetD] at hs
                    exact hfL s hs
                  · rw [if_neg hnv] at hv
                    exact hmono2 s (hK1 v hv s hs)
                · rw [he] at hv
                  exact absurd hv (by decide)
            obtain ⟨hfin, hmono3, hidom3⟩ := ih stm.2 stm.1 po out h hnewinv
            exact ⟨hfin, fun v hv => hmono3 v (hmono2 v hv),
              fun v => by rw [hidom3 v, hfidom v, hmBidom v]⟩
      · rw [if_neg hseen] at h
        by_cases hdone : (ns.getD node dnDefault).rpo_number = DONE
        · rw [if_pos hdone] at h
          have hcnode : (node :: rest).count node + po.count node = 1 := hM2 node hdone
          have hhead : 0 < (node :: rest).count node :=
            List.count_pos_iff.2 (List.mem_cons_self _ _)
          have hrest0 : rest.count node = 0 := by
            rw [List.count_cons] at hcnode
            simp at hcnode
            omega
          have hpo0 : po.count node = 0 := by omega
          have hnotpo : node ∉ po := List.count_eq_zero.1 hpo0
          have hnewinv : CpoInv adj rest ns (po ++ [node]) := by
            refine ⟨⟨hlen, htri, hreach, ?_, ?_, ?_⟩, hK1⟩
            · intro v hv
              obtain ⟨hc0, hp0⟩ := hM0 v hv
              have hvn : v ≠ node := by
                intro hvn
                rw [hvn] at hv
                have hveq : (ns.getD node dnDefault).rpo_number = 0 := hv
                rw [hveq] at hdone
                exact absurd hdone (by decide)
              rw [List.count_cons] at hc0
              constructor
              · omega
              · intro hc
                rcases List.mem_append.1 hc with hc' | hc'
                · exact hp0 hc'
                · simp at hc'
                  exact hvn hc'
            · intro v hv
              obtain ⟨hc1, hp1⟩ := hM1 v hv
              have hvn : v ≠ node := by
                intro hvn
                rw [hvn] at hv
                exact hseen hv
              rw [List.count_cons] at hc1
              have hnv2 : ¬ node = v := fun hc => hvn hc.symm
              simp [hnv2] at hc1
              constructor
              · exact hc1
              · intro hc
                rcases List.mem_append.1 hc with hc' | hc'
                · exact hp1 hc'
                · simp at hc'
                  exact hvn hc'
            · intro v hv
              by_cases hvn : v = node
              · rw [hvn, hrest0, List.count_append, hpo0]
                simp
              · have hm2 := hM2 v hv
                rw [List.count_cons] at hm2
                have hnv2 : ¬ node = v := fun hc => hvn hc.symm
                simp [hnv2] at hm2
                rw [List.count_append]
                have hone : [node].count v = 0 := by
                  rw [List.count_eq_zero]
                  simp [hvn]
                omega
          obtain ⟨hfin, hmono3, hidom3⟩ := ih rest ns (po ++ [node]) out h hnewinv
          exact ⟨hfin, hmono3, hidom3⟩
        · rw [if_neg hdone] at h
          cases h

theorem compute_postorder_char (adj : List (List Nat)) (out : List DomNode × List Nat)
    (h : compute_postorder adj (List.replicate adj.length dnDefault) = .ok out) :
    out.1.length = adj.length
    ∧ (∀ v, v ∈ out.2 ↔ ReachesAdj adj 0 v)
    ∧ out.2.Nodup
    ∧ (∀ v ∈ out.2, v < adj.length)
    ∧ (∀ v, idomAt out.1 v = none) := by
  rw [compute_postorder] at h
  by_cases h0 : 0 < (List.replicate adj.length dnDefault).length
  case neg =>
    rw [if_neg h0] at h
    cases h
  rw [if_pos h0] at h
  rw [List.length_replicate] at h0
  have hrep : ∀ v, rpoAt (List.replicate adj.length dnDefault) v = 0 := by
    intro v
    show ((List.replicate adj.length dnDefault).getD v dnDefault).rpo_number = 0
    rw [List.getD_eq_getElem?_getD]
    cases hx : (List.replicate adj.length dnDefault)[v]? with
    | none => rfl
    | some d =>
      have := List.getElem?_mem hx
      rw [List.eq_of_mem_replicate this]
      rfl
  have hrepi : ∀ v, idomAt (List.replicate adj.length dnDefault) v = none := by
    intro v
    show ((List.replicate adj.length dnDefault).getD v dnDefault).idom = none
    rw [List.getD_eq_getElem?_getD]
    cases hx : (List.replicate adj.length dnDefault)[v]? with
    | none => rfl
    | some d =>
      have := List.getElem?_mem hx
      rw [List.eq_of_mem_replicate this]
      rfl
  have hlen0 : (List.replicate adj.length dnDefault).length = adj.length :=
    List.length_replicate _ _
  have hns0rpo : ∀ v, rpoAt (modifyNode (List.replicate adj.length dnDefault) 0
      fun d => { d with rpo_number := SEEN }) v = if 0 = v then SEEN else 0 := by
    intro v
    show ((modifyNode _ 0 _).getD v dnDefault).rpo_number = _
    rw [modifyNode_getD]
    by_cases hv : (0 : Nat) = v
    · rw [if_pos ⟨hv, by rw [hlen0]; exact h0⟩, if_pos hv]
    · have hne : ¬((0 : Nat) = v ∧ 0 < (List.replicate adj.length dnDefault).length) :=
        fun hc => hv hc.1
      rw [if_neg hne, if_neg hv]
      exact hrep v
  have hns0idom : ∀ v, idomAt (modifyNode (List.replicate adj.length dnDefault) 0
      fun d => { d with rpo_number := SEEN }) v = none := by
    intro v
    show ((modifyNode _ 0 _).getD v dnDefault).idom = none
    rw [modifyNode_getD]
    by_cases hv : (0 : Nat) = v
    · rw [if_pos ⟨hv, by rw [hlen0]; exact h0⟩]
      show ((List.replicate adj.length dnDefault).getD 0 dnDefault).idom = none
      exact hrepi 0
    · have hne : ¬((0 : Nat) = v ∧ 0 < (List.replicate adj.length dnDefault).length) :=
        fun hc => hv hc.1
      rw [if_neg hne]
      exact hrepi v
  have hinv0 : CpoInv adj [0] (modifyNode (List.replicate adj.length dnDefault) 0
      fun d => { d with rpo_number := SEEN }) [] := by
    refine ⟨⟨by rw [modifyNode_length, hlen0], ?_, ?_, ?_, ?_, ?_⟩, ?_⟩
    · intro v
      rw [hns0rpo]
      by_cases hv : (0 : Nat) = v
      · rw [if_pos hv]
        right
        left
        rfl
      · rw [if_neg hv]
        left
        rfl
    · intro v hv
      rw [hns0rpo] at hv
      by_cases h0v : (0 : Nat) = v
      · rw [← h0v]
        exact ⟨Relation.ReflTransGen.refl, h0⟩
      · rw [if_neg h0v] at hv
        exact absurd rfl hv
    · intro v hv
      rw [hns0rpo] at hv
      by_cases h0v : (0 : Nat) = v
      · rw [if_pos h0v] at hv
        exact absurd hv (by decide)
      · refine ⟨?_, by simp⟩
        rw [List.count_eq_zero]
        simp
        exact fun hc => h0v hc.symm
    · intro v hv
      rw [hns0rpo] at hv
      by_cases h0v : (0 : Nat) = v
      · rw [← h0v]
        constructor
        · rw [List.count_cons]
          simp
        · simp
      · rw [if_neg h0v] at hv
        exact absurd hv (by decide)
    · intro v hv
      rw [hns0rpo] at hv
      by_cases h0v : (0 : Nat) = v
      · rw [if_pos h0v] at hv
        exact absurd hv (by decide)
      · rw [if_neg h0v] at hv
        exact absurd hv (by decide)
    · intro v hv
      rw [hns0rpo] at hv
      by_cases h0v : (0 : Nat) = v
      · rw [if_pos h0v] at hv
        exact absurd hv (by decide)
      · rw [if_neg h0v] at hv
        exact absurd hv (by decide)
  obtain ⟨⟨hlen, htri, hreach, hM0, hM1, hM2⟩, hK1⟩ := (cpoAux_ok_inv adj _ _ _ _ out h hinv0).1
  obtain ⟨-, hmono, hidom⟩ := cpoAux_ok_inv adj _ _ _ _ out h hinv0
  have hdone_mem : ∀ v, v ∈ out.2 ↔ rpoAt out.1 v = DONE := by
    intro v
    constructor
    · intro hv
      rcases htri v with h' | h' | h'
      · exact absurd hv (hM0 v h').2
      · exact absurd hv (hM1 v h').2
      · exact h'
    · intro hv
      have := hM2 v hv
      rw [List.count_nil] at this
      exact List.count_pos_iff.1 (by omega)
  have hne0_done : ∀ v, rpoAt out.1 v ≠ 0 → rpoAt out.1 v = DONE := by
    intro v hv
    rcases htri v with h' | h' | h'
    · exact absurd h' hv
    · obtain ⟨hc, -⟩ := hM1 v h'
      rw [List.count_nil] at hc
      cases hc
    · exact h'
  refine ⟨by rw [hlen], ?_, ?_, ?_, fun v => by rw [hidom v]; exact hns0idom v⟩
  · intro v
    constructor
    · intro hv
      exact (hreach v (by rw [(hdone_mem v).1 hv]; decide)).1
    · intro hv
      induction hv with
      | refl =>
        refine (hdone_mem 0).2 (hne0_done 0 (hmono 0 ?_))
        rw [hns0rpo 0, if_pos rfl]
        decide
      | tail h1 h2 ih2 =>
        have hdone := (hdone_mem _).1 ih2
        have := hK1 _ hdone _ h2
        exact (hdone_mem _).2 (hne0_done _ this)
  · rw [List.nodup_iff_count_le_one]
    intro v
    by_cases hv : v ∈ out.2
    · have := hM2 v ((hdone_mem v).1 hv)
      rw [List.count_nil] at this
      omega
    · rw [List.count_eq_zero.2 hv]
      omega
  · intro v hv
    exact (hreach v (by rw [(hdone_mem v).1 hv]; decide)).2

theorem fpFold_domain (cdFuel : Nat) :
    ∀ (L : List (Nat × Nat)) (ns ns' : List DomNode),
      L.foldlM (fpStep cdFuel) ns = .ok ns' →
      ns'.length = ns.length
      ∧ ∀ v, (idomAt ns' v).isSome
          ↔ ((v ∈ L.map Prod.snd ∧ v < ns.length) ∨ (idomAt ns v).isSome) := by
  intro L
  induction L with
  | nil =>
    intro ns ns' h
    simp only [List.foldlM_nil] at h
    cases h
    exact ⟨rfl, fun v => by simp⟩
  | cons ie L' ih =>
    intro ns ns' h
    rw [List.foldlM_cons] at h
    cases hstep : fpStep cdFuel ns ie with
    | error e =>
      rw [hstep] at h
      cases h
    | ok ns1 =>
      rw [hstep] at h
      obtain ⟨hlen2, hiff2⟩ := ih ns1 ns' h
      rw [fpStep] at hstep
      cases hidv : compute_idom cdFuel ns ie.2 with
      | error e =>
        rw [hidv] at hstep
        cases hstep
      | ok idv =>
        rw [hidv] at hstep
        simp only [Bind.bind, Except.bind, pure, Except.pure] at hstep
        have hns1 : ns1 = modifyNode ns ie.2 fun d =>
            { d with idom := some idv, rpo_number := (ie.1 + 3) * STRIDE } := by
          injection hstep with h2
          rw [h2]
        have hlen1 : ns1.length = ns.length := by
          rw [hns1, modifyNode_length]
        have hidom1 : ∀ v, idomAt ns1 v
            = if ie.2 = v ∧ ie.2 < ns.length then some idv else idomAt ns v := by
          intro v
          rw [hns1]
          show ((modifyNode ns ie.2 _).getD v dnDefault).idom = _
          rw [modifyNode_getD]
          by_cases hc : ie.2 = v ∧ ie.2 < ns.length
          · rw [if_pos hc, if_pos hc]
          · rw [if_neg hc, if_neg hc]
            rfl
        refine ⟨by rw [hlen2, hlen1], ?_⟩
        intro v
        rw [hiff2 v, hlen1, hidom1 v]
        constructor
        · rintro (⟨hm, hb⟩ | hs)
          · exact Or.inl ⟨List.mem_cons_of_mem _ hm, hb⟩
          · by_cases hc : ie.2 = v ∧ ie.2 < ns.length
            · rw [if_pos hc]  at hs
              exact Or.inl ⟨by rw [← hc.1]; exact List.mem_cons_self _ _,
                by rw [← hc.1]; exact hc.2⟩
            · rw [if_neg hc] at hs
              exact Or.inr hs
        · rintro (⟨hm, hb⟩ | hs)
          · rcases List.mem_cons.1 hm with he | hm'
            · right
              rw [if_pos ⟨he.symm, by rw [← he]; exact hb⟩]
              rfl
            · exact Or.inl ⟨hm', hb⟩
          · right
            by_cases hc : ie.2 = v ∧ ie.2 < ns.length
            · rw [if_pos hc]
              rfl
            · rw [if_neg hc]
              exact hs

theorem fxFold_domain (cdFuel : Nat) :
    ∀ (L : List Nat) (st0 out : List DomNode × Bool),
      L.foldlM (fxStep cdFuel) st0 = .ok out →
      out.1.length = st0.1.length
      ∧ ∀ v, (idomAt out.1 v).isSome
          ↔ ((v ∈ L ∧ v < st0.1.length) ∨ (idomAt st0.1 v).isSome) := by
  intro L
  induction L with
  | nil =>
    intro st0 out h
    simp only [List.foldlM_nil] at h
    cases h
    exact ⟨rfl, fun v => by simp⟩
  | cons node L' ih =>
    intro st0 out h
    rw [List.foldlM_cons] at h
    cases hstep : fxStep cdFuel st0 node with
    | error e =>
      rw [hstep] at h
      cases h
    | ok st1 =>
      rw [hstep] at h
      obtain ⟨hlen2, hiff2⟩ := ih st1 out h
      rw [fxStep] at hstep
      cases hidv : compute_idom cdFuel st0.1 node with
      | error e =>
        rw [hidv] at hstep
        cases hstep
      | ok idv =>
        rw [hidv] at hstep
        simp only [Bind.bind, Except.bind] at hstep
        by_cases hch : (st0.1.getD node dnDefault).idom ≠ some idv
        · rw [if_pos hch] at hstep
          simp only [pure, Except.pure] at hstep
          have hst1 : st1.1 = modifyNode st0.1 node
              fun d => { d with idom := some idv } := by
            injection hstep with h2
            rw [← h2]
          have hlen1 : st1.1.length = st0.1.length := by
            rw [hst1, modifyNode_length]
          have hidom1 : ∀ v, idomAt st1.1 v
              = if node = v ∧ node < st0.1.length then some idv else idomAt st0.1 v := by
            intro v
            rw [hst1]
            show ((modifyNode st0.1 node _).getD v dnDefault).idom = _
            rw [modifyNode_getD]
            by_cases hc : node = v ∧ node < st0.1.length
            · rw [if_pos hc, if_pos hc]
            · rw [if_neg hc, if_neg hc]
              rfl
          refine ⟨by rw [hlen2, hlen1], ?_⟩
          intro v
          rw [hiff2 v, hlen1, hidom1 v]
          constructor
          · rintro (⟨hm, hb⟩ | hs)
            · exact Or.inl ⟨List.mem_cons_of_mem _ hm, hb⟩
            · by_cases hc : node = v ∧ node < st0.1.length
              · rw [if_pos hc] at hs
                exact Or.inl ⟨by rw [← hc.1]; exact List.mem_cons_self _ _,
                  by rw [← hc.1]; exact hc.2⟩
              · rw [if_neg hc] at hs
                exact Or.inr hs
          · rintro (⟨hm, hb⟩ | hs)
            · rcases List.mem_cons.1 hm with he | hm'
              · right
                rw [if_pos ⟨he.symm, by rw [← he]; exact hb⟩]
                rfl
              · exact Or.inl ⟨hm', hb⟩
            · right
              by_cases hc : node = v ∧ node < st0.1.length
              · rw [if_pos hc]
                rfl
              · rw [if_neg hc]
                exact hs
        · rw [if_neg hch] at hstep
          simp only [pure, Except.pure] at hstep
          have hst1 : st1 = st0 := by
            injection hstep with h2
            rw [← h2]
          rw [hst1] at hlen2 hiff2
          refine ⟨hlen2, ?_⟩
          intro v
          rw [hiff2 v]
          constructor
          · rintro (⟨hm, hb⟩ | hs)
            · exact Or.inl ⟨List.mem_cons_of_mem _ hm, hb⟩
            · exact Or.inr hs
          · rintro (⟨hm, hb⟩ | hs)
            · rcases List.mem_cons.1 hm with he | hm'
              · right
                rw [he]
                show ((st0.1.getD node dnDefault).idom).isSome = true
                have hsome : (st0.1.getD node dnDefault).idom = some idv := by
                  by_contra hc
                  exact hch hc
                rw [hsome]
                rfl
              · exact Or.inl ⟨hm', hb⟩
            · exact Or.inr hs

theorem fixAux_domain (cdFuel : Nat) (po : List Nat) :
    ∀ (fuel : Nat) (ns out : List DomNode),
      fixAux cdFuel po fuel ns = .ok out →
      out.length = ns.length
      ∧ ∀ v, (idomAt out v).isSome
          ↔ ((v ∈ po ∧ v < ns.length) ∨ (idomAt ns v).isSome) := by
  intro fuel
  induction fuel with
  | zero =>
    intro ns out h
    cases h
  | succ n ih =>
    intro ns out h
    rw [fixAux] at h
    cases hfold : po.reverse.foldlM (fxStep cdFuel) (ns, false) with
    | error e =>
      rw [hfold] at h
      cases h
    | ok st =>
      rw [hfold] at h
      simp only [Bind.bind, Except.bind] at h
      obtain ⟨hlen1, hiff1⟩ := fxFold_domain cdFuel po.reverse (ns, false) st hfold
      by_cases hch : st.2 = true
      · rw [if_pos hch] at h
        obtain ⟨hlen2, hiff2⟩ := ih st.1 out h
        refine ⟨by rw [hlen2, hlen1], ?_⟩
        intro v
        rw [hiff2 v, hlen1, hiff1 v]
        constructor
        · rintro (⟨hm, hb⟩ | ⟨hm, hb⟩ | hs)
          · exact Or.inl ⟨hm, hb⟩
          · exact Or.inl ⟨List.mem_reverse.1 hm, hb⟩
          · exact Or.inr hs
        · rintro (⟨hm, hb⟩ | hs)
          · exact Or.inl ⟨hm, hb⟩
          · exact Or.inr (Or.inr hs)
      · rw [if_neg hch] at h
        simp only [pure, Except.pure] at h
        have hout : out = st.1 := by
          injection h with h2
          rw [← h2]
        rw [hout]
        refine ⟨hlen1, ?_⟩
        intro v
        rw [hiff1 v]
        constructor
        · rintro (⟨hm, hb⟩ | hs)
          · exact Or.inl ⟨List.mem_reverse.1 hm, hb⟩
          · exact Or.inr hs
        · rintro (⟨hm, hb⟩ | hs)
          · exact Or.inl ⟨List.mem_reverse.2 hm, hb⟩
          · exact Or.inr hs

theorem compute_domtree_char (cdFuel fixFuel : Nat) (t out : DominatorTree)
    (h : compute_domtree true cdFuel fixFuel t = .ok out) :
    t.postorder.getLast? = some 0
    ∧ out.postorder = t.postorder.dropLast
    ∧ out.nodes.length = t.nodes.length
    ∧ ∀ v, (idomAt out.nodes v).isSome
        ↔ ((v ∈ t.postorder.dropLast ∧ v < t.nodes.length)
            ∨ (idomAt t.nodes v).isSome) := by
  rw [compute_domtree] at h
  simp only [if_true] at h
  by_cases hlast : t.postorder.getLast? = some 0
  case neg =>
    rw [if_neg hlast] at h
    simp only [Bind.bind, Except.bind] at h
    cases h
  case pos =>
    rw [if_pos hlast] at h
    simp only [Bind.bind, Except.bind, pure, Except.pure] at h
    by_cases h0 : 0 < t.nodes.length
    case neg =>
      rw [if_neg h0] at h
      cases h
    case pos =>
      rw [if_pos h0] at h
      cases hfp : t.postorder.dropLast.reverse.enum.foldlM (fpStep cdFuel)
          (modifyNode t.nodes 0 fun d => { d with rpo_number := 2 * STRIDE }) with
      | error e =>
        simp only [hfp] at h
        cases h
      | ok ns1 =>
        simp only [hfp] at h
        cases hfx : fixAux cdFuel t.postorder.dropLast fixFuel ns1 with
        | error e =>
          simp only [hfx] at h
          cases h
        | ok ns2 =>
          simp only [hfx] at h
          have hout : out = ⟨ns2, t.postorder.dropLast⟩ := by
            injection h with h2
            rw [← h2]
          have hns0len : (modifyNode t.nodes 0
              fun d => { d with rpo_number := 2 * STRIDE }).length = t.nodes.length :=
            modifyNode_length _ _ _
          have hns0idom : ∀ v, idomAt (modifyNode t.nodes 0
              fun d => { d with rpo_number := 2 * STRIDE }) v = idomAt t.nodes v := by
            intro v
            show ((modifyNode t.nodes 0 _).getD v dnDefault).idom = _
            rw [modifyNode_getD]
            by_cases hv : (0 : Nat) = v
            · rw [if_pos ⟨hv, h0⟩, ← hv]
              rfl
            · have hne : ¬((0 : Nat) = v ∧ 0 < t.nodes.length) := fun hc => hv hc.1
              rw [if_neg hne]
              rfl
          obtain ⟨hlen1, hiff1⟩ := fpFold_domain cdFuel _ _ ns1 hfp
          obtain ⟨hlen2, hiff2⟩ := fixAux_domain cdFuel _ fixFuel ns1 ns2 hfx
          have hms : (t.postorder.dropLast.reverse.enum).map Prod.snd
              = t.postorder.dropLast.reverse := List.enum_map_snd _
          refine ⟨hlast, by rw [hout], by rw [hout]; rw [hlen2, hlen1, hns0len], ?_⟩
          intro v
          have hgoal : idomAt out.nodes v = idomAt ns2 v := by rw [hout]
          rw [hgoal, hiff2 v, hlen1, hns0len, hiff1 v, hms, hns0len]
          constructor
          · rintro (⟨hm, hb⟩ | ⟨hm, hb⟩ | hs)
            · exact Or.inl ⟨hm, hb⟩
            · exact Or.inl ⟨List.mem_reverse.1 hm, hb⟩
            · rw [hns0idom v] at hs
              exact Or.inr hs
          · rintro (⟨hm, hb⟩ | hs)
            · exact Or.inl ⟨hm, hb⟩
            · right
              right
              rw [hns0idom v]
              exact hs

/-- C1 (code defect). In builds with debug assertions compiled in,
whenever the engine completes, its mapping is defined at exactly the
nodes reachable from the root (index 0), the root itself excluded —
the domain half of the claim. The release configuration provably
violates this (see the counterexample): the `pop()` that removes the
root from the postorder lives inside `debug_assert_eq!` and is
compiled out, so the engine also processes the root, binds `idom`
at it whenever it has a predecessor, and panics when it has none.
The value-level immediate-dominator property is not settled here. -/
theorem c1_debug_domain (adj : List (List Nat)) (cdFuel fixFuel : Nat) (t : DominatorTree)
    (hok : DominatorTree.from_graph true cdFuel fixFuel adj = .ok t) :
    ∀ v, v < adj.length →
      ((t.idomOf v).isSome ↔ (ReachesAdj adj 0 v ∧ v ≠ 0)) := by
  rw [DominatorTree.from_graph, DominatorTree.compute] at hok
  cases hcp : compute_postorder adj (List.replicate adj.length dnDefault) with
  | error e =>
    simp only [hcp, Bind.bind, Except.bind] at hok
    cases hok
  | ok st =>
    simp only [hcp, Bind.bind, Except.bind] at hok
    obtain ⟨hlen1, hmem, hnd, hbd, hidnone⟩ := compute_postorder_char adj st hcp
    have hchar := compute_domtree_char cdFuel fixFuel ⟨st.1, st.2⟩ t hok
    have hlast : st.2.getLast? = some 0 := hchar.1
    have hdom : ∀ v, (idomAt t.nodes v).isSome
        ↔ ((v ∈ st.2.dropLast ∧ v < st.1.length) ∨ (idomAt st.1 v).isSome) :=
      hchar.2.2.2
    intro v hv
    have hdv2 : (t.idomOf v).isSome ↔ (v ∈ st.2.dropLast ∧ v < st.1.length) := by
      have h1 : (t.idomOf v).isSome
          ↔ ((v ∈ st.2.dropLast ∧ v < st.1.length) ∨ (idomAt st.1 v).isSome) := hdom v
      rw [h1, hidnone v]
      simp
    have hne : st.2 ≠ [] := by
      intro he
      rw [he] at hlast
      simp at hlast
    have hlast0 : st.2.getLast hne = 0 := by
      have := List.getLast?_eq_getLast st.2 hne
      rw [this] at hlast
      injection hlast
    have hsplit : st.2 = st.2.dropLast ++ [0] := by
      rw [← hlast0]
      exact (List.dropLast_append_getLast hne).symm
    have h0nd : 0 ∉ st.2.dropLast := by
      have hnd2 := hnd
      rw [hsplit, List.nodup_append] at hnd2
      intro hc
      exact hnd2.2.2 hc (by simp)
    have hmemdl : v ∈ st.2.dropLast ↔ (v ∈ st.2 ∧ v ≠ 0) := by
      constructor
      · intro h
        refine ⟨by rw [hsplit]; exact List.mem_append.2 (Or.inl h), ?_⟩
        intro h0
        rw [h0] at h
        exact h0nd h
      · rintro ⟨hm, hv0⟩
        rw [hsplit] at hm
        rcases List.mem_append.1 hm with h | h
        · exact h
        · simp at h
          exact absurd h hv0
    rw [hdv2, hmemdl, hmem v]
    constructor
    · rintro ⟨⟨h1, h2⟩, _⟩
      exact ⟨h1, h2⟩
    · rintro ⟨h1, h2⟩
      exact ⟨⟨h1, h2⟩, by rw [hlen1]; exact hv⟩

/-- C1 counterexample, the two build configurations diverging. On the
one-node self-loop graph the release engine (`dbg = false`) binds the
root in the mapping while the debug engine leaves it out; on the
two-node graph `0 → 1` the release engine panics outright (the root
has no predecessor for `compute_idom` to `expect`) while the debug
engine returns the correct mapping. -/
theorem c1_counterexample :
    (DominatorTree.from_graph false 100 100 [[0]]).map (fun t => t.idomOf 0)
      = .ok (some 0)
    ∧ (DominatorTree.from_graph true 100 100 [[0]]).map (fun t => t.idomOf 0)
      = .ok none
    ∧ DominatorTree.from_graph false 100 100 [[1], []] = .error ()
    ∧ (DominatorTree.from_graph true 100 100 [[1], []]).map
        (fun t => (t.idomOf 0, t.idomOf 1)) = .ok (none, some 0) :=
  ⟨by decide, by decide, by decide, by decide⟩

theorem c1_witness :
    ReachesAdj [[1], []] 0 1
    ∧ ((DominatorTree.mk [⟨[], 8, none⟩, ⟨[0], 12, some 0⟩] [1]).idomOf 0).isSome = false := by
  have h := c1_debug_domain [[1], []] 100 100
    (DominatorTree.mk [⟨[], 8, none⟩, ⟨[0], 12, some 0⟩] [1]) (by decide)
  constructor
  · exact ((h 1 (by decide)).1 (by decide)).1
  · cases hi : ((DominatorTree.mk [⟨[], 8, none⟩, ⟨[0], 12, some 0⟩] [1]).idomOf 0).isSome
    · rfl
    · exact absurd ((h 0 (by decide)).1 hi).2 (by decide)

/-- C3 counterexample: in whole-graph mode on a two-node graph with no
edges, the dominated subgraph holds the root and the rest list holds
the other node, so their union is the whole node set — strictly larger
than the set of nodes reachable from the root, which contains only the
root's address. -/
theorem c3_counterexample :
    remove_unreachable 0 (RefGraph.mk [⟨0, 0, "ROOT", some "root"⟩,
        ⟨16, 10, "ARRAY", none⟩] []) []
      = some (0, RefGraph.mk [⟨0, 0, "ROOT", some "root"⟩] [],
          [⟨16, 10, "ARRAY", none⟩], [])
    ∧ find_reachable_indices 0 (RefGraph.mk [⟨0, 0, "ROOT", some "root"⟩,
        ⟨16, 10, "ARRAY", none⟩] []) = [0]
    ∧ ((16 : Nat) ∈ (([⟨0, 0, "ROOT", some "root"⟩] : List Object)
        ++ ([⟨16, 10, "ARRAY", none⟩] : List Object)).map Object.address)
    ∧ ¬ ((16 : Nat) ∈ ([0] : List Nat).map
        (RefGraph.addrAt (RefGraph.mk [⟨0, 0, "ROOT", some "root"⟩,
          ⟨16, 10, "ARRAY", none⟩] []))) :=
  ⟨by decide, by decide, by decide, by decide⟩

theorem c3_witness :
    (exampleGraph.nodes ++ ([] : List Object)).Perm exampleGraph.nodes
    ∧ ((exampleGraph.nodes ++ ([] : List Object)).map Object.address).Perm
        ((find_reachable_indices 0 exampleGraph).map exampleGraph.addrAt)
    ∧ ReachesG exampleGraph 0 3 := by
  have h01 : stepG exampleGraph 0 1 := by
    show (1 : Nat) ∈ exampleGraph.succList 0
    decide
  have h12 : stepG exampleGraph 1 2 := by
    show (2 : Nat) ∈ exampleGraph.succList 1
    decide
  have h13 : stepG exampleGraph 1 3 := by
    show (3 : Nat) ∈ exampleGraph.succList 1
    decide
  have hdom : ∀ p ∈ exampleDoms, ReachesG exampleGraph p.2 p.1 := by
    intro p hp
    simp only [exampleDoms, List.mem_cons, List.not_mem_nil, or_false] at hp
    rcases hp with rfl | rfl | rfl
    · exact Relation.ReflTransGen.single h01
    · exact Relation.ReflTransGen.single h12
    · exact Relation.ReflTransGen.single h13
  have h := c3_dominated_rest_partition exampleGraph 0 exampleDoms (by decide) (by decide)
    (by decide) ⟨id, by decide⟩ (by decide) (by decide) hdom
  have hA := h.2.1 0 exampleGraph [] exampleDoms (by decide)
  have hB := h.2.2 0 exampleGraph [] exampleDoms (by decide)
  exact ⟨hA.2.1, hB.2, (h.1 3).1 (by decide)⟩

theorem c2_witness :
    alLookup 1 (dominator_subtree_sizes exampleGraph exampleDoms)
      = some (sumStats ((exampleGraph.indicesList.filter fun u =>
          decide (u = 1) || decide (1 ∈ chain exampleDoms u)).map
          fun u => (exampleGraph.objAt u).stats))
    ∧ alLookup 0 (dominator_subtree_sizes exampleGraph exampleDoms)
      = some (sumStats (exampleGraph.indicesList.map fun u => (exampleGraph.objAt u).stats)) :=
  ⟨(c2_subtree_sizes_sum exampleGraph exampleDoms ⟨id, by decide⟩).1 1 (by decide),
   (c2_subtree_sizes_sum exampleGraph exampleDoms ⟨id, by decide⟩).2 0 (by decide)
     (by decide)⟩

theorem c4_witness :
    (exampleAnalysis.relevant_dominator_subgraph 0).isSome = true
    ∧ ((exampleAnalysis.relevant_dominator_subgraph 0).getD (RefGraph.mk [] [])).edges.length + 1
      = ((exampleAnalysis.relevant_dominator_subgraph 0).getD (RefGraph.mk [] [])).nodes.length := by
  obtain ⟨out, h1, h2, h3, h4, h5⟩ :=
    c4_relevant_subgraph_tree exampleAnalysis 0 rfl ⟨id, by decide⟩
      (by
        intro i
        rw [alLookup_isSome]
        simp [exampleAnalysis, exampleDoms, exampleGraph, RefGraph.indicesList]
        omega)
      (by decide) (by decide) (by norm_num)
  rw [h1]
  exact ⟨rfl, h4⟩

end Reap
